import Mathlib

/-!
# qtree: a fixed-depth quad tree over axis-aligned rectangles

A shallow embedding of `rect.hpp`, `qnode.hpp` and `quad_tree.hpp`.

* The coordinate type `TCoordinate` is a type parameter `T` carrying a linear order
  and ring arithmetic; the division by `static_cast<TCoordinate>(2)` is the
  operation `Coordinate.half`, which truncates on `Int` and is exact on `Rat`.
  The instance on `Int` is the arithmetic of the integers without bounds and the
  one on `Rat` stands for exact coordinates; the arithmetic of a signed integer type
  of a fixed number of bits, with wrap-around on overflow, is modelled apart
  (`child_bounds_signed`, `build_signed`, `width_signed`, `height_signed`).
* The template parameter `Depth` is the index of the type family `quad_tree`.
* A throwing constructor returns `Except`; a mutating member function returns the
  new state next to its result; an output collection is passed in and returned.
-/

namespace qtree

/-! ## rect.hpp -/

/-- The exception type of the checked constructor of rect: std::invalid_argument. -/
inductive Error where
  | invalid_argument
  deriving DecidableEq

/-- Class rect: the four public constant fields. -/
structure rect (T : Type) where
  left : T
  top : T
  right : T
  bottom : T
  deriving DecidableEq

section rect_ops

variable {T : Type} [LinearOrderedCommRing T]

/-- Default constructor of rect: zero initializes the coordinates. -/
def rect.zero : rect T := ⟨0, 0, 0, 0⟩

/-- Checked constructor of rect: throws if right is smaller than left or bottom is
smaller than top (the member initializers run in the order left, top, right, bottom). -/
def rect.new (left top right bottom : T) : Except Error (rect T) :=
  if right < left then Except.error Error.invalid_argument
  else if bottom < top then Except.error Error.invalid_argument
  else Except.ok ⟨left, top, right, bottom⟩

/-- The class invariant the checked constructor establishes. -/
def rect.valid (r : rect T) : Prop := r.left ≤ r.right ∧ r.top ≤ r.bottom

instance (r : rect T) : Decidable r.valid := by
  unfold rect.valid; infer_instance

/-- Member operator!= of rect. -/
def rect.ne (self other : rect T) : Bool :=
  self.left != other.left || self.top != other.top || self.right != other.right
    || self.bottom != other.bottom

/-- Member operator== of rect. -/
def rect.eq (self other : rect T) : Bool := !(self.ne other)

/-- Member width of rect. -/
def rect.width (self : rect T) : T := self.right - self.left

/-- Member height of rect. -/
def rect.height (self : rect T) : T := self.bottom - self.top

/-- Member contains of rect: the given rect fits inside this one. -/
def rect.contains (self other : rect T) : Bool :=
  decide (self.left ≤ other.left) && decide (self.right ≥ other.right)
    && decide (self.top ≤ other.top) && decide (self.bottom ≥ other.bottom)

/-- Member overlaps of rect: four strict comparisons. -/
def rect.overlaps (self other : rect T) : Bool :=
  decide (self.left < other.right) && decide (self.right > other.left)
    && decide (self.bottom > other.top) && decide (self.top < other.bottom)

end rect_ops

/-! ## quad_tree.hpp: child_bounds -/

/-- The division of a coordinate by static_cast<TCoordinate>(2). -/
class Coordinate (T : Type) where
  half : T → T

/-- Integer coordinates without bounds: the division of C++ truncates towards zero.
The arithmetic of a signed integer type of a fixed number of bits agrees with this
one as long as nothing overflows. -/
instance instCoordinateInt : Coordinate Int := ⟨fun x => Int.tdiv x 2⟩

/-- Exact coordinates: the division is the one of the field. -/
instance instCoordinateRat : Coordinate Rat := ⟨fun x => x / 2⟩

/-- The only facts about halving that the tree relies on: the half of a non-negative
length is a non-negative length that is not larger. -/
class LawfulCoordinate (T : Type) [LinearOrderedCommRing T] [Coordinate T] : Prop where
  half_nonneg : ∀ x : T, 0 ≤ x → 0 ≤ Coordinate.half x
  half_le : ∀ x : T, 0 ≤ x → Coordinate.half x ≤ x

instance instLawfulCoordinateInt : LawfulCoordinate Int where
  half_nonneg := by
    intro x hx
    show 0 ≤ Int.tdiv x 2
    rw [Int.tdiv_eq_ediv hx (by decide)]
    omega
  half_le := by
    intro x hx
    show Int.tdiv x 2 ≤ x
    rw [Int.tdiv_eq_ediv hx (by decide)]
    omega

instance instLawfulCoordinateRat : LawfulCoordinate Rat where
  half_nonneg := by
    intro x hx
    show 0 ≤ x / 2
    linarith
  half_le := by
    intro x hx
    show x / 2 ≤ x
    linarith

/-- The template argument Location of child_bounds: the constants NorthWest() = 0,
NorthEast() = 1, SouthEast() = 2 and SouthWest() = 3. -/
inductive Location where
  | NorthWest
  | NorthEast
  | SouthEast
  | SouthWest
  deriving DecidableEq

/-- The value of a location constant, which is also its index in the child array. -/
def Location.index : Location → Nat
  | Location.NorthWest => 0
  | Location.NorthEast => 1
  | Location.SouthEast => 2
  | Location.SouthWest => 3

section tree_defs

variable {E T : Type} [LinearOrderedCommRing T]

/-- Function child_bounds: the bounds of the child in the given position. Each case
builds its rect through the checked constructor. -/
def child_bounds [Coordinate T] (loc : Location) (parentBounds : rect T) :
    Except Error (rect T) :=
  match loc with
  | Location.NorthWest =>
    rect.new
      parentBounds.left
      parentBounds.top
      (parentBounds.left + Coordinate.half (parentBounds.right - parentBounds.left))
      (parentBounds.top + Coordinate.half (parentBounds.bottom - parentBounds.top))
  | Location.NorthEast =>
    rect.new
      (parentBounds.left + Coordinate.half (parentBounds.right - parentBounds.left))
      parentBounds.top
      parentBounds.right
      (parentBounds.top + Coordinate.half (parentBounds.bottom - parentBounds.top))
  | Location.SouthEast =>
    rect.new
      (parentBounds.left + Coordinate.half (parentBounds.right - parentBounds.left))
      (parentBounds.top + Coordinate.half (parentBounds.bottom - parentBounds.top))
      parentBounds.right
      parentBounds.bottom
  | Location.SouthWest =>
    rect.new
      parentBounds.left
      (parentBounds.top + Coordinate.half (parentBounds.bottom - parentBounds.top))
      (parentBounds.left + Coordinate.half (parentBounds.right - parentBounds.left))
      parentBounds.bottom

/-! ## qnode.hpp -/

/-- Class qnode: the constant bounds and the vector of (element, bounds) pairs. -/
structure qnode (E T : Type) where
  bounds : rect T
  elements : List (E × rect T)

/-- Member get_bounds of qnode. -/
def qnode.get_bounds (self : qnode E T) : rect T := self.bounds

/-- Member contains of qnode: the given rect fits inside this node. -/
def qnode.contains (self : qnode E T) (r : rect T) : Bool := self.bounds.contains r

/-- Member inside of qnode: this node fits inside the given rect. -/
def qnode.inside (self : qnode E T) (r : rect T) : Bool := r.contains self.bounds

/-- Member overlaps of qnode. -/
def qnode.overlaps (self : qnode E T) (r : rect T) : Bool := self.bounds.overlaps r

/-- Member size of qnode. -/
def qnode.size (self : qnode E T) : Nat := self.elements.length

/-- Member empty of qnode. -/
def qnode.empty (self : qnode E T) : Bool := self.elements.isEmpty

/-- Member clear of qnode. -/
def qnode.clear (self : qnode E T) : qnode E T := { self with elements := [] }

/-- Member insert of qnode: the result and the node afterwards. -/
def qnode.insert (self : qnode E T) (element : E) (bounds : rect T) : Bool × qnode E T :=
  if !self.contains bounds then (false, self)
  else (true, { self with elements := self.elements ++ [(element, bounds)] })

/-- Member query(elements) of qnode: appends every element of the node. -/
def qnode.query (self : qnode E T) (elements : List E) : List E :=
  self.elements.foldl (fun acc e => acc ++ [e.1]) elements

/-- Member query(area, elements) of qnode: appends the elements whose bounds the
area overlaps. -/
def qnode.query_area (self : qnode E T) (area : rect T) (elements : List E) : List E :=
  self.elements.foldl (fun acc e => if area.overlaps e.2 then acc ++ [e.1] else acc) elements

/-! ## quad_tree.hpp: the tree -/

/-- Class template quad_tree, indexed by Depth: the specialization for depth zero is
a plain qnode, every other depth adds the array of four children (indices 0 to 3). -/
inductive quad_tree (E T : Type) : Nat → Type where
  | leaf (base : qnode E T) : quad_tree E T 0
  | node {D : Nat} (base : qnode E T) (nw ne se sw : quad_tree E T D) : quad_tree E T (D + 1)

namespace quad_tree

/-- The qnode base class subobject of a tree node. -/
def base {D : Nat} : quad_tree E T D → qnode E T
  | leaf b => b
  | node b _ _ _ _ => b

/-- Static member depth. -/
def depth {D : Nat} (_ : quad_tree E T D) : Nat := D

/-- Inherited member get_bounds. -/
def get_bounds {D : Nat} (self : quad_tree E T D) : rect T := self.base.get_bounds

/-- Inherited member contains. -/
def contains {D : Nat} (self : quad_tree E T D) (r : rect T) : Bool := self.base.contains r

/-- Inherited member inside. -/
def inside {D : Nat} (self : quad_tree E T D) (r : rect T) : Bool := self.base.inside r

/-- Inherited member overlaps. -/
def overlaps {D : Nat} (self : quad_tree E T D) (r : rect T) : Bool := self.base.overlaps r

/-- Constructor of quad_tree with init_children: the children are built in the order
NorthWest, NorthEast, SouthEast, SouthWest, each over its child_bounds. -/
def build [Coordinate T] : (D : Nat) → rect T → Except Error (quad_tree E T D)
  | 0, bounds => Except.ok (leaf ⟨bounds, []⟩)
  | D + 1, bounds => do
    let nw ← (child_bounds Location.NorthWest bounds) >>= build D
    let ne ← (child_bounds Location.NorthEast bounds) >>= build D
    let se ← (child_bounds Location.SouthEast bounds) >>= build D
    let sw ← (child_bounds Location.SouthWest bounds) >>= build D
    Except.ok (node ⟨bounds, []⟩ nw ne se sw)

/-- Member size: the elements of this node and of all its children. -/
def size {D : Nat} : quad_tree E T D → Nat
  | leaf b => b.size
  | node b nw ne se sw => b.size + nw.size + ne.size + se.size + sw.size

/-- Member empty: size() == 0 for a tree with children, the inherited test of the
element vector at depth zero. -/
def empty {D : Nat} : quad_tree E T D → Bool
  | leaf b => b.empty
  | node b nw ne se sw => (node b nw ne se sw).size == 0

/-- Member clear: clears every child, then the node itself. -/
def clear {D : Nat} : quad_tree E T D → quad_tree E T D
  | leaf b => leaf b.clear
  | node b nw ne se sw => node b.clear nw.clear ne.clear se.clear sw.clear

/-- Member insert: the result and the tree afterwards. The loop over the children
returns at the first child that contains the bounds. -/
def insert {D : Nat} : quad_tree E T D → E → rect T → Bool × quad_tree E T D
  | leaf b, element, bounds =>
    let r := b.insert element bounds
    (r.1, leaf r.2)
  | node b nw ne se sw, element, bounds =>
    if !b.contains bounds then (false, node b nw ne se sw)
    else if nw.contains bounds then
      let r := nw.insert element bounds
      (r.1, node b r.2 ne se sw)
    else if ne.contains bounds then
      let r := ne.insert element bounds
      (r.1, node b nw r.2 se sw)
    else if se.contains bounds then
      let r := se.insert element bounds
      (r.1, node b nw ne r.2 sw)
    else if sw.contains bounds then
      let r := sw.insert element bounds
      (r.1, node b nw ne se r.2)
    else
      let r := b.insert element bounds
      (r.1, node r.2 nw ne se sw)

/-- Member query(elements): the children in array order, then the node itself. -/
def query {D : Nat} : quad_tree E T D → List E → List E
  | leaf b, elements => b.query elements
  | node b nw ne se sw, elements =>
    b.query (sw.query (se.query (ne.query (nw.query elements))))

/-- Member query(area, elements): the node itself, then the loop over the children
in array order, unrolled. For each child: case 1 (the child contains the area)
recurses and breaks out of the loop, case 2 (the child is inside the area) takes
everything below the child and continues, case 3 (the child overlaps the area)
recurses and continues. -/
def query_area {D : Nat} : quad_tree E T D → rect T → List E → List E
  | leaf b, area, elements => b.query_area area elements
  | node b nw ne se sw, area, elements =>
    let e0 := b.query_area area elements
    if nw.contains area then nw.query_area area e0
    else
      let e1 :=
        if nw.inside area then nw.query e0
        else if nw.overlaps area then nw.query_area area e0
        else e0
      if ne.contains area then ne.query_area area e1
      else
        let e2 :=
          if ne.inside area then ne.query e1
          else if ne.overlaps area then ne.query_area area e1
          else e1
        if se.contains area then se.query_area area e2
        else
          let e3 :=
            if se.inside area then se.query e2
            else if se.overlaps area then se.query_area area e2
            else e2
          if sw.contains area then sw.query_area area e3
          else if sw.inside area then sw.query e3
          else if sw.overlaps area then sw.query_area area e3
          else e3

end quad_tree

end tree_defs

/-! ## Specification-side notions -/

section spec_defs

variable {E T : Type} [LinearOrderedCommRing T]

/-- The geometric reading of an overlap: the intersection of the two rectangles,
from the larger of the lefts to the smaller of the rights and from the larger of
the tops to the smaller of the bottoms, has positive area. -/
def positive_intersection (a b : rect T) : Prop :=
  max a.left b.left < min a.right b.right ∧ max a.top b.top < min a.bottom b.bottom

/-- A rectangle of positive width and positive height. -/
def rect.positive (r : rect T) : Prop := r.left < r.right ∧ r.top < r.bottom

instance (r : rect T) : Decidable r.positive := by
  unfold rect.positive; infer_instance

/-- The point (x, y) as a rectangle of no width and no height. -/
def rect.point (x y : T) : rect T := ⟨x, y, x, y⟩

/-- The entries of a list whose bounds the area overlaps, by area.overlaps(bounds). -/
def overlapping (area : rect T) (l : List (E × rect T)) : List (E × rect T) :=
  l.filter (fun x => area.overlaps x.2)

/-- Two intervals that are the same interval or lie side by side. -/
def apart (l1 r1 l2 r2 : T) : Prop := (l1 = l2 ∧ r1 = r2) ∨ r1 ≤ l2 ∨ r2 ≤ l1

/-- Two regions that on each axis span the same interval or lie side by side, as
any two nodes of the same depth in one tree do. -/
def cousins (P Q : rect T) : Prop :=
  apart P.left P.right Q.left Q.right ∧ apart P.top P.bottom Q.top Q.bottom

/-- The area of a rectangle. -/
def rect.area (r : rect T) : T := r.width * r.height

namespace quad_tree

/-- The child of a tree node in the given position of the child array. -/
def child {D : Nat} : quad_tree E T (D + 1) → Location → quad_tree E T D
  | node _ nw _ _ _, Location.NorthWest => nw
  | node _ _ ne _ _, Location.NorthEast => ne
  | node _ _ _ se _, Location.SouthEast => se
  | node _ _ _ _ sw, Location.SouthWest => sw

/-- The node (bounds and directly owned entries) reached from the root by a path of
child positions, if the tree is deep enough. -/
def node_at {D : Nat} : quad_tree E T D → List Location → Option (qnode E T)
  | t, [] => some t.base
  | leaf _, _ :: _ => none
  | node b nw ne se sw, loc :: p => ((node b nw ne se sw).child loc).node_at p

/-- All entries stored in the tree, each with its bounds, in the order in which
query(elements) visits them. -/
def entries {D : Nat} : quad_tree E T D → List (E × rect T)
  | leaf b => b.elements
  | node b nw ne se sw => nw.entries ++ ne.entries ++ se.entries ++ sw.entries ++ b.elements

/-- What one round of the child loop of query(area, elements) takes from a child that
does not contain the area: everything below it when it is inside the area, the
filtered part when it overlaps the area, nothing otherwise. -/
def visit {α : Type} (inside overlaps : Bool) (all filtered : List α) : List α :=
  if inside then all else if overlaps then filtered else []

/-- The entries whose elements query(area, elements) appends, each with its bounds,
in the order in which they are appended. -/
def entries_area {D : Nat} : quad_tree E T D → rect T → List (E × rect T)
  | leaf b, area => b.elements.filter (fun x => area.overlaps x.2)
  | node b nw ne se sw, area =>
    b.elements.filter (fun x => area.overlaps x.2) ++
    (if nw.contains area then nw.entries_area area
    else
      visit (nw.inside area) (nw.overlaps area) nw.entries (nw.entries_area area) ++
      (if ne.contains area then ne.entries_area area
      else
        visit (ne.inside area) (ne.overlaps area) ne.entries (ne.entries_area area) ++
        (if se.contains area then se.entries_area area
        else
          visit (se.inside area) (se.overlaps area) se.entries (se.entries_area area) ++
          (if sw.contains area then sw.entries_area area
          else
            visit (sw.inside area) (sw.overlaps area) sw.entries (sw.entries_area area)))))

/-- The entries that query(area, elements) takes through its unfiltered case, the
child that lies inside the area: the same traversal as entries_area, without the
entries that a node owns, which are always filtered. -/
def entries_unfiltered {D : Nat} : quad_tree E T D → rect T → List (E × rect T)
  | leaf _, _ => []
  | node _ nw ne se sw, area =>
    if nw.contains area then nw.entries_unfiltered area
    else
      visit (nw.inside area) (nw.overlaps area) nw.entries (nw.entries_unfiltered area) ++
      (if ne.contains area then ne.entries_unfiltered area
      else
        visit (ne.inside area) (ne.overlaps area) ne.entries (ne.entries_unfiltered area) ++
        (if se.contains area then se.entries_unfiltered area
        else
          visit (se.inside area) (se.overlaps area) se.entries
            (se.entries_unfiltered area) ++
          (if sw.contains area then sw.entries_unfiltered area
          else
            visit (sw.inside area) (sw.overlaps area) sw.entries
              (sw.entries_unfiltered area))))

/-- Every entry stored at or below a node lies within the region of that node, at
every node of the tree. -/
def inv {D : Nat} : quad_tree E T D → Prop
  | leaf b => ∀ x ∈ b.elements, b.bounds.contains x.2 = true
  | node b nw ne se sw =>
    (∀ x ∈ (node b nw ne se sw).entries, b.bounds.contains x.2 = true) ∧
    nw.inv ∧ ne.inv ∧ se.inv ∧ sw.inv

/-- No entry that a node owns directly has bounds that the region of one of the
children of that node contains, at every node of the tree. -/
def placed {D : Nat} : quad_tree E T D → Prop
  | leaf _ => True
  | node b nw ne se sw =>
    (∀ x ∈ b.elements, nw.contains x.2 = false ∧ ne.contains x.2 = false ∧
      se.contains x.2 = false ∧ sw.contains x.2 = false) ∧
    nw.placed ∧ ne.placed ∧ se.placed ∧ sw.placed

/-- The path from the root to the node on which insert stores bounds that the root
contains: the first child that contains the bounds, repeatedly. -/
def insert_path {D : Nat} : quad_tree E T D → rect T → List Location
  | leaf _, _ => []
  | node _ nw ne se sw, bounds =>
    if nw.contains bounds then Location.NorthWest :: nw.insert_path bounds
    else if ne.contains bounds then Location.NorthEast :: ne.insert_path bounds
    else if se.contains bounds then Location.SouthEast :: se.insert_path bounds
    else if sw.contains bounds then Location.SouthWest :: sw.insert_path bounds
    else []

/-- The region of every child is the child_bounds of the region of its parent, as
init_children builds them. -/
def wf [Coordinate T] {D : Nat} : quad_tree E T D → Prop
  | leaf _ => True
  | node b nw ne se sw =>
    child_bounds Location.NorthWest b.bounds = Except.ok nw.get_bounds ∧
    child_bounds Location.NorthEast b.bounds = Except.ok ne.get_bounds ∧
    child_bounds Location.SouthEast b.bounds = Except.ok se.get_bounds ∧
    child_bounds Location.SouthWest b.bounds = Except.ok sw.get_bounds ∧
    nw.wf ∧ ne.wf ∧ se.wf ∧ sw.wf

/-- A run of insert calls: the tree afterwards and the calls that returned true. -/
def insert_all {D : Nat} (t : quad_tree E T D) :
    List (E × rect T) → quad_tree E T D × List (E × rect T)
  | [] => (t, [])
  | c :: cs =>
    let r := t.insert c.1 c.2
    let rest := insert_all r.2 cs
    (rest.1, if r.1 then c :: rest.2 else rest.2)

/-- The states a tree of depth D over the region R can be in: constructed, then
changed by insert and clear. -/
inductive Reachable [Coordinate T] {D : Nat} (R : rect T) : quad_tree E T D → Prop where
  | constructed (t : quad_tree E T D) (h : build D R = Except.ok t) : Reachable R t
  | inserted (t : quad_tree E T D) (element : E) (bounds : rect T) (h : Reachable R t) :
      Reachable R (t.insert element bounds).2
  | cleared (t : quad_tree E T D) (h : Reachable R t) : Reachable R t.clear

end quad_tree

/-- What the sibling scan of an area query uses of one child: its region, the
unfiltered collection of everything below it, and the filtered query into it. -/
structure child_view (E T : Type) where
  region : rect T
  all : List E → List E
  filtered : List E → List E

/-- The sibling scan in the priority order that the specification gives: (1) the
area contains the region of the child: take everything below the child, unfiltered,
and continue; (2) the region of the child contains the area: query into the
child and stop the scan; (3) the region of the child overlaps the area: query
into the child and continue; otherwise skip the child. -/
def scan_spec_order (area : rect T) : List (child_view E T) → List E → List E
  | [], out => out
  | c :: cs, out =>
    if area.contains c.region then scan_spec_order area cs (c.all out)
    else if c.region.contains area then c.filtered out
    else if c.region.overlaps area then scan_spec_order area cs (c.filtered out)
    else scan_spec_order area cs out

/-- The sibling scan in the priority order of the comments of the code: case 1, the
region of the child contains the area: query into the child and stop; case 2, the
area contains the region of the child: take everything below the child and
continue; case 3, overlap: query into the child and continue. -/
def scan_code_order (area : rect T) : List (child_view E T) → List E → List E
  | [], out => out
  | c :: cs, out =>
    if c.region.contains area then c.filtered out
    else if area.contains c.region then scan_code_order area cs (c.all out)
    else if c.region.overlaps area then scan_code_order area cs (c.filtered out)
    else scan_code_order area cs out

/-- The area query as the specification describes it: the entries of the node that
the area overlaps, then the scan of the children NW, NE, SE, SW in the priority
order of the specification. -/
def quad_tree.query_area_spec_order {D : Nat} : quad_tree E T D → rect T → List E → List E
  | quad_tree.leaf b, area, out => b.query_area area out
  | quad_tree.node b nw ne se sw, area, out =>
    scan_spec_order area
      [⟨nw.get_bounds, nw.query, fun o => nw.query_area_spec_order area o⟩,
        ⟨ne.get_bounds, ne.query, fun o => ne.query_area_spec_order area o⟩,
        ⟨se.get_bounds, se.query, fun o => se.query_area_spec_order area o⟩,
        ⟨sw.get_bounds, sw.query, fun o => sw.query_area_spec_order area o⟩]
      (b.query_area area out)

/-- The same reference traversal with the scan in the priority order of the code. -/
def quad_tree.query_area_code_order {D : Nat} : quad_tree E T D → rect T → List E → List E
  | quad_tree.leaf b, area, out => b.query_area area out
  | quad_tree.node b nw ne se sw, area, out =>
    scan_code_order area
      [⟨nw.get_bounds, nw.query, fun o => nw.query_area_code_order area o⟩,
        ⟨ne.get_bounds, ne.query, fun o => ne.query_area_code_order area o⟩,
        ⟨se.get_bounds, se.query, fun o => se.query_area_code_order area o⟩,
        ⟨sw.get_bounds, sw.query, fun o => sw.query_area_code_order area o⟩]
      (b.query_area area out)

/-- An example state: the tree of depth 1 over the region (0,0)-(4,4), with integer
coordinates and natural numbers for elements, as the constructor builds it. -/
def example_tree : quad_tree Nat Int 1 :=
  quad_tree.node ⟨⟨0, 0, 4, 4⟩, []⟩
    (quad_tree.leaf ⟨⟨0, 0, 2, 2⟩, []⟩) (quad_tree.leaf ⟨⟨2, 0, 4, 2⟩, []⟩)
    (quad_tree.leaf ⟨⟨2, 2, 4, 4⟩, []⟩) (quad_tree.leaf ⟨⟨0, 2, 2, 4⟩, []⟩)

/-- The tree of the corner scenario: depth 2 over the region (10,10)-(20,20), with
rational coordinates and natural numbers for elements, as the constructor builds
it. -/
def corner_tree : quad_tree Nat Rat 2 :=
  quad_tree.node ⟨⟨10, 10, 20, 20⟩, []⟩
    (quad_tree.node ⟨⟨10, 10, 15, 15⟩, []⟩
      (quad_tree.leaf ⟨⟨10, 10, 25 / 2, 25 / 2⟩, []⟩)
      (quad_tree.leaf ⟨⟨25 / 2, 10, 15, 25 / 2⟩, []⟩)
      (quad_tree.leaf ⟨⟨25 / 2, 25 / 2, 15, 15⟩, []⟩)
      (quad_tree.leaf ⟨⟨10, 25 / 2, 25 / 2, 15⟩, []⟩))
    (quad_tree.node ⟨⟨15, 10, 20, 15⟩, []⟩
      (quad_tree.leaf ⟨⟨15, 10, 35 / 2, 25 / 2⟩, []⟩)
      (quad_tree.leaf ⟨⟨35 / 2, 10, 20, 25 / 2⟩, []⟩)
      (quad_tree.leaf ⟨⟨35 / 2, 25 / 2, 20, 15⟩, []⟩)
      (quad_tree.leaf ⟨⟨15, 25 / 2, 35 / 2, 15⟩, []⟩))
    (quad_tree.node ⟨⟨15, 15, 20, 20⟩, []⟩
      (quad_tree.leaf ⟨⟨15, 15, 35 / 2, 35 / 2⟩, []⟩)
      (quad_tree.leaf ⟨⟨35 / 2, 15, 20, 35 / 2⟩, []⟩)
      (quad_tree.leaf ⟨⟨35 / 2, 35 / 2, 20, 20⟩, []⟩)
      (quad_tree.leaf ⟨⟨15, 35 / 2, 35 / 2, 20⟩, []⟩))
    (quad_tree.node ⟨⟨10, 15, 15, 20⟩, []⟩
      (quad_tree.leaf ⟨⟨10, 15, 25 / 2, 35 / 2⟩, []⟩)
      (quad_tree.leaf ⟨⟨25 / 2, 15, 15, 35 / 2⟩, []⟩)
      (quad_tree.leaf ⟨⟨25 / 2, 35 / 2, 15, 20⟩, []⟩)
      (quad_tree.leaf ⟨⟨10, 35 / 2, 25 / 2, 20⟩, []⟩))

/-- The insert calls of the corner scenario: the elements 0, 1, 2, 3 with the leaf
regions in the NW, NE, SE and SW corners of the root for bounds. -/
def corner_calls : List (Nat × rect Rat) :=
  [(0, ⟨10, 10, 25 / 2, 25 / 2⟩), (1, ⟨35 / 2, 10, 20, 25 / 2⟩),
    (2, ⟨35 / 2, 35 / 2, 20, 20⟩), (3, ⟨10, 35 / 2, 25 / 2, 20⟩)]

end spec_defs

/-! ## Fixed-width signed integer coordinates

The arithmetic of child_bounds and of width and height over a signed integer
coordinate type of a given number of bits, with every arithmetic result brought
back into the type. The comparisons of rect need no such care and are the ones of
the integers. -/

section signed_defs

variable {E : Type}

/-- The values of a signed integer type of the given number of bits. -/
def in_range (bits : Nat) (x : Int) : Prop :=
  -(2 ^ (bits - 1)) ≤ x ∧ x < 2 ^ (bits - 1)

instance (bits : Nat) (x : Int) : Decidable (in_range bits x) := by
  unfold in_range; infer_instance

/-- The value that a signed integer type of the given number of bits holds for the
mathematical result x: wrap-around in two's complement, the identity on the values
of the type. Signed overflow is undefined in C++; wrap-around is what the usual
targets compute. The type is taken at least as wide as int, so that no operand is
promoted to a wider type before the arithmetic. -/
def wrap (bits : Nat) (x : Int) : Int :=
  (x + 2 ^ (bits - 1)) % 2 ^ bits - 2 ^ (bits - 1)

/-- Operator + of the signed integer type. -/
def add_signed (bits : Nat) (a b : Int) : Int := wrap bits (a + b)

/-- Operator - of the signed integer type. -/
def sub_signed (bits : Nat) (a b : Int) : Int := wrap bits (a - b)

/-- Operator / of the signed integer type: the quotient truncates towards zero. -/
def div_signed (bits : Nat) (a b : Int) : Int := wrap bits (Int.tdiv a b)

/-- Member width of rect over the signed integer type. -/
def rect.width_signed (bits : Nat) (self : rect Int) : Int :=
  sub_signed bits self.right self.left

/-- Member height of rect over the signed integer type. -/
def rect.height_signed (bits : Nat) (self : rect Int) : Int :=
  sub_signed bits self.bottom self.top

/-- Function child_bounds over the signed integer type: static_cast<TCoordinate>(2)
is the value that the type holds for 2. -/
def child_bounds_signed (bits : Nat) (loc : Location) (parentBounds : rect Int) :
    Except Error (rect Int) :=
  match loc with
  | Location.NorthWest =>
    rect.new
      parentBounds.left
      parentBounds.top
      (add_signed bits parentBounds.left
        (div_signed bits (sub_signed bits parentBounds.right parentBounds.left) (wrap bits 2)))
      (add_signed bits parentBounds.top
        (div_signed bits (sub_signed bits parentBounds.bottom parentBounds.top) (wrap bits 2)))
  | Location.NorthEast =>
    rect.new
      (add_signed bits parentBounds.left
        (div_signed bits (sub_signed bits parentBounds.right parentBounds.left) (wrap bits 2)))
      parentBounds.top
      parentBounds.right
      (add_signed bits parentBounds.top
        (div_signed bits (sub_signed bits parentBounds.bottom parentBounds.top) (wrap bits 2)))
  | Location.SouthEast =>
    rect.new
      (add_signed bits parentBounds.left
        (div_signed bits (sub_signed bits parentBounds.right parentBounds.left) (wrap bits 2)))
      (add_signed bits parentBounds.top
        (div_signed bits (sub_signed bits parentBounds.bottom parentBounds.top) (wrap bits 2)))
      parentBounds.right
      parentBounds.bottom
  | Location.SouthWest =>
    rect.new
      parentBounds.left
      (add_signed bits parentBounds.top
        (div_signed bits (sub_signed bits parentBounds.bottom parentBounds.top) (wrap bits 2)))
      (add_signed bits parentBounds.left
        (div_signed bits (sub_signed bits parentBounds.right parentBounds.left) (wrap bits 2)))
      parentBounds.bottom

/-- Constructor of quad_tree with init_children over the signed integer type. -/
def quad_tree.build_signed (bits : Nat) : (D : Nat) → rect Int → Except Error (quad_tree E Int D)
  | 0, bounds => Except.ok (quad_tree.leaf ⟨bounds, []⟩)
  | D + 1, bounds => do
    let nw ← (child_bounds_signed bits Location.NorthWest bounds) >>= build_signed bits D
    let ne ← (child_bounds_signed bits Location.NorthEast bounds) >>= build_signed bits D
    let se ← (child_bounds_signed bits Location.SouthEast bounds) >>= build_signed bits D
    let sw ← (child_bounds_signed bits Location.SouthWest bounds) >>= build_signed bits D
    Except.ok (quad_tree.node ⟨bounds, []⟩ nw ne se sw)

/-- The four coordinates are values of the signed integer type. -/
def rect.representable (bits : Nat) (r : rect Int) : Prop :=
  in_range bits r.left ∧ in_range bits r.top ∧ in_range bits r.right ∧ in_range bits r.bottom

instance (bits : Nat) (r : rect Int) : Decidable (r.representable bits) := by
  unfold rect.representable; infer_instance

/-- No overflow in the bisection: the coordinates are values of the signed integer
type, and so are the mathematical differences right - left and bottom - top. -/
def rect.no_overflow (bits : Nat) (r : rect Int) : Prop :=
  r.representable bits ∧ in_range bits (r.right - r.left) ∧ in_range bits (r.bottom - r.top)

instance (bits : Nat) (r : rect Int) : Decidable (r.no_overflow bits) := by
  unfold rect.no_overflow; infer_instance

end signed_defs

/-! ## Lemmas on rectangles -/

section rect_lemmas

variable {T : Type} [LinearOrderedCommRing T]

theorem rect.contains_iff (a b : rect T) :
    a.contains b = true ↔
      a.left ≤ b.left ∧ b.right ≤ a.right ∧ a.top ≤ b.top ∧ b.bottom ≤ a.bottom := by
  simp [rect.contains, and_assoc]

theorem rect.overlaps_iff (a b : rect T) :
    a.overlaps b = true ↔
      a.left < b.right ∧ b.left < a.right ∧ b.top < a.bottom ∧ a.top < b.bottom := by
  simp [rect.overlaps, and_assoc]

theorem rect.new_ok_iff (l t r b : T) (x : rect T) :
    rect.new l t r b = Except.ok x ↔ (l ≤ r ∧ t ≤ b ∧ x = ⟨l, t, r, b⟩) := by
  unfold rect.new
  by_cases h1 : r < l
  · simp [h1]
  · by_cases h2 : b < t
    · simp [h1, h2]
    · simp only [h1, h2, if_false, Except.ok.injEq]
      constructor
      · intro h
        exact ⟨not_lt.mp h1, not_lt.mp h2, h.symm⟩
      · intro h
        exact h.2.2.symm

theorem rect.contains_refl (a : rect T) : a.contains a = true := by
  rw [rect.contains_iff]
  exact ⟨le_refl _, le_refl _, le_refl _, le_refl _⟩

theorem rect.contains_trans (a b c : rect T) (h1 : a.contains b = true)
    (h2 : b.contains c = true) : a.contains c = true := by
  rw [rect.contains_iff] at *
  obtain ⟨p1, p2, p3, p4⟩ := h1
  obtain ⟨q1, q2, q3, q4⟩ := h2
  exact ⟨le_trans p1 q1, le_trans q2 p2, le_trans p3 q3, le_trans q4 p4⟩

theorem mid_bounds [Coordinate T] [LawfulCoordinate T] (l r : T) (h : l ≤ r) :
    l ≤ l + Coordinate.half (r - l) ∧ l + Coordinate.half (r - l) ≤ r := by
  have h0 : (0 : T) ≤ r - l := sub_nonneg.mpr h
  have h1 := LawfulCoordinate.half_nonneg (r - l) h0
  have h2 := LawfulCoordinate.half_le (r - l) h0
  constructor <;> linarith

/-- For a valid parent no case of child_bounds throws, and the results are the four
quadrants around the midpoint. -/
theorem child_bounds_of_valid [Coordinate T] [LawfulCoordinate T] (p : rect T)
    (hp : p.valid) :
    child_bounds Location.NorthWest p = Except.ok
      ⟨p.left, p.top, p.left + Coordinate.half (p.right - p.left),
        p.top + Coordinate.half (p.bottom - p.top)⟩ ∧
    child_bounds Location.NorthEast p = Except.ok
      ⟨p.left + Coordinate.half (p.right - p.left), p.top, p.right,
        p.top + Coordinate.half (p.bottom - p.top)⟩ ∧
    child_bounds Location.SouthEast p = Except.ok
      ⟨p.left + Coordinate.half (p.right - p.left),
        p.top + Coordinate.half (p.bottom - p.top), p.right, p.bottom⟩ ∧
    child_bounds Location.SouthWest p = Except.ok
      ⟨p.left, p.top + Coordinate.half (p.bottom - p.top),
        p.left + Coordinate.half (p.right - p.left), p.bottom⟩ := by
  obtain ⟨hx1, hx2⟩ := mid_bounds p.left p.right hp.1
  obtain ⟨hy1, hy2⟩ := mid_bounds p.top p.bottom hp.2
  refine ⟨?_, ?_, ?_, ?_⟩ <;>
    simp [child_bounds, rect.new, not_lt.mpr hx1, not_lt.mpr hx2, not_lt.mpr hy1,
      not_lt.mpr hy2]

/-- The children of a valid parent are valid. -/
theorem child_bounds_valid [Coordinate T] (p c : rect T)
    (loc : Location) (h : child_bounds loc p = Except.ok c) : c.valid := by
  cases loc <;>
  · simp only [child_bounds] at h
    obtain ⟨h1, h2, rfl⟩ := (rect.new_ok_iff _ _ _ _ c).mp h
    exact ⟨h1, h2⟩

end rect_lemmas

/-! ## Claims on rectangles -/

section rect_claims

variable {T : Type} [LinearOrderedCommRing T]

/-- C9: the checked constructor of rect fails with invalid_argument exactly when
right < left or bottom < top; every other construction succeeds with the four
fields as given; every constructed rectangle, the zero rectangle included,
satisfies right >= left and bottom >= top. -/
theorem rect_new_fails_iff_invalid (l t r b : T) :
    (rect.new l t r b = Except.error Error.invalid_argument ↔ (r < l ∨ b < t)) ∧
    (¬ (r < l ∨ b < t) → rect.new l t r b = Except.ok ⟨l, t, r, b⟩) ∧
    (∀ x : rect T, rect.new l t r b = Except.ok x →
      (x.left = l ∧ x.top = t ∧ x.right = r ∧ x.bottom = b) ∧ x.valid) ∧
    (rect.zero : rect T).valid := by
  refine ⟨?_, ?_, ?_, ?_⟩
  · unfold rect.new
    by_cases h1 : r < l
    · simp [h1]
    · by_cases h2 : b < t
      · simp [h1, h2]
      · simp [h1, h2]
  · intro h
    have h1 : ¬ r < l := fun h1 => h (Or.inl h1)
    have h2 : ¬ b < t := fun h2 => h (Or.inr h2)
    simp [rect.new, h1, h2]
  · intro x hx
    obtain ⟨h1, h2, rfl⟩ := (rect.new_ok_iff l t r b x).mp hx
    exact ⟨⟨rfl, rfl, rfl, rfl⟩, h1, h2⟩
  · exact ⟨le_refl _, le_refl _⟩

/-- C10 as stated fails: the valid rectangle (0,0,4,4) overlaps the valid zero-size
rectangle (1,1,1,1), whose intersection with it has no area. -/
theorem overlaps_zero_size_counterexample :
    (⟨0, 0, 4, 4⟩ : rect Int).valid ∧ (⟨1, 1, 1, 1⟩ : rect Int).valid ∧
    (⟨0, 0, 4, 4⟩ : rect Int).overlaps ⟨1, 1, 1, 1⟩ = true ∧
    ¬ positive_intersection (⟨0, 0, 4, 4⟩ : rect Int) ⟨1, 1, 1, 1⟩ := by
  refine ⟨by decide, by decide, by decide, ?_⟩
  unfold positive_intersection
  decide

/-- C10, amended: for two rectangles of positive width and positive height,
a.overlaps(b) holds exactly when their intersection has positive area; for all
rectangles a positive-area intersection implies overlaps, and rectangles that
touch along an edge do not overlap. -/
theorem overlaps_iff_positive_intersection (a b : rect T)
    (ha : a.positive) (hb : b.positive) :
    (a.overlaps b = true ↔ positive_intersection a b) ∧
    (∀ c d : rect T, positive_intersection c d → c.overlaps d = true) ∧
    (∀ c d : rect T, (c.right = d.left ∨ d.right = c.left ∨ c.bottom = d.top ∨
        d.bottom = c.top) → c.overlaps d = false) := by
  refine ⟨?_, ?_, ?_⟩
  · rw [rect.overlaps_iff]
    unfold positive_intersection
    obtain ⟨ha1, ha2⟩ := ha
    obtain ⟨hb1, hb2⟩ := hb
    simp only [max_lt_iff, lt_min_iff]
    tauto
  · intro c d h
    rw [rect.overlaps_iff]
    unfold positive_intersection at h
    simp only [max_lt_iff, lt_min_iff] at h
    tauto
  · intro c d h
    rw [← Bool.not_eq_true, rect.overlaps_iff]
    rintro ⟨h1, h2, h3, h4⟩
    rcases h with h | h | h | h
    · rw [h] at h2; exact lt_irrefl _ h2
    · rw [h] at h1; exact lt_irrefl _ h1
    · rw [h] at h3; exact lt_irrefl _ h3
    · rw [h] at h4; exact lt_irrefl _ h4

theorem overlaps_iff_positive_intersection_witness :
    (⟨0, 0, 4, 4⟩ : rect Int).positive ∧ (⟨2, 2, 6, 6⟩ : rect Int).positive ∧
    ((⟨0, 0, 4, 4⟩ : rect Int).overlaps ⟨2, 2, 6, 6⟩ = true ↔
      positive_intersection (⟨0, 0, 4, 4⟩ : rect Int) ⟨2, 2, 6, 6⟩) :=
  ⟨by decide, by decide,
    (overlaps_iff_positive_intersection (⟨0, 0, 4, 4⟩ : rect Int) ⟨2, 2, 6, 6⟩
      (by decide) (by decide)).1⟩

end rect_claims

/-! ## Construction -/

section build_lemmas

variable {E T : Type} [LinearOrderedCommRing T]

theorem except_bind_ok_iff {ε α β : Type} (x : Except ε α) (f : α → Except ε β) (y : β) :
    (x >>= f) = Except.ok y ↔ ∃ a, x = Except.ok a ∧ f a = Except.ok y := by
  cases x with
  | error e => simp [bind, Except.bind]
  | ok a => simp [bind, Except.bind]

theorem quad_tree.build_succ_ok_iff [Coordinate T] (D : Nat) (p : rect T)
    (t : quad_tree E T (D + 1)) :
    quad_tree.build (D + 1) p = Except.ok t ↔
      ∃ bnw bne bse bsw nw ne se sw,
        child_bounds Location.NorthWest p = Except.ok bnw ∧
        quad_tree.build D bnw = Except.ok nw ∧
        child_bounds Location.NorthEast p = Except.ok bne ∧
        quad_tree.build D bne = Except.ok ne ∧
        child_bounds Location.SouthEast p = Except.ok bse ∧
        quad_tree.build D bse = Except.ok se ∧
        child_bounds Location.SouthWest p = Except.ok bsw ∧
        quad_tree.build D bsw = Except.ok sw ∧
        t = quad_tree.node ⟨p, []⟩ nw ne se sw := by
  rw [quad_tree.build]
  simp only [except_bind_ok_iff]
  constructor
  · rintro ⟨nw, ⟨bnw, h1, h2⟩, ne, ⟨bne, h3, h4⟩, se, ⟨bse, h5, h6⟩, sw, ⟨bsw, h7, h8⟩, h⟩
    simp only [Except.ok.injEq] at h
    exact ⟨bnw, bne, bse, bsw, nw, ne, se, sw, h1, h2, h3, h4, h5, h6, h7, h8, h.symm⟩
  · rintro ⟨bnw, bne, bse, bsw, nw, ne, se, sw, h1, h2, h3, h4, h5, h6, h7, h8, h⟩
    exact ⟨nw, ⟨bnw, h1, h2⟩, ne, ⟨bne, h3, h4⟩, se, ⟨bse, h5, h6⟩, sw, ⟨bsw, h7, h8⟩,
      by simp [h]⟩

/-- What a successful construction yields: the given region at the root, children
over their child_bounds, and no entry anywhere. -/
theorem quad_tree.build_spec [Coordinate T] :
    ∀ (D : Nat) (p : rect T) (t : quad_tree E T D), quad_tree.build D p = Except.ok t →
      t.get_bounds = p ∧ t.wf ∧ t.entries = [] ∧ t.base.elements = []
  | 0, p, t, h => by
    simp only [quad_tree.build, Except.ok.injEq] at h
    subst h
    simp [quad_tree.get_bounds, quad_tree.base, qnode.get_bounds, quad_tree.wf,
      quad_tree.entries]
  | D + 1, p, t, h => by
    obtain ⟨bnw, bne, bse, bsw, nw, ne, se, sw, h1, h2, h3, h4, h5, h6, h7, h8, rfl⟩ :=
      (quad_tree.build_succ_ok_iff D p t).mp h
    obtain ⟨a1, a2, a3, _⟩ := quad_tree.build_spec D bnw nw h2
    obtain ⟨b1, b2, b3, _⟩ := quad_tree.build_spec D bne ne h4
    obtain ⟨c1, c2, c3, _⟩ := quad_tree.build_spec D bse se h6
    obtain ⟨d1, d2, d3, _⟩ := quad_tree.build_spec D bsw sw h8
    refine ⟨rfl, ?_, ?_, rfl⟩
    · simp only [quad_tree.wf]
      rw [a1, b1, c1, d1]
      exact ⟨h1, h3, h5, h7, a2, b2, c2, d2⟩
    · simp [quad_tree.entries, a3, b3, c3, d3]

/-- Over a valid region and a lawful coordinate type the construction never throws. -/
theorem quad_tree.build_ok [Coordinate T] [LawfulCoordinate T] :
    ∀ (D : Nat) (p : rect T), p.valid → ∃ t : quad_tree E T D, quad_tree.build D p = Except.ok t
  | 0, p, _ => ⟨quad_tree.leaf ⟨p, []⟩, rfl⟩
  | D + 1, p, hp => by
    obtain ⟨h1, h2, h3, h4⟩ := child_bounds_of_valid p hp
    obtain ⟨nw, hnw⟩ := quad_tree.build_ok D _ (child_bounds_valid p _ _ h1)
    obtain ⟨ne, hne⟩ := quad_tree.build_ok D _ (child_bounds_valid p _ _ h2)
    obtain ⟨se, hse⟩ := quad_tree.build_ok D _ (child_bounds_valid p _ _ h3)
    obtain ⟨sw, hsw⟩ := quad_tree.build_ok D _ (child_bounds_valid p _ _ h4)
    exact ⟨quad_tree.node ⟨p, []⟩ nw ne se sw,
      (quad_tree.build_succ_ok_iff D p _).mpr
        ⟨_, _, _, _, nw, ne, se, sw, h1, hnw, h2, hne, h3, hse, h4, hsw, rfl⟩⟩

end build_lemmas

/-! ## child_bounds and construction with exact arithmetic -/

section build_claims

variable {T : Type} [LinearOrderedCommRing T]

/-- For every valid parent rectangle over a coordinate type whose arithmetic is exact
and whose halving is lawful (the rationals, the integers without bounds), the four
regions of child_bounds are constructed without failure, are valid, lie in the
parent, do not overlap one another, cover every point of the parent, and their
areas add up to the area of the parent. -/
theorem child_bounds_partition_lawful [Coordinate T] [LawfulCoordinate T] (p : rect T)
    (hp : p.valid) :
    ∃ nw ne se sw : rect T,
      (child_bounds Location.NorthWest p = Except.ok nw ∧
        child_bounds Location.NorthEast p = Except.ok ne ∧
        child_bounds Location.SouthEast p = Except.ok se ∧
        child_bounds Location.SouthWest p = Except.ok sw) ∧
      (nw.valid ∧ ne.valid ∧ se.valid ∧ sw.valid) ∧
      (p.contains nw = true ∧ p.contains ne = true ∧ p.contains se = true ∧
        p.contains sw = true) ∧
      List.Pairwise (fun a b => a.overlaps b = false ∧ b.overlaps a = false)
        [nw, ne, se, sw] ∧
      (∀ x y : T, p.contains (rect.point x y) = true →
        nw.contains (rect.point x y) = true ∨ ne.contains (rect.point x y) = true ∨
        se.contains (rect.point x y) = true ∨ sw.contains (rect.point x y) = true) ∧
      nw.area + ne.area + se.area + sw.area = p.area := by
  obtain ⟨h1, h2, h3, h4⟩ := child_bounds_of_valid p hp
  obtain ⟨hx1, hx2⟩ := mid_bounds p.left p.right hp.1
  obtain ⟨hy1, hy2⟩ := mid_bounds p.top p.bottom hp.2
  refine ⟨_, _, _, _, ⟨h1, h2, h3, h4⟩,
    ⟨child_bounds_valid p _ _ h1, child_bounds_valid p _ _ h2, child_bounds_valid p _ _ h3,
      child_bounds_valid p _ _ h4⟩, ?_, ?_, ?_, ?_⟩
  · simp only [rect.contains_iff]
    exact ⟨⟨le_refl _, hx2, le_refl _, hy2⟩, ⟨hx1, le_refl _, le_refl _, hy2⟩,
      ⟨hx1, le_refl _, hy1, le_refl _⟩, ⟨le_refl _, hx2, hy1, le_refl _⟩⟩
  · simp [rect.overlaps]
  · intro x y hxy
    simp only [rect.contains_iff, rect.point] at hxy ⊢
    obtain ⟨q1, q2, q3, q4⟩ := hxy
    rcases le_total x (p.left + Coordinate.half (p.right - p.left)) with hx | hx <;>
      rcases le_total y (p.top + Coordinate.half (p.bottom - p.top)) with hy | hy
    · exact Or.inl ⟨q1, hx, q3, hy⟩
    · exact Or.inr (Or.inr (Or.inr ⟨q1, hx, hy, q4⟩))
    · exact Or.inr (Or.inl ⟨hx, q2, q3, hy⟩)
    · exact Or.inr (Or.inr (Or.inl ⟨hx, q2, hy, q4⟩))
  · simp only [rect.area, rect.width, rect.height]
    ring

/-- For every valid parent (l, t, r, b) over a coordinate type whose arithmetic is
exact and whose halving is lawful, with mx = l + (r - l)/2 and my = t + (b - t)/2,
child_bounds returns NW = (l, t, mx, my), NE = (mx, t, r, my), SE = (mx, my, r, b),
SW = (l, my, mx, b), and a tree of depth greater than zero is constructed with
exactly these regions for its children, in the order NW, NE, SE, SW. -/
theorem child_bounds_quadrants_lawful [Coordinate T] [LawfulCoordinate T] (E : Type) (p : rect T)
    (hp : p.valid) (mx my : T) (hmx : mx = p.left + Coordinate.half (p.right - p.left))
    (hmy : my = p.top + Coordinate.half (p.bottom - p.top)) :
    child_bounds Location.NorthWest p = Except.ok ⟨p.left, p.top, mx, my⟩ ∧
    child_bounds Location.NorthEast p = Except.ok ⟨mx, p.top, p.right, my⟩ ∧
    child_bounds Location.SouthEast p = Except.ok ⟨mx, my, p.right, p.bottom⟩ ∧
    child_bounds Location.SouthWest p = Except.ok ⟨p.left, my, mx, p.bottom⟩ ∧
    ∀ D : Nat, ∃ nw ne se sw : quad_tree E T D,
      quad_tree.build (D + 1) p = Except.ok (quad_tree.node ⟨p, []⟩ nw ne se sw) ∧
      nw.get_bounds = ⟨p.left, p.top, mx, my⟩ ∧
      ne.get_bounds = ⟨mx, p.top, p.right, my⟩ ∧
      se.get_bounds = ⟨mx, my, p.right, p.bottom⟩ ∧
      sw.get_bounds = ⟨p.left, my, mx, p.bottom⟩ := by
  subst hmx hmy
  obtain ⟨h1, h2, h3, h4⟩ := child_bounds_of_valid p hp
  refine ⟨h1, h2, h3, h4, ?_⟩
  intro D
  obtain ⟨t, ht⟩ : ∃ t : quad_tree E T (D + 1), quad_tree.build (D + 1) p = Except.ok t :=
    quad_tree.build_ok (D + 1) p hp
  obtain ⟨bnw, bne, bse, bsw, nw, ne, se, sw, g1, g2, g3, g4, g5, g6, g7, g8, rfl⟩ :=
    (quad_tree.build_succ_ok_iff D p t).mp ht
  rw [h1] at g1
  rw [h2] at g3
  rw [h3] at g5
  rw [h4] at g7
  simp only [Except.ok.injEq] at g1 g3 g5 g7
  subst g1 g3 g5 g7
  exact ⟨nw, ne, se, sw, ht, (quad_tree.build_spec D _ nw g2).1,
    (quad_tree.build_spec D _ ne g4).1, (quad_tree.build_spec D _ se g6).1,
    (quad_tree.build_spec D _ sw g8).1⟩

end build_claims

/-! ## Lemmas on the tree operations -/

section tree_lemmas

variable {E T : Type} [LinearOrderedCommRing T]

omit [LinearOrderedCommRing T] in
theorem qnode.query_appends (n : qnode E T) (out : List E) :
    n.query out = out ++ n.elements.map Prod.fst := by
  unfold qnode.query
  generalize n.elements = l
  induction l generalizing out with
  | nil => simp
  | cons x xs ih => simp [List.foldl_cons, ih]

theorem qnode.query_area_appends (n : qnode E T) (area : rect T) (out : List E) :
    n.query_area area out =
      out ++ (n.elements.filter (fun x => area.overlaps x.2)).map Prod.fst := by
  unfold qnode.query_area
  generalize n.elements = l
  induction l generalizing out with
  | nil => simp
  | cons x xs ih =>
    by_cases h : area.overlaps x.2 = true
    · simp [List.foldl_cons, ih, h]
    · simp [List.foldl_cons, ih, h]

theorem qnode.insert_result (n : qnode E T) (e : E) (b : rect T) :
    (n.insert e b).1 = n.contains b := by
  unfold qnode.insert
  cases h : n.contains b <;> simp

theorem qnode.insert_state (n : qnode E T) (e : E) (b : rect T) :
    (n.insert e b).2 =
      if n.contains b then ⟨n.bounds, n.elements ++ [(e, b)]⟩ else n := by
  unfold qnode.insert
  cases h : n.contains b <;> simp

namespace quad_tree

omit [LinearOrderedCommRing T] in
@[simp] theorem base_leaf (b : qnode E T) : (leaf b).base = b := rfl

omit [LinearOrderedCommRing T] in
@[simp] theorem base_node {D : Nat} (b : qnode E T) (nw ne se sw : quad_tree E T D) :
    (node b nw ne se sw).base = b := rfl

omit [LinearOrderedCommRing T] in
@[simp] theorem get_bounds_leaf (b : qnode E T) : (leaf b).get_bounds = b.bounds := rfl

omit [LinearOrderedCommRing T] in
@[simp] theorem get_bounds_node {D : Nat} (b : qnode E T) (nw ne se sw : quad_tree E T D) :
    (node b nw ne se sw).get_bounds = b.bounds := rfl

theorem contains_eq {D : Nat} (t : quad_tree E T D) (r : rect T) :
    t.contains r = t.get_bounds.contains r := rfl

theorem inside_eq {D : Nat} (t : quad_tree E T D) (r : rect T) :
    t.inside r = r.contains t.get_bounds := rfl

theorem overlaps_eq {D : Nat} (t : quad_tree E T D) (r : rect T) :
    t.overlaps r = t.get_bounds.overlaps r := rfl

theorem insert_fst {D : Nat} (t : quad_tree E T D) (e : E) (b : rect T) :
    (t.insert e b).1 = t.contains b := by
  induction t with
  | leaf base => simp [insert, contains_eq, qnode.insert_result, qnode.contains]
  | node base nw ne se sw h1 h2 h3 h4 =>
    simp only [insert, contains_eq (node base nw ne se sw), get_bounds_node]
    cases h : base.contains b
    · simp only [Bool.not_false, if_true]
      exact h.symm
    · simp only [Bool.not_true, Bool.false_eq_true, if_false]
      split_ifs with c1 c2 c3 c4
      · simp only [h1, c1]; exact h.symm
      · simp only [h2, c2]; exact h.symm
      · simp only [h3, c3]; exact h.symm
      · simp only [h4, c4]; exact h.symm
      · simp only [qnode.insert_result, h]; exact h.symm

theorem insert_snd_of_not_contains {D : Nat} (t : quad_tree E T D) (e : E) (b : rect T)
    (h : t.contains b = false) : (t.insert e b).2 = t := by
  cases t with
  | leaf base =>
    have h2 : base.contains b = false := h
    simp [insert, qnode.insert_state, h2]
  | node base nw ne se sw =>
    have h2 : base.contains b = false := h
    simp [insert, h2]

theorem insert_get_bounds {D : Nat} (t : quad_tree E T D) (e : E) (b : rect T) :
    (t.insert e b).2.get_bounds = t.get_bounds := by
  cases t with
  | leaf base =>
    simp only [insert, get_bounds_leaf, qnode.insert_state]
    split_ifs <;> rfl
  | node base nw ne se sw =>
    simp only [insert, qnode.insert_state]
    split_ifs <;> rfl

theorem insert_contains {D : Nat} (t : quad_tree E T D) (e : E) (b r : rect T) :
    (t.insert e b).2.contains r = t.contains r := by
  simp only [contains_eq, insert_get_bounds]

end quad_tree

end tree_lemmas

section entries_lemmas

variable {E T : Type} [LinearOrderedCommRing T]

namespace quad_tree

omit [LinearOrderedCommRing T] in
theorem size_eq_length {D : Nat} (t : quad_tree E T D) : t.size = t.entries.length := by
  induction t with
  | leaf base => rfl
  | node base nw ne se sw h1 h2 h3 h4 =>
    simp only [size, entries, List.length_append, h1, h2, h3, h4, qnode.size]
    omega

omit [LinearOrderedCommRing T] in
theorem empty_iff {D : Nat} (t : quad_tree E T D) : t.empty = true ↔ t.size = 0 := by
  cases t with
  | leaf base =>
    rcases base with ⟨bb, els⟩
    cases els <;> simp [empty, size, qnode.empty, qnode.size]
  | node base nw ne se sw => simp [empty]

omit [LinearOrderedCommRing T] in
theorem query_eq {D : Nat} (t : quad_tree E T D) (out : List E) :
    t.query out = out ++ t.entries.map Prod.fst := by
  induction t generalizing out with
  | leaf base => simp [query, entries, qnode.query_appends]
  | node base nw ne se sw h1 h2 h3 h4 =>
    simp [query, entries, qnode.query_appends, h1, h2, h3, h4]

theorem entries_insert {D : Nat} (t : quad_tree E T D) (e : E) (b : rect T)
    (h : t.contains b = true) :
    ((t.insert e b).2.entries : Multiset (E × rect T)) = ↑t.entries + {(e, b)} := by
  induction t with
  | leaf base =>
    have h2 : base.contains b = true := h
    simp [insert, entries, qnode.insert_state, h2, ← Multiset.coe_add]
  | node base nw ne se sw h1 h2 h3 h4 =>
    have hb : base.contains b = true := h
    simp only [insert, hb, Bool.not_true, Bool.false_eq_true, if_false]
    split_ifs with c1 c2 c3 c4
    · simp only [entries, ← Multiset.coe_add, h1 c1]
      abel
    · simp only [entries, ← Multiset.coe_add, h2 c2]
      abel
    · simp only [entries, ← Multiset.coe_add, h3 c3]
      abel
    · simp only [entries, ← Multiset.coe_add, h4 c4]
      abel
    · simp [entries, qnode.insert_state, hb, ← Multiset.coe_add, add_assoc]

theorem entries_insert_of_not_contains {D : Nat} (t : quad_tree E T D) (e : E) (b : rect T)
    (h : t.contains b = false) : (t.insert e b).2.entries = t.entries := by
  rw [insert_snd_of_not_contains t e b h]

theorem insert_all_entries {D : Nat} (calls : List (E × rect T)) :
    ∀ t : quad_tree E T D,
      (((t.insert_all calls).1.entries : List (E × rect T)) : Multiset (E × rect T)) =
        ↑t.entries + ↑(t.insert_all calls).2 := by
  induction calls with
  | nil => intro t; simp [insert_all]
  | cons c cs ih =>
    intro t
    simp only [insert_all]
    rw [ih, insert_fst]
    cases h : t.contains c.2
    · simp [entries_insert_of_not_contains t c.1 c.2 h]
    · rw [entries_insert t c.1 c.2 h]
      simp only [if_true, ← Multiset.cons_coe, ← Multiset.singleton_add]
      abel

theorem insert_all_get_bounds {D : Nat} (calls : List (E × rect T)) :
    ∀ t : quad_tree E T D, (t.insert_all calls).1.get_bounds = t.get_bounds := by
  induction calls with
  | nil => intro t; rfl
  | cons c cs ih =>
    intro t
    simp only [insert_all]
    rw [ih, insert_get_bounds]

theorem insert_all_of_contains {D : Nat} (calls : List (E × rect T)) :
    ∀ t : quad_tree E T D, (∀ c ∈ calls, t.contains c.2 = true) →
      (t.insert_all calls).2 = calls := by
  induction calls with
  | nil => intro t _; rfl
  | cons c cs ih =>
    intro t h
    simp only [insert_all]
    rw [insert_fst, h c (List.mem_cons_self _ _)]
    simp only [if_true, List.cons.injEq, true_and]
    apply ih
    intro d hd
    rw [insert_contains]
    exact h d (List.mem_cons_of_mem _ hd)

end quad_tree
end entries_lemmas

section invariant_lemmas

variable {E T : Type} [LinearOrderedCommRing T]

namespace quad_tree

theorem mem_entries_insert {D : Nat} (t : quad_tree E T D) (e : E) (b : rect T)
    (h : t.contains b = true) (x : E × rect T) :
    x ∈ (t.insert e b).2.entries ↔ x ∈ t.entries ∨ x = (e, b) := by
  rw [← Multiset.mem_coe, entries_insert t e b h]
  simp

theorem wf_insert [Coordinate T] {D : Nat} (t : quad_tree E T D) (e : E) (b : rect T)
    (h : t.wf) : (t.insert e b).2.wf := by
  induction t with
  | leaf base => simp [insert, wf]
  | node base nw ne se sw h1 h2 h3 h4 =>
    obtain ⟨g1, g2, g3, g4, w1, w2, w3, w4⟩ := h
    simp only [insert]
    split_ifs
    · exact ⟨g1, g2, g3, g4, w1, w2, w3, w4⟩
    · exact ⟨by rw [insert_get_bounds]; exact g1, g2, g3, g4, h1 w1, w2, w3, w4⟩
    · exact ⟨g1, by rw [insert_get_bounds]; exact g2, g3, g4, w1, h2 w2, w3, w4⟩
    · exact ⟨g1, g2, by rw [insert_get_bounds]; exact g3, g4, w1, w2, h3 w3, w4⟩
    · exact ⟨g1, g2, g3, by rw [insert_get_bounds]; exact g4, w1, w2, w3, h4 w4⟩
    · refine ⟨?_, ?_, ?_, ?_, w1, w2, w3, w4⟩ <;>
        simp only [qnode.insert_state] <;> split_ifs <;> assumption

theorem inv_root {D : Nat} (t : quad_tree E T D) (h : t.inv) :
    ∀ x ∈ t.entries, t.get_bounds.contains x.2 = true := by
  cases t with
  | leaf base => exact h
  | node base nw ne se sw => exact h.1

theorem inv_insert {D : Nat} (t : quad_tree E T D) (e : E) (b : rect T)
    (h : t.inv) : (t.insert e b).2.inv := by
  induction t with
  | leaf base =>
    simp only [insert, qnode.insert_state]
    split_ifs with c
    · intro x hx
      simp only [List.mem_append, List.mem_singleton] at hx
      rcases hx with hx | hx
      · exact h x hx
      · rw [hx]; exact c
    · exact h
  | node base nw ne se sw h1 h2 h3 h4 =>
    obtain ⟨hroot, w1, w2, w3, w4⟩ := h
    simp only [entries, List.mem_append] at hroot
    have r1 : ∀ x ∈ nw.entries, base.bounds.contains x.2 = true :=
      fun x hx => hroot x (Or.inl (Or.inl (Or.inl (Or.inl hx))))
    have r2 : ∀ x ∈ ne.entries, base.bounds.contains x.2 = true :=
      fun x hx => hroot x (Or.inl (Or.inl (Or.inl (Or.inr hx))))
    have r3 : ∀ x ∈ se.entries, base.bounds.contains x.2 = true :=
      fun x hx => hroot x (Or.inl (Or.inl (Or.inr hx)))
    have r4 : ∀ x ∈ sw.entries, base.bounds.contains x.2 = true :=
      fun x hx => hroot x (Or.inl (Or.inr hx))
    have r5 : ∀ x ∈ base.elements, base.bounds.contains x.2 = true :=
      fun x hx => hroot x (Or.inr hx)
    simp only [insert]
    split_ifs with c0 c1 c2 c3 c4
    · refine ⟨?_, w1, w2, w3, w4⟩
      simp only [entries, List.mem_append]
      exact hroot
    · have hb : base.bounds.contains b = true := by simpa [qnode.contains] using c0
      refine ⟨?_, h1 w1, w2, w3, w4⟩
      intro x hx
      simp only [entries, List.mem_append, mem_entries_insert nw e b c1] at hx
      rcases hx with ((((hx | hx) | hx) | hx) | hx) | hx
      · exact r1 x hx
      · rw [hx]; exact hb
      · exact r2 x hx
      · exact r3 x hx
      · exact r4 x hx
      · exact r5 x hx
    · have hb : base.bounds.contains b = true := by simpa [qnode.contains] using c0
      refine ⟨?_, w1, h2 w2, w3, w4⟩
      intro x hx
      simp only [entries, List.mem_append, mem_entries_insert ne e b c2] at hx
      rcases hx with (((hx | hx | hx) | hx) | hx) | hx
      · exact r1 x hx
      · exact r2 x hx
      · rw [hx]; exact hb
      · exact r3 x hx
      · exact r4 x hx
      · exact r5 x hx
    · have hb : base.bounds.contains b = true := by simpa [qnode.contains] using c0
      refine ⟨?_, w1, w2, h3 w3, w4⟩
      intro x hx
      simp only [entries, List.mem_append, mem_entries_insert se e b c3] at hx
      rcases hx with (((hx | hx) | hx | hx) | hx) | hx
      · exact r1 x hx
      · exact r2 x hx
      · exact r3 x hx
      · rw [hx]; exact hb
      · exact r4 x hx
      · exact r5 x hx
    · have hb : base.bounds.contains b = true := by simpa [qnode.contains] using c0
      refine ⟨?_, w1, w2, w3, h4 w4⟩
      intro x hx
      simp only [entries, List.mem_append, mem_entries_insert sw e b c4] at hx
      rcases hx with ((((hx | hx) | hx) | hx | hx) | hx)
      · exact r1 x hx
      · exact r2 x hx
      · exact r3 x hx
      · exact r4 x hx
      · rw [hx]; exact hb
      · exact r5 x hx
    · have hb : base.contains b = true := by simpa using c0
      refine ⟨?_, w1, w2, w3, w4⟩
      intro x hx
      simp only [entries, List.mem_append, qnode.insert_state, hb, if_true,
        List.mem_singleton] at hx ⊢
      rcases hx with ((((hx | hx) | hx) | hx) | hx | hx)
      · exact r1 x hx
      · exact r2 x hx
      · exact r3 x hx
      · exact r4 x hx
      · exact r5 x hx
      · rw [hx]; exact hb

omit [LinearOrderedCommRing T] in
theorem entries_clear {D : Nat} (t : quad_tree E T D) : t.clear.entries = [] := by
  induction t with
  | leaf base => rfl
  | node base nw ne se sw h1 h2 h3 h4 => simp [clear, entries, h1, h2, h3, h4, qnode.clear]

omit [LinearOrderedCommRing T] in
theorem clear_get_bounds {D : Nat} (t : quad_tree E T D) :
    t.clear.get_bounds = t.get_bounds := by
  cases t <;> rfl

theorem wf_clear [Coordinate T] {D : Nat} (t : quad_tree E T D) (h : t.wf) : t.clear.wf := by
  induction t with
  | leaf base => trivial
  | node base nw ne se sw h1 h2 h3 h4 =>
    obtain ⟨g1, g2, g3, g4, w1, w2, w3, w4⟩ := h
    simp only [clear, wf, clear_get_bounds]
    exact ⟨g1, g2, g3, g4, h1 w1, h2 w2, h3 w3, h4 w4⟩

theorem inv_clear {D : Nat} (t : quad_tree E T D) : t.clear.inv := by
  induction t with
  | leaf base => intro x hx; simp [qnode.clear] at hx
  | node base nw ne se sw h1 h2 h3 h4 =>
    refine ⟨?_, h1, h2, h3, h4⟩
    intro x hx
    have := entries_clear (node base nw ne se sw)
    simp only [clear] at this
    rw [this] at hx
    simp at hx

theorem inv_of_entries_nil {D : Nat} (t : quad_tree E T D) (h : t.entries = []) : t.inv := by
  induction t with
  | leaf base =>
    intro x hx
    simp only [entries] at h
    rw [h] at hx
    simp at hx
  | node base nw ne se sw h1 h2 h3 h4 =>
    have h0 := h
    simp only [entries, List.append_eq_nil] at h
    refine ⟨?_, h1 h.1.1.1.1, h2 h.1.1.1.2, h3 h.1.1.2, h4 h.1.2⟩
    intro x hx
    rw [h0] at hx
    simp at hx

theorem Reachable.wf_inv [Coordinate T] {D : Nat} {R : rect T} {t : quad_tree E T D}
    (h : Reachable R t) : t.wf ∧ t.inv ∧ t.get_bounds = R := by
  induction h with
  | constructed t h =>
    obtain ⟨h1, h2, h3, _⟩ := build_spec D R t h
    exact ⟨h2, inv_of_entries_nil t h3, h1⟩
  | inserted t e b _ ih =>
    exact ⟨wf_insert t e b ih.1, inv_insert t e b ih.2.1, by rw [insert_get_bounds]; exact ih.2.2⟩
  | cleared t _ ih =>
    exact ⟨wf_clear t ih.1, inv_clear t, by rw [clear_get_bounds]; exact ih.2.2⟩

theorem Reachable.insert_all [Coordinate T] {D : Nat} {R : rect T}
    (calls : List (E × rect T)) :
    ∀ t : quad_tree E T D, Reachable R t → Reachable R (t.insert_all calls).1 := by
  induction calls with
  | nil => intro t h; exact h
  | cons c cs ih =>
    intro t h
    exact ih _ (Reachable.inserted t c.1 c.2 h)

end quad_tree
end invariant_lemmas

/-! ## Claims on insert, size and query(elements) -/

section insert_claims

variable {E T : Type} [LinearOrderedCommRing T]

theorem example_tree_constructed :
    quad_tree.build 1 (⟨0, 0, 4, 4⟩ : rect Int) = Except.ok example_tree := rfl

/-- C2: round trip. After any sequence of insert calls on a freshly constructed tree
of any depth, query(elements) into an empty collection yields a permutation of the
elements of exactly those calls that returned true. -/
theorem query_all_round_trip [Coordinate T] (D : Nat) (R : rect T) (t0 : quad_tree E T D)
    (h : quad_tree.build D R = Except.ok t0) (calls : List (E × rect T)) :
    List.Perm ((t0.insert_all calls).1.query [])
      ((t0.insert_all calls).2.map Prod.fst) := by
  rw [quad_tree.query_eq, List.nil_append]
  apply List.Perm.map
  apply Multiset.coe_eq_coe.mp
  rw [quad_tree.insert_all_entries, (quad_tree.build_spec D R t0 h).2.2.1]
  simp

theorem query_all_round_trip_witness :
    List.Perm
      ((example_tree.insert_all
        [(1, ⟨0, 0, 4, 4⟩), (2, ⟨3, 3, 5, 5⟩), (3, ⟨0, 0, 1, 1⟩)]).1.query [])
      [1, 3] :=
  query_all_round_trip 1 ⟨0, 0, 4, 4⟩ example_tree example_tree_constructed
    [(1, ⟨0, 0, 4, 4⟩), (2, ⟨3, 3, 5, 5⟩), (3, ⟨0, 0, 1, 1⟩)]

/-- C3: for every depth, every tree state and every bounds b, insert returns true
exactly when the root region contains b, non-strictly on all four sides; when it
returns false the tree afterwards is the tree before, with the same size() and the
same empty(). -/
theorem insert_true_iff_root_contains {D : Nat} (t : quad_tree E T D) (e : E) (b : rect T) :
    ((t.insert e b).1 = true ↔
      (t.get_bounds.left ≤ b.left ∧ b.right ≤ t.get_bounds.right ∧
        t.get_bounds.top ≤ b.top ∧ b.bottom ≤ t.get_bounds.bottom)) ∧
    (t.insert e b).1 = t.get_bounds.contains b ∧
    ((t.insert e b).1 = false →
      (t.insert e b).2 = t ∧ (t.insert e b).2.size = t.size ∧
        (t.insert e b).2.empty = t.empty) := by
  refine ⟨?_, ?_, ?_⟩
  · rw [quad_tree.insert_fst, quad_tree.contains_eq, rect.contains_iff]
  · rw [quad_tree.insert_fst, quad_tree.contains_eq]
  · intro h
    rw [quad_tree.insert_fst] at h
    rw [quad_tree.insert_snd_of_not_contains t e b h]
    exact ⟨rfl, rfl, rfl⟩

/-- C4: every insert that returns true increases size() by exactly one and makes
empty() false; inserting any elements whose bounds the root region R contains into
a freshly constructed tree over R succeeds for all of them and leaves size() equal
to their number, in particular for N elements with bounds equal to R. -/
theorem insert_increases_size [Coordinate T] (D : Nat) (R : rect T) (t0 : quad_tree E T D)
    (h : quad_tree.build D R = Except.ok t0) (calls : List (E × rect T))
    (hc : ∀ c ∈ calls, R.contains c.2 = true) :
    (∀ (t : quad_tree E T D) (e : E) (b : rect T), (t.insert e b).1 = true →
      (t.insert e b).2.size = t.size + 1 ∧ (t.insert e b).2.empty = false) ∧
    (t0.insert_all calls).2 = calls ∧
    (t0.insert_all calls).1.size = calls.length ∧
    (∀ (N : Nat) (e : E),
      (t0.insert_all (List.replicate N (e, R))).2 = List.replicate N (e, R) ∧
      (t0.insert_all (List.replicate N (e, R))).1.size = N ∧
      (0 < N → (t0.insert_all (List.replicate N (e, R))).1.empty = false)) := by
  obtain ⟨hb, _, hnil, _⟩ := quad_tree.build_spec D R t0 h
  have hsize : ∀ (t : quad_tree E T D) (e : E) (b : rect T), (t.insert e b).1 = true →
      (t.insert e b).2.size = t.size + 1 := by
    intro t e b hs
    rw [quad_tree.insert_fst] at hs
    have := congrArg Multiset.card (quad_tree.entries_insert t e b hs)
    simp only [Multiset.coe_card, Multiset.card_add, Multiset.card_singleton] at this
    rw [quad_tree.size_eq_length, quad_tree.size_eq_length, this]
  have hall : ∀ cs : List (E × rect T), (∀ c ∈ cs, R.contains c.2 = true) →
      (t0.insert_all cs).2 = cs ∧ (t0.insert_all cs).1.size = cs.length := by
    intro cs hcs
    have h1 : (t0.insert_all cs).2 = cs := by
      apply quad_tree.insert_all_of_contains
      intro c hcm
      rw [quad_tree.contains_eq, hb]
      exact hcs c hcm
    refine ⟨h1, ?_⟩
    have := congrArg Multiset.card (quad_tree.insert_all_entries cs t0)
    rw [hnil, h1] at this
    simp only [Multiset.coe_card, Multiset.card_add, List.length_nil, zero_add] at this
    rw [quad_tree.size_eq_length, this]
  refine ⟨?_, (hall calls hc).1, (hall calls hc).2, ?_⟩
  · intro t e b hs
    refine ⟨hsize t e b hs, ?_⟩
    rw [← Bool.not_eq_true, quad_tree.empty_iff, hsize t e b hs]
    exact Nat.succ_ne_zero _
  · intro N e
    have hr : ∀ c ∈ List.replicate N (e, R), R.contains c.2 = true := by
      intro c hcm
      rw [List.eq_of_mem_replicate hcm]
      exact rect.contains_refl R
    obtain ⟨h1, h2⟩ := hall _ hr
    rw [List.length_replicate] at h2
    refine ⟨h1, h2, ?_⟩
    intro hN
    rw [← Bool.not_eq_true, quad_tree.empty_iff, h2]
    exact Nat.pos_iff_ne_zero.mp hN

theorem insert_increases_size_witness :
    (example_tree.insert_all [(1, ⟨0, 0, 4, 4⟩), (2, ⟨2, 2, 3, 3⟩), (3, ⟨0, 0, 1, 1⟩)]).2 =
      [(1, ⟨0, 0, 4, 4⟩), (2, ⟨2, 2, 3, 3⟩), (3, ⟨0, 0, 1, 1⟩)] ∧
    (example_tree.insert_all [(1, ⟨0, 0, 4, 4⟩), (2, ⟨2, 2, 3, 3⟩), (3, ⟨0, 0, 1, 1⟩)]).1.size
      = 3 :=
  have h := insert_increases_size 1 ⟨0, 0, 4, 4⟩ example_tree example_tree_constructed
    [(1, ⟨0, 0, 4, 4⟩), (2, ⟨2, 2, 3, 3⟩), (3, ⟨0, 0, 1, 1⟩)] (by decide)
  ⟨h.2.1, h.2.2.1⟩

end insert_claims

/-! ## Nodes along paths, and the containment invariant -/

section path_lemmas

variable {E T : Type} [LinearOrderedCommRing T]

namespace quad_tree

omit [LinearOrderedCommRing T] in
@[simp] theorem node_at_nil {D : Nat} (t : quad_tree E T D) : t.node_at [] = some t.base := by
  cases t <;> rfl

omit [LinearOrderedCommRing T] in
@[simp] theorem node_at_leaf_cons (b : qnode E T) (loc : Location) (p : List Location) :
    (leaf b).node_at (loc :: p) = none := rfl

omit [LinearOrderedCommRing T] in
@[simp] theorem node_at_node_cons {D : Nat} (b : qnode E T) (nw ne se sw : quad_tree E T D)
    (loc : Location) (p : List Location) :
    (node b nw ne se sw).node_at (loc :: p) = ((node b nw ne se sw).child loc).node_at p := rfl

omit [LinearOrderedCommRing T] in
theorem child_entries_subset {D : Nat} (b : qnode E T) (nw ne se sw : quad_tree E T D)
    (loc : Location) :
    ∀ x ∈ ((node b nw ne se sw).child loc).entries, x ∈ (node b nw ne se sw).entries := by
  intro x hx
  cases loc <;> simp only [child] at hx <;> simp only [entries, List.mem_append] <;> tauto

omit [LinearOrderedCommRing T] in
theorem node_at_elements_mem {D : Nat} (t : quad_tree E T D) :
    ∀ (q : List Location) (n : qnode E T), t.node_at q = some n →
      ∀ x ∈ n.elements, x ∈ t.entries := by
  induction t with
  | leaf base =>
    intro q n hn x hx
    cases q with
    | nil =>
      simp only [node_at_nil, base_leaf, Option.some.injEq] at hn
      subst hn
      exact hx
    | cons loc q => simp at hn
  | node base nw ne se sw h1 h2 h3 h4 =>
    intro q n hn x hx
    cases q with
    | nil =>
      simp only [node_at_nil, base_node, Option.some.injEq] at hn
      subst hn
      simp only [entries, List.mem_append]
      exact Or.inr hx
    | cons loc q =>
      rw [node_at_node_cons] at hn
      apply child_entries_subset base nw ne se sw loc
      cases loc
      · exact h1 q n hn x hx
      · exact h2 q n hn x hx
      · exact h3 q n hn x hx
      · exact h4 q n hn x hx

theorem inv_child {D : Nat} (b : qnode E T) (nw ne se sw : quad_tree E T D)
    (h : (node b nw ne se sw).inv) (loc : Location) : ((node b nw ne se sw).child loc).inv := by
  obtain ⟨_, w1, w2, w3, w4⟩ := h
  cases loc <;> assumption

theorem inv_node_at {D : Nat} (t : quad_tree E T D) (h : t.inv) :
    ∀ (p q : List Location) (a n : qnode E T), t.node_at p = some a →
      t.node_at (p ++ q) = some n → ∀ x ∈ n.elements, a.bounds.contains x.2 = true := by
  induction t with
  | leaf base =>
    intro p q a n ha hn x hx
    cases p with
    | nil =>
      simp only [node_at_nil, base_leaf, Option.some.injEq] at ha
      subst ha
      exact inv_root _ h x (node_at_elements_mem _ q n hn x hx)
    | cons loc p => simp at ha
  | node base nw ne se sw h1 h2 h3 h4 =>
    intro p q a n ha hn x hx
    cases p with
    | nil =>
      simp only [node_at_nil, base_node, Option.some.injEq] at ha
      subst ha
      exact inv_root _ h x (node_at_elements_mem _ q n hn x hx)
    | cons loc p =>
      rw [List.cons_append, node_at_node_cons] at hn
      rw [node_at_node_cons] at ha
      have hc := inv_child base nw ne se sw h loc
      cases loc
      · exact h1 hc p q a n ha hn x hx
      · exact h2 hc p q a n ha hn x hx
      · exact h3 hc p q a n ha hn x hx
      · exact h4 hc p q a n ha hn x hx

end quad_tree

/-- C6: in every state reachable by construction, insert and clear, the bounds of
every entry are contained in the region of the node that owns it and in the region
of every ancestor of that node up to the root: a is a node on a path p, n a node at
or below it on the path p ++ q, and x an entry that n owns. -/
theorem entry_bounds_within_owner_and_ancestors [Coordinate T] {D : Nat} (R : rect T)
    (t : quad_tree E T D) (h : quad_tree.Reachable R t) (p q : List Location)
    (a n : qnode E T) (ha : t.node_at p = some a) (hn : t.node_at (p ++ q) = some n)
    (x : E × rect T) (hx : x ∈ n.elements) :
    a.bounds.contains x.2 = true := by
  obtain ⟨_, hinv, _⟩ := h.wf_inv
  exact quad_tree.inv_node_at t hinv p q a n ha hn x hx

theorem entry_bounds_within_owner_and_ancestors_witness :
    (example_tree.insert 7 ⟨0, 0, 1, 1⟩).2.node_at [Location.NorthWest] =
      some ⟨⟨0, 0, 2, 2⟩, [(7, ⟨0, 0, 1, 1⟩)]⟩ ∧
    rect.contains (⟨0, 0, 4, 4⟩ : rect Int) ⟨0, 0, 1, 1⟩ = true ∧
    rect.contains (⟨0, 0, 2, 2⟩ : rect Int) ⟨0, 0, 1, 1⟩ = true :=
  have hr : quad_tree.Reachable (⟨0, 0, 4, 4⟩ : rect Int)
      (example_tree.insert 7 ⟨0, 0, 1, 1⟩).2 :=
    quad_tree.Reachable.inserted example_tree 7 ⟨0, 0, 1, 1⟩
      (quad_tree.Reachable.constructed example_tree example_tree_constructed)
  ⟨rfl,
    entry_bounds_within_owner_and_ancestors ⟨0, 0, 4, 4⟩ _ hr [] [Location.NorthWest]
      ⟨⟨0, 0, 4, 4⟩, []⟩ ⟨⟨0, 0, 2, 2⟩, [(7, ⟨0, 0, 1, 1⟩)]⟩ rfl rfl (7, ⟨0, 0, 1, 1⟩)
      (List.mem_singleton.mpr rfl),
    entry_bounds_within_owner_and_ancestors ⟨0, 0, 4, 4⟩ _ hr [Location.NorthWest] []
      ⟨⟨0, 0, 2, 2⟩, [(7, ⟨0, 0, 1, 1⟩)]⟩ ⟨⟨0, 0, 2, 2⟩, [(7, ⟨0, 0, 1, 1⟩)]⟩ rfl rfl
      (7, ⟨0, 0, 1, 1⟩) (List.mem_singleton.mpr rfl)⟩

end path_lemmas

/-! ## The area query -/

section query_area_lemmas

variable {E T : Type} [LinearOrderedCommRing T]

/-- Pruning: an entry inside a region that the area overlaps makes the region overlap
the area. -/
theorem rect.overlaps_of_contains_of_overlaps (c area x : rect T)
    (hc : c.contains x = true) (ho : area.overlaps x = true) : c.overlaps area = true := by
  rw [rect.contains_iff] at hc
  rw [rect.overlaps_iff] at ho ⊢
  obtain ⟨c1, c2, c3, c4⟩ := hc
  obtain ⟨o1, o2, o3, o4⟩ := ho
  exact ⟨lt_of_le_of_lt c1 o2, lt_of_lt_of_le o1 c2, lt_of_lt_of_le o4 c4,
    lt_of_le_of_lt c3 o3⟩

/-- The break: an area inside one region and overlapping an entry inside another
region makes the two regions overlap. -/
theorem rect.overlaps_of_contains_area (c s area x : rect T) (hc : c.contains area = true)
    (hs : s.contains x = true) (ho : area.overlaps x = true) : c.overlaps s = true := by
  rw [rect.contains_iff] at hc hs
  rw [rect.overlaps_iff] at ho ⊢
  obtain ⟨c1, c2, c3, c4⟩ := hc
  obtain ⟨s1, s2, s3, s4⟩ := hs
  obtain ⟨o1, o2, o3, o4⟩ := ho
  exact ⟨lt_of_le_of_lt c1 (lt_of_lt_of_le o1 s2), lt_of_le_of_lt s1 (lt_of_lt_of_le o2 c2),
    lt_of_le_of_lt s3 (lt_of_lt_of_le o3 c4), lt_of_le_of_lt c3 (lt_of_lt_of_le o4 s4)⟩

/-- The unfiltered case: an entry of positive width and height inside a region
inside the area is overlapped by the area. -/
theorem rect.overlaps_of_inside (c area x : rect T) (hc : area.contains c = true)
    (hx : c.contains x = true) (hp : x.positive) : area.overlaps x = true := by
  rw [rect.contains_iff] at hc hx
  rw [rect.overlaps_iff]
  obtain ⟨c1, c2, c3, c4⟩ := hc
  obtain ⟨x1, x2, x3, x4⟩ := hx
  obtain ⟨p1, p2⟩ := hp
  exact ⟨lt_of_le_of_lt (le_trans c1 x1) p1, lt_of_lt_of_le p1 (le_trans x2 c2),
    lt_of_lt_of_le p2 (le_trans x4 c4), lt_of_le_of_lt (le_trans c3 x3) p2⟩

/-- In a well-formed node no child region overlaps the region of a later sibling. -/
theorem quad_tree.wf_siblings [Coordinate T] {D : Nat} (b : qnode E T)
    (nw ne se sw : quad_tree E T D) (h : (quad_tree.node b nw ne se sw).wf) :
    nw.get_bounds.overlaps ne.get_bounds = false ∧
    nw.get_bounds.overlaps se.get_bounds = false ∧
    nw.get_bounds.overlaps sw.get_bounds = false ∧
    ne.get_bounds.overlaps se.get_bounds = false ∧
    ne.get_bounds.overlaps sw.get_bounds = false ∧
    se.get_bounds.overlaps sw.get_bounds = false := by
  obtain ⟨g1, g2, g3, g4, _⟩ := h
  simp only [child_bounds] at g1 g2 g3 g4
  obtain ⟨_, _, e1⟩ := (rect.new_ok_iff _ _ _ _ _).mp g1
  obtain ⟨_, _, e2⟩ := (rect.new_ok_iff _ _ _ _ _).mp g2
  obtain ⟨_, _, e3⟩ := (rect.new_ok_iff _ _ _ _ _).mp g3
  obtain ⟨_, _, e4⟩ := (rect.new_ok_iff _ _ _ _ _).mp g4
  rw [e1, e2, e3, e4]
  simp [rect.overlaps]

omit [LinearOrderedCommRing T] in
/-- One round of the child loop appends what visit selects. -/
theorem quad_tree.round_eq {α β : Type} (f : α → β) (i o : Bool) (e : List β)
    (a b : List α) :
    (if i = true then e ++ a.map f else if o = true then e ++ b.map f else e) =
      e ++ (quad_tree.visit i o a b).map f := by
  unfold quad_tree.visit
  split_ifs <;> simp

namespace quad_tree

theorem query_area_eq {D : Nat} (t : quad_tree E T D) (area : rect T) (out : List E) :
    t.query_area area out = out ++ (t.entries_area area).map Prod.fst := by
  induction t generalizing out with
  | leaf base => simp [query_area, entries_area, qnode.query_area_appends]
  | node base nw ne se sw h1 h2 h3 h4 =>
    simp only [query_area, entries_area, qnode.query_area_appends, h1, h2, h3, h4, query_eq,
      round_eq]
    split_ifs <;> simp only [List.map_append, List.append_assoc]

end quad_tree
end query_area_lemmas

section query_area_exactness

variable {E T : Type} [LinearOrderedCommRing T]

theorem overlapping_append (area : rect T) (l1 l2 : List (E × rect T)) :
    overlapping area (l1 ++ l2) = overlapping area l1 ++ overlapping area l2 := by
  simp [overlapping]

theorem overlapping_idem (area : rect T) (l : List (E × rect T)) :
    overlapping area (overlapping area l) = overlapping area l := by
  simp [overlapping]

theorem overlapping_eq_nil (area : rect T) (l : List (E × rect T))
    (h : ∀ x ∈ l, area.overlaps x.2 = false) : overlapping area l = [] := by
  simp only [overlapping, List.filter_eq_nil_iff]
  intro x hx
  simp [h x hx]

namespace quad_tree

/-- Pruning is sound: a subtree whose region does not overlap the area holds no
entry that the area overlaps. -/
theorem overlapping_of_not_overlaps {D : Nat} (t : quad_tree E T D) (h : t.inv)
    (area : rect T) (ho : t.overlaps area = false) : overlapping area t.entries = [] := by
  apply overlapping_eq_nil
  intro x hx
  by_contra hc
  rw [Bool.not_eq_false] at hc
  have := rect.overlaps_of_contains_of_overlaps t.get_bounds area x.2 (inv_root t h x hx) hc
  rw [overlaps_eq] at ho
  rw [ho] at this
  exact Bool.false_ne_true this

/-- The break is sound: when a child contains the area, a sibling whose region it
does not overlap holds no entry that the area overlaps. -/
theorem overlapping_of_sibling {D : Nat} (c s : quad_tree E T D) (h : s.inv)
    (area : rect T) (hc : c.contains area = true)
    (hs : c.get_bounds.overlaps s.get_bounds = false) : overlapping area s.entries = [] := by
  apply overlapping_eq_nil
  intro x hx
  by_contra ho
  rw [Bool.not_eq_false] at ho
  have := rect.overlaps_of_contains_area c.get_bounds s.get_bounds area x.2 hc
    (inv_root s h x hx) ho
  rw [hs] at this
  exact Bool.false_ne_true this

theorem overlapping_visit {D : Nat} (c : quad_tree E T D) (h : c.inv) (area : rect T)
    (ih : (↑(overlapping area (c.entries_area area)) : Multiset (E × rect T)) =
      ↑(overlapping area c.entries)) :
    (↑(overlapping area
        (visit (c.inside area) (c.overlaps area) c.entries (c.entries_area area))) :
      Multiset (E × rect T)) = ↑(overlapping area c.entries) := by
  unfold visit
  split_ifs with h1 h2
  · rfl
  · exact ih
  · rw [overlapping_of_not_overlaps c h area (by simpa using h2)]
    rfl

/-- Completeness without duplication: among the entries that the area query takes,
those that the area overlaps are exactly the stored entries that the area overlaps. -/
theorem overlapping_entries_area [Coordinate T] {D : Nat} (t : quad_tree E T D)
    (hwf : t.wf) (hinv : t.inv) (area : rect T) :
    (↑(overlapping area (t.entries_area area)) : Multiset (E × rect T)) =
      ↑(overlapping area t.entries) := by
  induction t with
  | leaf base => simp [entries_area, entries, overlapping]
  | node base nw ne se sw h1 h2 h3 h4 =>
    obtain ⟨s12, s13, s14, s23, s24, s34⟩ := wf_siblings base nw ne se sw hwf
    obtain ⟨_, _, _, _, w1, w2, w3, w4⟩ := hwf
    obtain ⟨_, i1, i2, i3, i4⟩ := hinv
    have v1 := overlapping_visit nw i1 area (h1 w1 i1)
    have v2 := overlapping_visit ne i2 area (h2 w2 i2)
    have v3 := overlapping_visit se i3 area (h3 w3 i3)
    have v4 := overlapping_visit sw i4 area (h4 w4 i4)
    have hown : overlapping area (List.filter (fun x => area.overlaps x.2) base.elements) =
        overlapping area base.elements := overlapping_idem area base.elements
    simp only [entries_area, entries]
    split_ifs with c1 c2 c3 c4
    · simp only [overlapping_append, ← Multiset.coe_add, hown, h1 w1 i1,
        overlapping_of_sibling nw ne i2 area c1 s12,
        overlapping_of_sibling nw se i3 area c1 s13,
        overlapping_of_sibling nw sw i4 area c1 s14, Multiset.coe_nil, add_zero]
      abel
    · simp only [overlapping_append, ← Multiset.coe_add, hown, v1, h2 w2 i2,
        overlapping_of_sibling ne se i3 area c2 s23,
        overlapping_of_sibling ne sw i4 area c2 s24, Multiset.coe_nil, add_zero]
      abel
    · simp only [overlapping_append, ← Multiset.coe_add, hown, v1, v2, h3 w3 i3,
        overlapping_of_sibling se sw i4 area c3 s34, Multiset.coe_nil, add_zero]
      abel
    · simp only [overlapping_append, ← Multiset.coe_add, hown, v1, v2, v3, h4 w4 i4]
      abel
    · simp only [overlapping_append, ← Multiset.coe_add, hown, v1, v2, v3, v4]
      abel

omit [LinearOrderedCommRing T] in
theorem visit_le {α : Type} (i o : Bool) (all ea : List α)
    (h : (↑ea : Multiset α) ≤ ↑all) : (↑(visit i o all ea) : Multiset α) ≤ ↑all := by
  unfold visit
  split_ifs
  · exact le_refl _
  · exact h
  · exact Multiset.zero_le _

/-- Nothing is invented or duplicated: the entries that the area query takes are
among the stored entries. -/
theorem entries_area_le {D : Nat} (t : quad_tree E T D) (area : rect T) :
    (↑(t.entries_area area) : Multiset (E × rect T)) ≤ ↑t.entries := by
  induction t with
  | leaf base =>
    exact Multiset.coe_le.mpr (List.filter_sublist _).subperm
  | node base nw ne se sw h1 h2 h3 h4 =>
    have hown : (↑(List.filter (fun x => area.overlaps x.2) base.elements) :
        Multiset (E × rect T)) ≤ ↑base.elements :=
      Multiset.coe_le.mpr (List.filter_sublist _).subperm
    have v1 := visit_le (nw.inside area) (nw.overlaps area) _ _ h1
    have v2 := visit_le (ne.inside area) (ne.overlaps area) _ _ h2
    have v3 := visit_le (se.inside area) (se.overlaps area) _ _ h3
    have v4 := visit_le (sw.inside area) (sw.overlaps area) _ _ h4
    have hr : (↑(nw.entries ++ ne.entries ++ se.entries ++ sw.entries ++ base.elements) :
        Multiset (E × rect T)) =
        ↑base.elements + (↑nw.entries + (↑ne.entries + (↑se.entries + ↑sw.entries))) := by
      simp only [← Multiset.coe_add]
      abel
    simp only [entries_area, entries]
    rw [hr]
    split_ifs with c1 c2 c3 c4
    · simp only [← Multiset.coe_add]
      exact add_le_add hown (le_trans h1 (Multiset.le_add_right _ _))
    · simp only [← Multiset.coe_add]
      exact add_le_add hown (add_le_add v1 (le_trans h2 (Multiset.le_add_right _ _)))
    · simp only [← Multiset.coe_add]
      exact add_le_add hown (add_le_add v1 (add_le_add v2
        (le_trans h3 (Multiset.le_add_right _ _))))
    · simp only [← Multiset.coe_add]
      exact add_le_add hown (add_le_add v1 (add_le_add v2 (add_le_add v3 h4)))
    · simp only [← Multiset.coe_add]
      exact add_le_add hown (add_le_add v1 (add_le_add v2 (add_le_add v3 v4)))

theorem visit_not_positive {D : Nat} (c : quad_tree E T D) (h : c.inv) (area : rect T)
    (ih : ∀ x ∈ c.entries_area area, area.overlaps x.2 = false → ¬ x.2.positive) :
    ∀ x ∈ visit (c.inside area) (c.overlaps area) c.entries (c.entries_area area),
      area.overlaps x.2 = false → ¬ x.2.positive := by
  intro x hx ho hp
  unfold visit at hx
  split_ifs at hx with h1 h2
  · have := rect.overlaps_of_inside c.get_bounds area x.2 h1 (inv_root c h x hx) hp
    rw [ho] at this
    exact Bool.false_ne_true this
  · exact ih x hx ho hp
  · simp at hx

/-- Every entry that the area query takes although the area does not overlap it has
no positive width or no positive height. -/
theorem entries_area_not_positive {D : Nat} (t : quad_tree E T D) (hinv : t.inv)
    (area : rect T) :
    ∀ x ∈ t.entries_area area, area.overlaps x.2 = false → ¬ x.2.positive := by
  induction t with
  | leaf base =>
    intro x hx ho
    simp only [entries_area, List.mem_filter] at hx
    rw [ho] at hx
    exact absurd hx.2 Bool.false_ne_true
  | node base nw ne se sw h1 h2 h3 h4 =>
    obtain ⟨_, i1, i2, i3, i4⟩ := hinv
    have v1 := visit_not_positive nw i1 area (h1 i1)
    have v2 := visit_not_positive ne i2 area (h2 i2)
    have v3 := visit_not_positive se i3 area (h3 i3)
    have v4 := visit_not_positive sw i4 area (h4 i4)
    intro x hx ho
    simp only [entries_area, List.mem_append, List.mem_filter] at hx
    rcases hx with hx | hx
    · rw [ho] at hx
      exact absurd hx.2 Bool.false_ne_true
    · split_ifs at hx with c1 c2 c3 c4
      · exact h1 i1 x hx ho
      · simp only [List.mem_append] at hx
        rcases hx with hx | hx
        · exact v1 x hx ho
        · exact h2 i2 x hx ho
      · simp only [List.mem_append] at hx
        rcases hx with hx | hx | hx
        · exact v1 x hx ho
        · exact v2 x hx ho
        · exact h3 i3 x hx ho
      · simp only [List.mem_append] at hx
        rcases hx with hx | hx | hx | hx
        · exact v1 x hx ho
        · exact v2 x hx ho
        · exact v3 x hx ho
        · exact h4 i4 x hx ho
      · simp only [List.mem_append] at hx
        rcases hx with hx | hx | hx | hx
        · exact v1 x hx ho
        · exact v2 x hx ho
        · exact v3 x hx ho
        · exact v4 x hx ho

end quad_tree
end query_area_exactness

/-! ## Claim on query(area, elements) -/

section query_area_claims

variable {E T : Type} [LinearOrderedCommRing T]

theorem quad_tree.insert_all_sublist {D : Nat} (calls : List (E × rect T)) :
    ∀ t : quad_tree E T D, List.Sublist (t.insert_all calls).2 calls := by
  induction calls with
  | nil => intro t; exact List.Sublist.refl _
  | cons c cs ih =>
    intro t
    simp only [quad_tree.insert_all]
    split_ifs
    · exact (ih _).cons₂ c
    · exact (ih _).cons c

/-- The state after a run of insert calls on a freshly constructed tree: its
invariants, and its entries as a multiset. -/
theorem quad_tree.insert_all_spec [Coordinate T] {D : Nat} (R : rect T)
    (t0 : quad_tree E T D) (h : quad_tree.build D R = Except.ok t0)
    (calls : List (E × rect T)) :
    (t0.insert_all calls).1.wf ∧ (t0.insert_all calls).1.inv ∧
      List.Perm (t0.insert_all calls).1.entries (t0.insert_all calls).2 := by
  have hr := quad_tree.Reachable.insert_all calls t0 (quad_tree.Reachable.constructed t0 h)
  refine ⟨hr.wf_inv.1, hr.wf_inv.2.1, ?_⟩
  apply Multiset.coe_eq_coe.mp
  rw [quad_tree.insert_all_entries, (quad_tree.build_spec D R t0 h).2.2.1]
  simp

/-- C1 as stated fails: in the tree of depth 1 over (0,0)-(4,4) the entry with the
valid bounds (0,0)-(0,1), of no width, is stored in the north-west child, which lies
inside the query area (0,0)-(4,4); the area does not overlap the entry, and the
query returns it. -/
theorem query_area_returns_non_overlapping_counterexample :
    quad_tree.build 1 (⟨0, 0, 4, 4⟩ : rect Int) = Except.ok example_tree ∧
    (⟨0, 0, 0, 1⟩ : rect Int).valid ∧
    (example_tree.insert 7 ⟨0, 0, 0, 1⟩).1 = true ∧
    (example_tree.insert_all [(7, ⟨0, 0, 0, 1⟩)]).2 = [(7, ⟨0, 0, 0, 1⟩)] ∧
    rect.overlaps (⟨0, 0, 4, 4⟩ : rect Int) ⟨0, 0, 0, 1⟩ = false ∧
    (example_tree.insert_all [(7, ⟨0, 0, 0, 1⟩)]).1.query_area ⟨0, 0, 4, 4⟩ [] = [7] ∧
    ¬ List.Perm ((example_tree.insert_all [(7, ⟨0, 0, 0, 1⟩)]).1.query_area ⟨0, 0, 4, 4⟩ [])
      ((overlapping ⟨0, 0, 4, 4⟩ (example_tree.insert_all [(7, ⟨0, 0, 0, 1⟩)]).2).map
        Prod.fst) := by
  refine ⟨rfl, by decide, rfl, rfl, rfl, rfl, ?_⟩
  decide

/-- C1, amended: after any sequence of insert calls on a freshly constructed tree,
query(area, elements) started with an empty collection yields, as a multiset, the
elements of all successfully inserted entries that the area overlaps, each once
and none missing, together with the elements of some further successfully inserted
entries (the list extra), every one of which lacks positive width or positive
height; when every inserted entry has positive width and height the result is
exactly the overlapped entries. -/
theorem query_area_overlapping_plus_degenerate [Coordinate T] (D : Nat) (R : rect T)
    (t0 : quad_tree E T D) (h : quad_tree.build D R = Except.ok t0)
    (calls : List (E × rect T)) (area : rect T) :
    ∃ extra : List (E × rect T),
      List.Perm ((t0.insert_all calls).1.query_area area [])
        ((overlapping area (t0.insert_all calls).2 ++ extra).map Prod.fst) ∧
      List.Subperm extra
        ((t0.insert_all calls).2.filter (fun c => !area.overlaps c.2)) ∧
      (∀ c ∈ extra, ¬ c.2.positive) ∧
      ((∀ c ∈ calls, c.2.positive) →
        List.Perm ((t0.insert_all calls).1.query_area area [])
          ((overlapping area (t0.insert_all calls).2).map Prod.fst)) := by
  obtain ⟨hwf, hinv, hperm⟩ := quad_tree.insert_all_spec R t0 h calls
  generalize (t0.insert_all calls).1 = t at hwf hinv hperm ⊢
  have hsub : List.Sublist (t0.insert_all calls).2 calls := quad_tree.insert_all_sublist calls t0
  generalize (t0.insert_all calls).2 = succ at hperm hsub ⊢
  have hsplit : List.Perm (t.entries_area area)
      (overlapping area succ ++
        (t.entries_area area).filter (fun c => !area.overlaps c.2)) := by
    refine (List.filter_append_perm (fun c => area.overlaps c.2) _).symm.trans ?_
    apply List.Perm.append_right
    exact (Multiset.coe_eq_coe.mp (quad_tree.overlapping_entries_area t hwf hinv area)).trans
      (hperm.filter _)
  have hdeg : ∀ c ∈ (t.entries_area area).filter (fun c => !area.overlaps c.2),
      ¬ c.2.positive := by
    intro c hc
    rw [List.mem_filter] at hc
    exact quad_tree.entries_area_not_positive t hinv area c hc.1 (by simpa using hc.2)
  have hle : List.Subperm ((t.entries_area area).filter (fun c => !area.overlaps c.2))
      (succ.filter (fun c => !area.overlaps c.2)) :=
    ((Multiset.coe_le.mp (quad_tree.entries_area_le t area)).filter _).trans
      (hperm.filter _).subperm
  refine ⟨(t.entries_area area).filter (fun c => !area.overlaps c.2), ?_, hle, hdeg, ?_⟩
  · rw [quad_tree.query_area_eq, List.nil_append]
    exact hsplit.map _
  · intro hpos
    have hnil : (t.entries_area area).filter (fun c => !area.overlaps c.2) = [] := by
      rw [List.eq_nil_iff_forall_not_mem]
      intro c hc
      exact hdeg c hc (hpos c (hsub.subset (hle.subset hc |> List.mem_of_mem_filter)))
    rw [hnil, List.append_nil] at hsplit
    rw [quad_tree.query_area_eq, List.nil_append]
    exact hsplit.map _

theorem query_area_overlapping_plus_degenerate_witness :
    ∃ extra : List (Nat × rect Int),
      List.Perm
        ((example_tree.insert_all
          [(1, ⟨0, 0, 1, 1⟩), (2, ⟨3, 3, 4, 4⟩), (7, ⟨0, 0, 0, 1⟩)]).1.query_area
            ⟨0, 0, 2, 4⟩ [])
        ((overlapping ⟨0, 0, 2, 4⟩ (example_tree.insert_all
          [(1, ⟨0, 0, 1, 1⟩), (2, ⟨3, 3, 4, 4⟩), (7, ⟨0, 0, 0, 1⟩)]).2 ++ extra).map
            Prod.fst) ∧
      (∀ c ∈ extra, ¬ c.2.positive) :=
  have h := query_area_overlapping_plus_degenerate 1 ⟨0, 0, 4, 4⟩ example_tree
    example_tree_constructed [(1, ⟨0, 0, 1, 1⟩), (2, ⟨3, 3, 4, 4⟩), (7, ⟨0, 0, 0, 1⟩)]
    ⟨0, 0, 2, 4⟩
  Exists.elim h (fun extra hx => ⟨extra, hx.1, hx.2.2.1⟩)

end query_area_claims

/-! ## Where insert stores an entry -/

section insert_path_lemmas

variable {E T : Type} [LinearOrderedCommRing T]

theorem apart_children (l1 m1 r1 l2 m2 r2 cl1 cr1 cl2 cr2 : T)
    (h1 : l1 ≤ m1 ∧ m1 ≤ r1) (h2 : l2 ≤ m2 ∧ m2 ≤ r2)
    (hm : l1 = l2 ∧ r1 = r2 → m1 = m2) (ha : apart l1 r1 l2 r2)
    (hc1 : (cl1 = l1 ∧ cr1 = m1) ∨ (cl1 = m1 ∧ cr1 = r1))
    (hc2 : (cl2 = l2 ∧ cr2 = m2) ∨ (cl2 = m2 ∧ cr2 = r2)) :
    apart cl1 cr1 cl2 cr2 := by
  obtain ⟨a1, a2⟩ := h1
  obtain ⟨b1, b2⟩ := h2
  unfold apart at ha ⊢
  rcases ha with ha | ha | ha
  · have hmm := hm ha
    obtain ⟨e1, e2⟩ := ha
    rcases hc1 with ⟨p1, p2⟩ | ⟨p1, p2⟩ <;> rcases hc2 with ⟨q1, q2⟩ | ⟨q1, q2⟩
    · exact Or.inl ⟨by rw [p1, q1, e1], by rw [p2, q2, hmm]⟩
    · exact Or.inr (Or.inl (by rw [p2, q1, hmm]))
    · exact Or.inr (Or.inr (by rw [p1, q2, hmm]))
    · exact Or.inl ⟨by rw [p1, q1, hmm], by rw [p2, q2, e2]⟩
  · refine Or.inr (Or.inl ?_)
    rcases hc1 with ⟨p1, p2⟩ | ⟨p1, p2⟩ <;> rcases hc2 with ⟨q1, q2⟩ | ⟨q1, q2⟩ <;>
      rw [p2, q1] <;> linarith
  · refine Or.inr (Or.inr ?_)
    rcases hc1 with ⟨p1, p2⟩ | ⟨p1, p2⟩ <;> rcases hc2 with ⟨q1, q2⟩ | ⟨q1, q2⟩ <;>
      rw [p1, q2] <;> linarith

theorem fits_half (l1 m1 r1 l2 m2 r2 cl2 cr2 bl br : T)
    (h1 : l1 ≤ m1 ∧ m1 ≤ r1) (h2 : l2 ≤ m2 ∧ m2 ≤ r2)
    (hm : l1 = l2 ∧ r1 = r2 → m1 = m2) (ha : apart l1 r1 l2 r2)
    (hb : l1 ≤ bl ∧ br ≤ r1)
    (hc2 : (cl2 = l2 ∧ cr2 = m2) ∨ (cl2 = m2 ∧ cr2 = r2))
    (hcb : cl2 ≤ bl ∧ br ≤ cr2) :
    (l1 ≤ bl ∧ br ≤ m1) ∨ (m1 ≤ bl ∧ br ≤ r1) := by
  obtain ⟨a1, a2⟩ := h1
  obtain ⟨b1, b2⟩ := h2
  obtain ⟨d1, d2⟩ := hb
  obtain ⟨f1, f2⟩ := hcb
  unfold apart at ha
  rcases ha with ha | ha | ha
  · have hmm := hm ha
    rcases hc2 with ⟨q1, q2⟩ | ⟨q1, q2⟩
    · exact Or.inl ⟨d1, by rw [hmm, ← q2]; exact f2⟩
    · exact Or.inr ⟨by rw [hmm, ← q1]; exact f1, d2⟩
  · refine Or.inr ⟨?_, d2⟩
    rcases hc2 with ⟨q1, q2⟩ | ⟨q1, q2⟩ <;> rw [q1] at f1 <;> linarith
  · refine Or.inl ⟨d1, ?_⟩
    rcases hc2 with ⟨q1, q2⟩ | ⟨q1, q2⟩ <;> rw [q2] at f2 <;> linarith

namespace quad_tree

/-- The regions of the children of a well-formed node, around the midpoint. -/
theorem wf_child_bounds [Coordinate T] {D : Nat} (b : qnode E T)
    (nw ne se sw : quad_tree E T D) (h : (node b nw ne se sw).wf) :
    (b.bounds.left ≤ b.bounds.left + Coordinate.half (b.bounds.right - b.bounds.left) ∧
      b.bounds.left + Coordinate.half (b.bounds.right - b.bounds.left) ≤ b.bounds.right) ∧
    (b.bounds.top ≤ b.bounds.top + Coordinate.half (b.bounds.bottom - b.bounds.top) ∧
      b.bounds.top + Coordinate.half (b.bounds.bottom - b.bounds.top) ≤ b.bounds.bottom) ∧
    nw.get_bounds = ⟨b.bounds.left, b.bounds.top,
      b.bounds.left + Coordinate.half (b.bounds.right - b.bounds.left),
      b.bounds.top + Coordinate.half (b.bounds.bottom - b.bounds.top)⟩ ∧
    ne.get_bounds = ⟨b.bounds.left + Coordinate.half (b.bounds.right - b.bounds.left),
      b.bounds.top, b.bounds.right,
      b.bounds.top + Coordinate.half (b.bounds.bottom - b.bounds.top)⟩ ∧
    se.get_bounds = ⟨b.bounds.left + Coordinate.half (b.bounds.right - b.bounds.left),
      b.bounds.top + Coordinate.half (b.bounds.bottom - b.bounds.top),
      b.bounds.right, b.bounds.bottom⟩ ∧
    sw.get_bounds = ⟨b.bounds.left,
      b.bounds.top + Coordinate.half (b.bounds.bottom - b.bounds.top),
      b.bounds.left + Coordinate.half (b.bounds.right - b.bounds.left), b.bounds.bottom⟩ := by
  obtain ⟨g1, g2, g3, g4, _⟩ := h
  simp only [child_bounds] at g1 g2 g3 g4
  obtain ⟨a1, a2, e1⟩ := (rect.new_ok_iff _ _ _ _ _).mp g1
  obtain ⟨_, _, e2⟩ := (rect.new_ok_iff _ _ _ _ _).mp g2
  obtain ⟨c1, c2, e3⟩ := (rect.new_ok_iff _ _ _ _ _).mp g3
  obtain ⟨_, _, e4⟩ := (rect.new_ok_iff _ _ _ _ _).mp g4
  exact ⟨⟨a1, c1⟩, ⟨a2, c2⟩, e1, e2, e3, e4⟩

/-- Each child of a well-formed node spans, on each axis, the lower or the upper
half of the interval of its parent. -/
theorem wf_child_axes [Coordinate T] {D : Nat} (b : qnode E T)
    (nw ne se sw : quad_tree E T D) (h : (node b nw ne se sw).wf) (loc : Location) :
    ((((node b nw ne se sw).child loc).get_bounds.left = b.bounds.left ∧
        ((node b nw ne se sw).child loc).get_bounds.right =
          b.bounds.left + Coordinate.half (b.bounds.right - b.bounds.left)) ∨
      (((node b nw ne se sw).child loc).get_bounds.left =
          b.bounds.left + Coordinate.half (b.bounds.right - b.bounds.left) ∧
        ((node b nw ne se sw).child loc).get_bounds.right = b.bounds.right)) ∧
    ((((node b nw ne se sw).child loc).get_bounds.top = b.bounds.top ∧
        ((node b nw ne se sw).child loc).get_bounds.bottom =
          b.bounds.top + Coordinate.half (b.bounds.bottom - b.bounds.top)) ∨
      (((node b nw ne se sw).child loc).get_bounds.top =
          b.bounds.top + Coordinate.half (b.bounds.bottom - b.bounds.top) ∧
        ((node b nw ne se sw).child loc).get_bounds.bottom = b.bounds.bottom)) := by
  obtain ⟨_, _, e1, e2, e3, e4⟩ := wf_child_bounds b nw ne se sw h
  cases loc <;> simp only [child]
  · rw [e1]; exact ⟨Or.inl ⟨rfl, rfl⟩, Or.inl ⟨rfl, rfl⟩⟩
  · rw [e2]; exact ⟨Or.inr ⟨rfl, rfl⟩, Or.inl ⟨rfl, rfl⟩⟩
  · rw [e3]; exact ⟨Or.inr ⟨rfl, rfl⟩, Or.inr ⟨rfl, rfl⟩⟩
  · rw [e4]; exact ⟨Or.inl ⟨rfl, rfl⟩, Or.inr ⟨rfl, rfl⟩⟩

theorem wf_child [Coordinate T] {D : Nat} (b : qnode E T) (nw ne se sw : quad_tree E T D)
    (h : (node b nw ne se sw).wf) (loc : Location) : ((node b nw ne se sw).child loc).wf := by
  obtain ⟨_, _, _, _, w1, w2, w3, w4⟩ := h
  cases loc <;> assumption

/-- The region of a child of a well-formed node lies in the region of the node. -/
theorem wf_child_within [Coordinate T] {D : Nat} (b : qnode E T)
    (nw ne se sw : quad_tree E T D) (h : (node b nw ne se sw).wf) (loc : Location) :
    b.bounds.contains ((node b nw ne se sw).child loc).get_bounds = true := by
  obtain ⟨⟨x1, x2⟩, ⟨y1, y2⟩, _⟩ := wf_child_bounds b nw ne se sw h
  obtain ⟨hx, hy⟩ := wf_child_axes b nw ne se sw h loc
  rw [rect.contains_iff]
  rcases hx with ⟨p1, p2⟩ | ⟨p1, p2⟩ <;> rcases hy with ⟨q1, q2⟩ | ⟨q1, q2⟩ <;>
    rw [p1, p2, q1, q2] <;> exact ⟨by first | exact le_refl _ | assumption,
      by first | exact le_refl _ | assumption, by first | exact le_refl _ | assumption,
      by first | exact le_refl _ | assumption⟩

/-- The region of every node of a well-formed tree lies in the region of the root. -/
theorem wf_node_at_within [Coordinate T] {D : Nat} (t : quad_tree E T D) (h : t.wf) :
    ∀ (q : List Location) (m : qnode E T), t.node_at q = some m →
      t.get_bounds.contains m.bounds = true := by
  induction t with
  | leaf base =>
    intro q m hm
    cases q with
    | nil =>
      simp only [node_at_nil, base_leaf, Option.some.injEq] at hm
      subst hm
      exact rect.contains_refl _
    | cons loc q => simp at hm
  | node base nw ne se sw h1 h2 h3 h4 =>
    intro q m hm
    cases q with
    | nil =>
      simp only [node_at_nil, base_node, Option.some.injEq] at hm
      subst hm
      exact rect.contains_refl _
    | cons loc q =>
      rw [node_at_node_cons] at hm
      have hw := wf_child base nw ne se sw h loc
      have hc := wf_child_within base nw ne se sw h loc
      apply rect.contains_trans _ _ _ hc
      cases loc
      · exact h1 hw q m hm
      · exact h2 hw q m hm
      · exact h3 hw q m hm
      · exact h4 hw q m hm

end quad_tree
end insert_path_lemmas

section insert_depth

variable {E T : Type} [LinearOrderedCommRing T]

namespace quad_tree

/-- The children of two cousin nodes are cousins. -/
theorem cousins_children [Coordinate T] {D : Nat} (bP bQ : qnode E T)
    (nw ne se sw nw2 ne2 se2 sw2 : quad_tree E T D)
    (hP : (node bP nw ne se sw).wf) (hQ : (node bQ nw2 ne2 se2 sw2).wf)
    (hc : cousins bP.bounds bQ.bounds) (i j : Location) :
    cousins ((node bP nw ne se sw).child i).get_bounds
      ((node bQ nw2 ne2 se2 sw2).child j).get_bounds := by
  obtain ⟨px, py, _⟩ := wf_child_bounds bP nw ne se sw hP
  obtain ⟨qx, qy, _⟩ := wf_child_bounds bQ nw2 ne2 se2 sw2 hQ
  obtain ⟨ax, ay⟩ := wf_child_axes bP nw ne se sw hP i
  obtain ⟨cx, cy⟩ := wf_child_axes bQ nw2 ne2 se2 sw2 hQ j
  refine ⟨apart_children _ _ _ _ _ _ _ _ _ _ px qx ?_ hc.1 ax cx,
    apart_children _ _ _ _ _ _ _ _ _ _ py qy ?_ hc.2 ay cy⟩
  · rintro ⟨e1, e2⟩
    rw [e1, e2]
  · rintro ⟨e1, e2⟩
    rw [e1, e2]

/-- Bounds that lie in a node and in a child of a cousin of the node lie in a child
of the node. -/
theorem fits_child [Coordinate T] {D : Nat} (bP bQ : qnode E T)
    (nw ne se sw nw2 ne2 se2 sw2 : quad_tree E T D)
    (hP : (node bP nw ne se sw).wf) (hQ : (node bQ nw2 ne2 se2 sw2).wf)
    (hc : cousins bP.bounds bQ.bounds) (j : Location) (eb : rect T)
    (h1 : bP.bounds.contains eb = true)
    (h2 : ((node bQ nw2 ne2 se2 sw2).child j).get_bounds.contains eb = true) :
    nw.contains eb = true ∨ ne.contains eb = true ∨ se.contains eb = true ∨
      sw.contains eb = true := by
  obtain ⟨px, py, e1, e2, e3, e4⟩ := wf_child_bounds bP nw ne se sw hP
  obtain ⟨qx, qy, _⟩ := wf_child_bounds bQ nw2 ne2 se2 sw2 hQ
  obtain ⟨cx, cy⟩ := wf_child_axes bQ nw2 ne2 se2 sw2 hQ j
  rw [rect.contains_iff] at h1 h2
  obtain ⟨a1, a2, a3, a4⟩ := h1
  obtain ⟨b1, b2, b3, b4⟩ := h2
  have hx := fits_half _ _ _ _ _ _ _ _ eb.left eb.right px qx
    (by rintro ⟨e1, e2⟩; rw [e1, e2]) hc.1 ⟨a1, a2⟩ cx ⟨b1, b2⟩
  have hy := fits_half _ _ _ _ _ _ _ _ eb.top eb.bottom py qy
    (by rintro ⟨e1, e2⟩; rw [e1, e2]) hc.2 ⟨a3, a4⟩ cy ⟨b3, b4⟩
  simp only [contains_eq, e1, e2, e3, e4, rect.contains_iff]
  rcases hx with ⟨x1, x2⟩ | ⟨x1, x2⟩ <;> rcases hy with ⟨y1, y2⟩ | ⟨y1, y2⟩
  · exact Or.inl ⟨x1, x2, y1, y2⟩
  · exact Or.inr (Or.inr (Or.inr ⟨x1, x2, y1, y2⟩))
  · exact Or.inr (Or.inl ⟨x1, x2, y1, y2⟩)
  · exact Or.inr (Or.inr (Or.inl ⟨x1, x2, y1, y2⟩))

/-- The path of insert is as long as any path to a node that contains the bounds:
in a tree over a cousin region, and so in the tree itself, no node further from the
root than the end of the insert path contains the bounds. -/
theorem no_deeper_container [Coordinate T] :
    ∀ (D : Nat) (tP tQ : quad_tree E T D), tP.wf → tQ.wf →
      cousins tP.get_bounds tQ.get_bounds → ∀ eb : rect T, tP.contains eb = true →
      ∀ (q : List Location) (m : qnode E T), tQ.node_at q = some m →
        (tP.insert_path eb).length < q.length → m.bounds.contains eb = false := by
  intro D
  induction D with
  | zero =>
    intro tP tQ _ _ _ eb _ q m hm hlt
    cases tQ with
    | leaf bQ =>
      cases q with
      | nil => simp at hlt
      | cons j q => simp at hm
  | succ D ih =>
    intro tP tQ hP hQ hc eb hcont q m hm hlt
    cases tP with
    | node bP nw ne se sw =>
      cases tQ with
      | node bQ nw2 ne2 se2 sw2 =>
        cases q with
        | nil => simp at hlt
        | cons j q =>
          rw [node_at_node_cons] at hm
          have hcous := fun i => cousins_children bP bQ nw ne se sw nw2 ne2 se2 sw2 hP hQ hc i j
          have hwj := wf_child bQ nw2 ne2 se2 sw2 hQ j
          simp only [insert_path] at hlt
          split_ifs at hlt with c1 c2 c3 c4
          · simp only [List.length_cons, Nat.add_lt_add_iff_right] at hlt
            exact ih nw _ (wf_child bP nw ne se sw hP Location.NorthWest) hwj
              (hcous Location.NorthWest) eb c1 q m hm hlt
          · simp only [List.length_cons, Nat.add_lt_add_iff_right] at hlt
            exact ih ne _ (wf_child bP nw ne se sw hP Location.NorthEast) hwj
              (hcous Location.NorthEast) eb c2 q m hm hlt
          · simp only [List.length_cons, Nat.add_lt_add_iff_right] at hlt
            exact ih se _ (wf_child bP nw ne se sw hP Location.SouthEast) hwj
              (hcous Location.SouthEast) eb c3 q m hm hlt
          · simp only [List.length_cons, Nat.add_lt_add_iff_right] at hlt
            exact ih sw _ (wf_child bP nw ne se sw hP Location.SouthWest) hwj
              (hcous Location.SouthWest) eb c4 q m hm hlt
          · by_contra hcon
            rw [Bool.not_eq_false] at hcon
            have hjc := rect.contains_trans _ _ _ (wf_node_at_within _ hwj q m hm) hcon
            rcases fits_child bP bQ nw ne se sw nw2 ne2 se2 sw2 hP hQ hc j eb hcont hjc
              with f | f | f | f
            · exact c1 f
            · exact c2 f
            · exact c3 f
            · exact c4 f

/-- The frame of insert: the node at the end of the insert path contains the bounds
and receives the entry at the end of its list; every other node is as before. -/
theorem insert_node_at {D : Nat} (t : quad_tree E T D) (e : E) (eb : rect T)
    (h : t.contains eb = true) :
    ∃ n : qnode E T, t.node_at (t.insert_path eb) = some n ∧
      n.bounds.contains eb = true ∧
      (t.insert e eb).2.node_at (t.insert_path eb) =
        some ⟨n.bounds, n.elements ++ [(e, eb)]⟩ ∧
      ∀ q : List Location, q ≠ t.insert_path eb →
        (t.insert e eb).2.node_at q = t.node_at q := by
  induction t with
  | leaf base =>
    have hb : base.contains eb = true := h
    refine ⟨base, rfl, hb, ?_, ?_⟩
    · simp [insert, insert_path, qnode.insert_state, hb]
    · intro q hq
      cases q with
      | nil => exact absurd rfl hq
      | cons j q => rfl
  | node base nw ne se sw h1 h2 h3 h4 =>
    have hb : base.contains eb = true := h
    simp only [insert, insert_path, hb, Bool.not_true, Bool.false_eq_true, if_false]
    split_ifs with c1 c2 c3 c4
    · obtain ⟨n, g1, g2, g3, g4⟩ := h1 c1
      refine ⟨n, g1, g2, g3, ?_⟩
      intro q hq
      cases q with
      | nil => rfl
      | cons j q =>
        cases j
        · exact g4 q (fun hh => hq (by rw [hh]))
        all_goals rfl
    · obtain ⟨n, g1, g2, g3, g4⟩ := h2 c2
      refine ⟨n, g1, g2, g3, ?_⟩
      intro q hq
      cases q with
      | nil => rfl
      | cons j q =>
        cases j
        · rfl
        · exact g4 q (fun hh => hq (by rw [hh]))
        all_goals rfl
    · obtain ⟨n, g1, g2, g3, g4⟩ := h3 c3
      refine ⟨n, g1, g2, g3, ?_⟩
      intro q hq
      cases q with
      | nil => rfl
      | cons j q =>
        cases j
        · rfl
        · rfl
        · exact g4 q (fun hh => hq (by rw [hh]))
        · rfl
    · obtain ⟨n, g1, g2, g3, g4⟩ := h4 c4
      refine ⟨n, g1, g2, g3, ?_⟩
      intro q hq
      cases q with
      | nil => rfl
      | cons j q =>
        cases j
        · rfl
        · rfl
        · rfl
        · exact g4 q (fun hh => hq (by rw [hh]))
    · refine ⟨base, rfl, hb, ?_, ?_⟩
      · simp [qnode.insert_state, hb]
      · intro q hq
        cases q with
        | nil => exact absurd rfl hq
        | cons j q => cases j <;> rfl

end quad_tree
end insert_depth

/-! ## Claim on the owner of an inserted entry -/

section owner_claims

variable {E T : Type} [LinearOrderedCommRing T]

/-- C5: after a successful insert(e, b) into a reachable tree, exactly one node, at
some path p, has changed: it has received the new entry at the end of its list,
and every node at another path is as before. The region of that node contains b,
and no node of the tree further from the root than p has a region that contains b,
whichever branch it lies in. -/
theorem insert_owner_is_deepest [Coordinate T] {D : Nat} (R : rect T) (t : quad_tree E T D)
    (h : quad_tree.Reachable R t) (e : E) (b : rect T) (hs : (t.insert e b).1 = true) :
    ∃ (p : List Location) (n : qnode E T),
      t.node_at p = some n ∧
      (t.insert e b).2.node_at p = some ⟨n.bounds, n.elements ++ [(e, b)]⟩ ∧
      (∀ q : List Location, q ≠ p → (t.insert e b).2.node_at q = t.node_at q) ∧
      n.bounds.contains b = true ∧
      (∀ (q : List Location) (m : qnode E T), (t.insert e b).2.node_at q = some m →
        p.length < q.length → m.bounds.contains b = false) := by
  rw [quad_tree.insert_fst] at hs
  obtain ⟨hwf, _, _⟩ := h.wf_inv
  obtain ⟨n, g1, g2, g3, g4⟩ := quad_tree.insert_node_at t e b hs
  refine ⟨t.insert_path b, n, g1, g3, g4, g2, ?_⟩
  intro q m hm hlt
  have hne : q ≠ t.insert_path b := by
    intro hq
    rw [hq] at hlt
    exact lt_irrefl _ hlt
  rw [g4 q hne] at hm
  have hself : cousins t.get_bounds t.get_bounds := ⟨Or.inl ⟨rfl, rfl⟩, Or.inl ⟨rfl, rfl⟩⟩
  exact quad_tree.no_deeper_container D t t hwf hwf hself b hs q m hm hlt

theorem insert_owner_is_deepest_witness :
    ∃ (p : List Location) (n : qnode Nat Int),
      example_tree.node_at p = some n ∧
      (example_tree.insert 7 ⟨2, 1, 2, 2⟩).2.node_at p =
        some ⟨n.bounds, n.elements ++ [(7, ⟨2, 1, 2, 2⟩)]⟩ ∧
      (∀ q : List Location, q ≠ p →
        (example_tree.insert 7 ⟨2, 1, 2, 2⟩).2.node_at q = example_tree.node_at q) ∧
      n.bounds.contains ⟨2, 1, 2, 2⟩ = true ∧
      (∀ (q : List Location) (m : qnode Nat Int),
        (example_tree.insert 7 ⟨2, 1, 2, 2⟩).2.node_at q = some m →
        p.length < q.length → m.bounds.contains ⟨2, 1, 2, 2⟩ = false) :=
  insert_owner_is_deepest ⟨0, 0, 4, 4⟩ example_tree
    (quad_tree.Reachable.constructed example_tree example_tree_constructed) 7 ⟨2, 1, 2, 2⟩ rfl

end owner_claims

/-! ## Relations between contains and overlaps -/

section rect_relations

variable {T : Type} [LinearOrderedCommRing T]

/-- C11: for rectangles A and B where B has positive width and positive height,
A.contains(B) implies B.overlaps(A) and A.overlaps(B); validity of A and B is not
needed beyond that. -/
theorem contains_implies_overlaps (A B : rect T) (hw : 0 < B.width) (hh : 0 < B.height) (hc : A.contains B = true) :
    B.overlaps A = true ∧ A.overlaps B = true := by
  rw [rect.contains_iff] at hc
  obtain ⟨c1, c2, c3, c4⟩ := hc
  have w : B.left < B.right := sub_pos.mp hw
  have h : B.top < B.bottom := sub_pos.mp hh
  simp only [rect.overlaps_iff]
  exact ⟨⟨lt_of_lt_of_le w c2, lt_of_le_of_lt c1 w, lt_of_le_of_lt c3 h, lt_of_lt_of_le h c4⟩,
    ⟨lt_of_le_of_lt c1 w, lt_of_lt_of_le w c2, lt_of_lt_of_le h c4, lt_of_le_of_lt c3 h⟩⟩

theorem contains_implies_overlaps_witness :
    rect.overlaps (⟨12, 13, 20, 20⟩ : rect Int) ⟨10, 10, 20, 20⟩ = true ∧
    rect.overlaps (⟨10, 10, 20, 20⟩ : rect Int) ⟨12, 13, 20, 20⟩ = true :=
  contains_implies_overlaps (⟨10, 10, 20, 20⟩ : rect Int) ⟨12, 13, 20, 20⟩ (by decide)
    (by decide) (by decide)

/-- C12: every rectangle contains itself, the zero rectangle included, and a
rectangle overlaps itself whenever its width and its height are both positive. -/
theorem contains_self_and_overlaps_self (r : rect T) :
    r.contains r = true ∧
    (rect.zero : rect T).contains rect.zero = true ∧
    (0 < r.width → 0 < r.height → r.overlaps r = true) := by
  refine ⟨rect.contains_refl r, rect.contains_refl _, ?_⟩
  intro hw hh
  have w : r.left < r.right := sub_pos.mp hw
  have h : r.top < r.bottom := sub_pos.mp hh
  rw [rect.overlaps_iff]
  exact ⟨w, w, h, h⟩

/-- C16: a rectangle of width w and height h, translated by an offset (dx, dy) with
-w < dx < w and -h < dy < h (which makes w and h positive), overlaps the original,
and the original overlaps it. -/
theorem translated_overlaps (l t r b dx dy : T)
    (hx1 : -(⟨l, t, r, b⟩ : rect T).width < dx) (hx2 : dx < (⟨l, t, r, b⟩ : rect T).width)
    (hy1 : -(⟨l, t, r, b⟩ : rect T).height < dy)
    (hy2 : dy < (⟨l, t, r, b⟩ : rect T).height) :
    rect.overlaps (⟨l + dx, t + dy, r + dx, b + dy⟩ : rect T) ⟨l, t, r, b⟩ = true ∧
    rect.overlaps (⟨l, t, r, b⟩ : rect T) ⟨l + dx, t + dy, r + dx, b + dy⟩ = true := by
  simp only [rect.width, rect.height] at hx1 hx2 hy1 hy2
  simp only [rect.overlaps_iff]
  refine ⟨⟨?_, ?_, ?_, ?_⟩, ⟨?_, ?_, ?_, ?_⟩⟩ <;> linarith

theorem translated_overlaps_witness :
    rect.overlaps (⟨10 + -9, 10 + 9, 20 + -9, 20 + 9⟩ : rect Int) ⟨10, 10, 20, 20⟩ = true ∧
    rect.overlaps (⟨10, 10, 20, 20⟩ : rect Int) ⟨10 + -9, 10 + 9, 20 + -9, 20 + 9⟩ = true :=
  translated_overlaps (10 : Int) 10 20 20 (-9) 9 (by decide) (by decide) (by decide)
    (by decide)

end rect_relations

/-! ## Claims on clear and size -/

section clear_claims

variable {E T : Type} [LinearOrderedCommRing T]

namespace quad_tree

omit [LinearOrderedCommRing T] in
theorem node_at_clear {D : Nat} (t : quad_tree E T D) :
    ∀ p : List Location, t.clear.node_at p = (t.node_at p).map qnode.clear := by
  induction t with
  | leaf base =>
    intro p
    cases p with
    | nil => rfl
    | cons j p => rfl
  | node base nw ne se sw h1 h2 h3 h4 =>
    intro p
    cases p with
    | nil => rfl
    | cons j p =>
      cases j
      · exact h1 p
      · exact h2 p
      · exact h3 p
      · exact h4 p

omit [LinearOrderedCommRing T] in
theorem clear_of_entries_nil {D : Nat} (t : quad_tree E T D) (h : t.entries = []) :
    t.clear = t := by
  induction t with
  | leaf base =>
    rcases base with ⟨bb, els⟩
    simp only [entries] at h
    subst h
    rfl
  | node base nw ne se sw h1 h2 h3 h4 =>
    rcases base with ⟨bb, els⟩
    simp only [entries, List.append_eq_nil] at h
    obtain ⟨⟨⟨⟨e1, e2⟩, e3⟩, e4⟩, e5⟩ := h
    subst e5
    simp only [clear, h1 e1, h2 e2, h3 e3, h4 e4, qnode.clear]

theorem entries_area_clear {D : Nat} (t : quad_tree E T D) (area : rect T) :
    t.clear.entries_area area = [] := by
  have h := entries_area_le t.clear area
  rw [entries_clear] at h
  have h2 := Multiset.coe_le.mp h
  exact List.eq_nil_of_subset_nil h2.subset

end quad_tree

/-- C13: for every depth and every tree state, after clear() the tree has
size() == 0 and empty() == true, and query(elements) and query(area, elements)
append nothing; every node of the tree is the node it was with its entries removed,
so the regions and the set of nodes are unchanged; and clear() on a tree that holds
no entry returns the same tree. -/
theorem clear_empties_every_node {D : Nat} (t : quad_tree E T D) :
    t.clear.size = 0 ∧ t.clear.empty = true ∧
    (∀ out : List E, t.clear.query out = out) ∧
    (∀ (area : rect T) (out : List E), t.clear.query_area area out = out) ∧
    (∀ p : List Location,
      t.clear.node_at p = (t.node_at p).map (fun n => ⟨n.bounds, []⟩)) ∧
    (t.size = 0 → t.clear = t) := by
  have hs : t.clear.size = 0 := by
    rw [quad_tree.size_eq_length, quad_tree.entries_clear]
    rfl
  refine ⟨hs, (quad_tree.empty_iff _).mpr hs, ?_, ?_, ?_, ?_⟩
  · intro out
    rw [quad_tree.query_eq, quad_tree.entries_clear]
    simp
  · intro area out
    rw [quad_tree.query_area_eq, quad_tree.entries_area_clear]
    simp
  · intro p
    exact quad_tree.node_at_clear t p
  · intro h0
    apply quad_tree.clear_of_entries_nil
    rw [quad_tree.size_eq_length] at h0
    exact List.length_eq_zero.mp h0

omit [LinearOrderedCommRing T] in
/-- C17: for every depth and every tree state, query(elements) appends exactly
size() elements to the collection, where size() of a leaf is the number of entries
it owns and size() of a node with children is the number of entries it owns plus
the sizes of its four children. -/
theorem query_all_appends_size {D : Nat} (t : quad_tree E T D) (out : List E) :
    (t.query out).length = out.length + t.size ∧
    (∃ appended : List E, t.query out = out ++ appended ∧ appended.length = t.size) ∧
    (∀ b : qnode E T, (quad_tree.leaf b).size = b.elements.length) ∧
    (∀ (D1 : Nat) (b : qnode E T) (nw ne se sw : quad_tree E T D1),
      (quad_tree.node b nw ne se sw).size =
        b.elements.length + nw.size + ne.size + se.size + sw.size) := by
  refine ⟨?_, ⟨t.entries.map Prod.fst, quad_tree.query_eq t out, ?_⟩, ?_, ?_⟩
  · rw [quad_tree.query_eq, List.length_append, List.length_map, quad_tree.size_eq_length]
  · rw [List.length_map, quad_tree.size_eq_length]
  · intro b
    rfl
  · intro D1 b nw ne se sw
    rfl

end clear_claims

/-! ## The frame of insert and the sibling break -/

section frame_claims

variable {E T : Type} [LinearOrderedCommRing T]

/-- C18: the frame of insert. A successful insert changes exactly one node, at some
path p: that node keeps its region and its previous entries, in their order, and
has the new entry added at the end. The node at every other path is as before, so
no stored entry moves; and every path leads to a node after the insert exactly
when it did before, with the same region. -/
theorem insert_changes_one_node {D : Nat} (t : quad_tree E T D) (e : E) (b : rect T)
    (hs : (t.insert e b).1 = true) :
    ∃ (p : List Location) (n : qnode E T),
      t.node_at p = some n ∧
      (t.insert e b).2.node_at p = some ⟨n.bounds, n.elements ++ [(e, b)]⟩ ∧
      (∀ q : List Location, q ≠ p → (t.insert e b).2.node_at q = t.node_at q) ∧
      (∀ q : List Location, ((t.insert e b).2.node_at q).map qnode.bounds =
        (t.node_at q).map qnode.bounds) := by
  rw [quad_tree.insert_fst] at hs
  obtain ⟨n, g1, _, g3, g4⟩ := quad_tree.insert_node_at t e b hs
  refine ⟨t.insert_path b, n, g1, g3, g4, ?_⟩
  intro q
  by_cases hq : q = t.insert_path b
  · rw [hq, g1, g3]
    rfl
  · rw [g4 q hq]

theorem insert_changes_one_node_witness :
    ∃ (p : List Location) (n : qnode Nat Int),
      example_tree.node_at p = some n ∧
      (example_tree.insert 7 ⟨3, 3, 4, 4⟩).2.node_at p =
        some ⟨n.bounds, n.elements ++ [(7, ⟨3, 3, 4, 4⟩)]⟩ ∧
      (∀ q : List Location, q ≠ p →
        (example_tree.insert 7 ⟨3, 3, 4, 4⟩).2.node_at q = example_tree.node_at q) ∧
      (∀ q : List Location,
        ((example_tree.insert 7 ⟨3, 3, 4, 4⟩).2.node_at q).map qnode.bounds =
          (example_tree.node_at q).map qnode.bounds) :=
  insert_changes_one_node example_tree 7 ⟨3, 3, 4, 4⟩ rfl

namespace quad_tree

/-- In a well-formed node the regions of two different children do not overlap. -/
theorem wf_children_not_overlapping [Coordinate T] {D : Nat} (b : qnode E T)
    (nw ne se sw : quad_tree E T D) (h : (node b nw ne se sw).wf) (i j : Location)
    (hij : i ≠ j) :
    ((node b nw ne se sw).child i).get_bounds.overlaps
      ((node b nw ne se sw).child j).get_bounds = false := by
  obtain ⟨_, _, e1, e2, e3, e4⟩ := wf_child_bounds b nw ne se sw h
  cases i <;> cases j <;> first
    | exact absurd rfl hij
    | (simp only [child, e1, e2, e3, e4]; simp [rect.overlaps])

/-- Below a child of a node of a tree that is well formed and keeps its entries
within their regions, no entry is overlapped by an area that another child of that
node contains. -/
theorem sibling_entries_not_overlapped [Coordinate T] {D : Nat} (t : quad_tree E T D)
    (hwf : t.wf) (hinv : t.inv) (area : rect T) :
    ∀ (p : List Location) (i j : Location) (c : qnode E T), i ≠ j →
      t.node_at (p ++ [i]) = some c → c.bounds.contains area = true →
      ∀ (q : List Location) (n : qnode E T), t.node_at (p ++ j :: q) = some n →
        ∀ x ∈ n.elements, area.overlaps x.2 = false := by
  induction t with
  | leaf base =>
    intro p i j c _ hc
    cases p <;> simp at hc
  | node base nw ne se sw h1 h2 h3 h4 =>
    intro p i j c hij hc hca q n hn x hx
    cases p with
    | nil =>
      simp only [List.nil_append, node_at_node_cons, node_at_nil, Option.some.injEq] at hc hn
      have hxin := node_at_elements_mem _ q n hn x hx
      have hxc := inv_root _ (inv_child base nw ne se sw hinv j) x hxin
      by_contra ho
      rw [Bool.not_eq_false] at ho
      have hov := rect.overlaps_of_contains_area
        ((node base nw ne se sw).child i).get_bounds
        ((node base nw ne se sw).child j).get_bounds area x.2
        (by rw [← hc] at hca; exact hca) hxc ho
      rw [wf_children_not_overlapping base nw ne se sw hwf i j hij] at hov
      exact Bool.false_ne_true hov
    | cons k p =>
      simp only [List.cons_append, node_at_node_cons] at hc hn
      have hw := wf_child base nw ne se sw hwf k
      have hi := inv_child base nw ne se sw hinv k
      cases k
      · exact h1 hw hi p i j c hij hc hca q n hn x hx
      · exact h2 hw hi p i j c hij hc hca q n hn x hx
      · exact h3 hw hi p i j c hij hc hca q n hn x hx
      · exact h4 hw hi p i j c hij hc hca q n hn x hx

end quad_tree

/-- C19: soundness of the break in query(area, elements). In every reachable tree,
for every node (at a path p), every area and every child (at p ++ [i]) whose region
contains the area, no entry stored anywhere below a different child (at a path
p ++ j :: q with j other than i) has bounds that the area overlaps. Nothing is
assumed about the area or about the size of the regions. -/
theorem break_skips_no_overlapping_entry [Coordinate T] {D : Nat} (R : rect T)
    (t : quad_tree E T D) (h : quad_tree.Reachable R t) (area : rect T)
    (p : List Location) (i j : Location) (c : qnode E T) (hij : i ≠ j)
    (hc : t.node_at (p ++ [i]) = some c) (hca : c.bounds.contains area = true)
    (q : List Location) (n : qnode E T) (hn : t.node_at (p ++ j :: q) = some n)
    (x : E × rect T) (hx : x ∈ n.elements) :
    area.overlaps x.2 = false := by
  obtain ⟨hwf, hinv, _⟩ := h.wf_inv
  exact quad_tree.sibling_entries_not_overlapped t hwf hinv area p i j c hij hc hca q n hn x hx

theorem break_skips_no_overlapping_entry_witness :
    (example_tree.insert 7 ⟨2, 1, 3, 2⟩).2.node_at [Location.NorthEast] =
      some ⟨⟨2, 0, 4, 2⟩, [(7, ⟨2, 1, 3, 2⟩)]⟩ ∧
    rect.overlaps (⟨1, 1, 2, 2⟩ : rect Int) ⟨2, 1, 3, 2⟩ = false :=
  have hr : quad_tree.Reachable (⟨0, 0, 4, 4⟩ : rect Int)
      (example_tree.insert 7 ⟨2, 1, 3, 2⟩).2 :=
    quad_tree.Reachable.inserted example_tree 7 ⟨2, 1, 3, 2⟩
      (quad_tree.Reachable.constructed example_tree example_tree_constructed)
  ⟨rfl,
    break_skips_no_overlapping_entry ⟨0, 0, 4, 4⟩ _ hr ⟨1, 1, 2, 2⟩ [] Location.NorthWest
      Location.NorthEast ⟨⟨0, 0, 2, 2⟩, []⟩ (by decide) rfl (by decide) []
      ⟨⟨2, 0, 4, 2⟩, [(7, ⟨2, 1, 3, 2⟩)]⟩ rfl (7, ⟨2, 1, 3, 2⟩) (List.mem_singleton.mpr rfl)⟩

end frame_claims

/-! ## The placement rule of insert -/

section placement_lemmas

variable {E T : Type} [LinearOrderedCommRing T]

namespace quad_tree

theorem placed_insert {D : Nat} (t : quad_tree E T D) (e : E) (b : rect T)
    (h : t.placed) : (t.insert e b).2.placed := by
  induction t with
  | leaf base => trivial
  | node base nw ne se sw h1 h2 h3 h4 =>
    obtain ⟨hroot, w1, w2, w3, w4⟩ := h
    simp only [insert]
    split_ifs with c0 c1 c2 c3 c4
    · exact ⟨hroot, w1, w2, w3, w4⟩
    · refine ⟨?_, h1 w1, w2, w3, w4⟩
      intro x hx
      rw [insert_contains]
      exact hroot x hx
    · refine ⟨?_, w1, h2 w2, w3, w4⟩
      intro x hx
      rw [insert_contains]
      exact hroot x hx
    · refine ⟨?_, w1, w2, h3 w3, w4⟩
      intro x hx
      rw [insert_contains]
      exact hroot x hx
    · refine ⟨?_, w1, w2, w3, h4 w4⟩
      intro x hx
      rw [insert_contains]
      exact hroot x hx
    · refine ⟨?_, w1, w2, w3, w4⟩
      intro x hx
      have hb : base.contains b = true := by simpa using c0
      simp only [qnode.insert_state, hb, if_true, List.mem_append, List.mem_singleton] at hx
      rcases hx with hx | hx
      · exact hroot x hx
      · rw [hx]
        exact ⟨by simpa using c1, by simpa using c2, by simpa using c3, by simpa using c4⟩

theorem placed_clear {D : Nat} (t : quad_tree E T D) : t.clear.placed := by
  induction t with
  | leaf base => trivial
  | node base nw ne se sw h1 h2 h3 h4 =>
    refine ⟨?_, h1, h2, h3, h4⟩
    intro x hx
    simp [qnode.clear] at hx

theorem placed_of_entries_nil {D : Nat} (t : quad_tree E T D) (h : t.entries = []) :
    t.placed := by
  induction t with
  | leaf base => trivial
  | node base nw ne se sw h1 h2 h3 h4 =>
    simp only [entries, List.append_eq_nil] at h
    refine ⟨?_, h1 h.1.1.1.1, h2 h.1.1.1.2, h3 h.1.1.2, h4 h.1.2⟩
    intro x hx
    rw [h.2] at hx
    simp at hx

theorem Reachable.placed [Coordinate T] {D : Nat} {R : rect T} {t : quad_tree E T D}
    (h : Reachable R t) : t.placed := by
  induction h with
  | constructed t h => exact placed_of_entries_nil t (build_spec D R t h).2.2.1
  | inserted t e b _ ih => exact placed_insert t e b ih
  | cleared t _ _ => exact placed_clear t

theorem placed_child {D : Nat} (b : qnode E T) (nw ne se sw : quad_tree E T D)
    (h : (node b nw ne se sw).placed) (loc : Location) :
    ((node b nw ne se sw).child loc).placed := by
  obtain ⟨_, w1, w2, w3, w4⟩ := h
  cases loc <;> assumption

theorem placed_node_at {D : Nat} (t : quad_tree E T D) (h : t.placed) :
    ∀ (p : List Location) (n : qnode E T) (j : Location) (c : qnode E T),
      t.node_at p = some n → t.node_at (p ++ [j]) = some c →
      ∀ x ∈ n.elements, c.bounds.contains x.2 = false := by
  induction t with
  | leaf base =>
    intro p n j c _ hc
    cases p <;> simp at hc
  | node base nw ne se sw h1 h2 h3 h4 =>
    intro p n j c hn hc x hx
    cases p with
    | nil =>
      simp only [List.nil_append, node_at_node_cons, node_at_nil, base_node,
        Option.some.injEq] at hn hc
      subst hn
      subst hc
      obtain ⟨r1, r2, r3, r4⟩ := h.1 x hx
      cases j
      · exact r1
      · exact r2
      · exact r3
      · exact r4
    | cons k p =>
      simp only [List.cons_append, node_at_node_cons] at hn hc
      have hk := placed_child base nw ne se sw h k
      cases k
      · exact h1 hk p n j c hn hc x hx
      · exact h2 hk p n j c hn hc x hx
      · exact h3 hk p n j c hn hc x hx
      · exact h4 hk p n j c hn hc x hx

/-- Every step of the insert path goes to a child that contains the bounds, and no
child earlier in the order NW, NE, SE, SW contains them. -/
theorem insert_path_first {D : Nat} (t : quad_tree E T D) (b : rect T) :
    ∀ (pre : List Location) (j : Location) (rest : List Location),
      t.insert_path b = pre ++ j :: rest →
      (∃ c : qnode E T, t.node_at (pre ++ [j]) = some c ∧ c.bounds.contains b = true) ∧
      ∀ (i : Location) (c : qnode E T), i.index < j.index →
        t.node_at (pre ++ [i]) = some c → c.bounds.contains b = false := by
  induction t with
  | leaf base =>
    intro pre j rest hp
    simp [insert_path] at hp
  | node base nw ne se sw h1 h2 h3 h4 =>
    intro pre j rest hp
    simp only [insert_path] at hp
    split_ifs at hp with c1 c2 c3 c4
    · cases pre with
      | nil =>
        simp only [List.nil_append, List.cons.injEq] at hp
        obtain ⟨hj, _⟩ := hp
        subst hj
        refine ⟨⟨nw.base, by simp [child], c1⟩, ?_⟩
        intro i c hi
        cases i <;> simp [Location.index] at hi
      | cons k pre =>
        simp only [List.cons_append, List.cons.injEq] at hp
        obtain ⟨hk, hp⟩ := hp
        subst hk
        exact h1 pre j rest hp
    · cases pre with
      | nil =>
        simp only [List.nil_append, List.cons.injEq] at hp
        obtain ⟨hj, _⟩ := hp
        subst hj
        refine ⟨⟨ne.base, by simp [child], c2⟩, ?_⟩
        intro i c hi hc
        cases i <;> simp [Location.index] at hi
        simp only [List.nil_append, node_at_node_cons, node_at_nil, Option.some.injEq] at hc
        subst hc
        simpa using c1
      | cons k pre =>
        simp only [List.cons_append, List.cons.injEq] at hp
        obtain ⟨hk, hp⟩ := hp
        subst hk
        exact h2 pre j rest hp
    · cases pre with
      | nil =>
        simp only [List.nil_append, List.cons.injEq] at hp
        obtain ⟨hj, _⟩ := hp
        subst hj
        refine ⟨⟨se.base, by simp [child], c3⟩, ?_⟩
        intro i c hi hc
        simp only [List.nil_append, node_at_node_cons, node_at_nil, Option.some.injEq] at hc
        subst hc
        cases i <;> simp [Location.index] at hi
        · simpa using c1
        · simpa using c2
      | cons k pre =>
        simp only [List.cons_append, List.cons.injEq] at hp
        obtain ⟨hk, hp⟩ := hp
        subst hk
        exact h3 pre j rest hp
    · cases pre with
      | nil =>
        simp only [List.nil_append, List.cons.injEq] at hp
        obtain ⟨hj, _⟩ := hp
        subst hj
        refine ⟨⟨sw.base, by simp [child], c4⟩, ?_⟩
        intro i c hi hc
        simp only [List.nil_append, node_at_node_cons, node_at_nil, Option.some.injEq] at hc
        subst hc
        cases i <;> simp [Location.index] at hi
        · simpa using c1
        · simpa using c2
        · simpa using c3
      | cons k pre =>
        simp only [List.cons_append, List.cons.injEq] at hp
        obtain ⟨hk, hp⟩ := hp
        subst hk
        exact h4 pre j rest hp
    · simp at hp

/-- At the end of the insert path no child contains the bounds. -/
theorem insert_path_end {D : Nat} (t : quad_tree E T D) (b : rect T) :
    ∀ (j : Location) (c : qnode E T), t.node_at (t.insert_path b ++ [j]) = some c →
      c.bounds.contains b = false := by
  induction t with
  | leaf base =>
    intro j c hc
    simp [insert_path] at hc
  | node base nw ne se sw h1 h2 h3 h4 =>
    intro j c hc
    simp only [insert_path] at hc
    split_ifs at hc with c1 c2 c3 c4
    · exact h1 j c hc
    · exact h2 j c hc
    · exact h3 j c hc
    · exact h4 j c hc
    · simp only [List.nil_append, node_at_node_cons, node_at_nil, Option.some.injEq] at hc
      subst hc
      cases j
      · simpa using c1
      · simpa using c2
      · simpa using c3
      · simpa using c4

end quad_tree
end placement_lemmas

section placement_claims

variable {E T : Type} [LinearOrderedCommRing T]

/-- C20: the placement rule of insert, in every reachable tree. A successful insert
stores the entry on the node at a path p such that every step of p goes to the
first child, in the order NW, NE, SE, SW, whose region contains the bounds (no
child earlier in the order contains them), no child of the node at p contains the
bounds, and no node off the path is touched. Consequently, in every reachable tree,
an entry that a node owns directly has bounds that none of the regions of the
children of that node contains. -/
theorem insert_placement_rule [Coordinate T] {D : Nat} (R : rect T) (t : quad_tree E T D)
    (h : quad_tree.Reachable R t) :
    (∀ (e : E) (b : rect T), (t.insert e b).1 = true →
      ∃ p : List Location,
        (t.node_at p).isSome = true ∧
        (t.insert e b).2.node_at p =
          (t.node_at p).map (fun n => ⟨n.bounds, n.elements ++ [(e, b)]⟩) ∧
        (∀ q : List Location, q ≠ p → (t.insert e b).2.node_at q = t.node_at q) ∧
        (∀ (pre : List Location) (j : Location) (rest : List Location),
          p = pre ++ j :: rest →
          (∃ c : qnode E T, t.node_at (pre ++ [j]) = some c ∧
            c.bounds.contains b = true) ∧
          ∀ (i : Location) (c : qnode E T), i.index < j.index →
            t.node_at (pre ++ [i]) = some c → c.bounds.contains b = false) ∧
        (∀ (j : Location) (c : qnode E T), t.node_at (p ++ [j]) = some c →
          c.bounds.contains b = false)) ∧
    (∀ (p : List Location) (n : qnode E T) (j : Location) (c : qnode E T),
      t.node_at p = some n → t.node_at (p ++ [j]) = some c →
      ∀ x ∈ n.elements, c.bounds.contains x.2 = false) := by
  refine ⟨?_, quad_tree.placed_node_at t h.placed⟩
  intro e b hs
  rw [quad_tree.insert_fst] at hs
  obtain ⟨n, g1, _, g3, g4⟩ := quad_tree.insert_node_at t e b hs
  refine ⟨t.insert_path b, ?_, ?_, g4, ?_, quad_tree.insert_path_end t b⟩
  · rw [g1]
    rfl
  · rw [g1, g3]
    rfl
  · intro pre j rest hp
    exact quad_tree.insert_path_first t b pre j rest hp

theorem insert_placement_rule_witness :
    (example_tree.insert 7 ⟨1, 1, 3, 3⟩).2.node_at [] =
      some ⟨⟨0, 0, 4, 4⟩, [(7, ⟨1, 1, 3, 3⟩)]⟩ ∧
    rect.contains (⟨2, 2, 4, 4⟩ : rect Int) ⟨1, 1, 3, 3⟩ = false :=
  have hr : quad_tree.Reachable (⟨0, 0, 4, 4⟩ : rect Int)
      (example_tree.insert 7 ⟨1, 1, 3, 3⟩).2 :=
    quad_tree.Reachable.inserted example_tree 7 ⟨1, 1, 3, 3⟩
      (quad_tree.Reachable.constructed example_tree example_tree_constructed)
  ⟨rfl,
    (insert_placement_rule ⟨0, 0, 4, 4⟩ _ hr).2 [] ⟨⟨0, 0, 4, 4⟩, [(7, ⟨1, 1, 3, 3⟩)]⟩
      Location.SouthEast ⟨⟨2, 2, 4, 4⟩, []⟩ rfl rfl (7, ⟨1, 1, 3, 3⟩)
      (List.mem_singleton.mpr rfl)⟩

end placement_claims

/-! ## The priority order of the cases of the area query -/

section order_lemmas

variable {E T : Type} [LinearOrderedCommRing T]

theorem rect.eq_of_contains_of_contains (a b : rect T) (h1 : a.contains b = true)
    (h2 : b.contains a = true) : a = b := by
  rw [rect.contains_iff] at h1 h2
  obtain ⟨p1, p2, p3, p4⟩ := h1
  obtain ⟨q1, q2, q3, q4⟩ := h2
  rcases a with ⟨al, at_, ar, ab⟩
  rcases b with ⟨bl, bt, br, bb⟩
  simp only [rect.mk.injEq]
  exact ⟨le_antisymm p1 q1, le_antisymm p3 q3, le_antisymm q2 p2, le_antisymm q4 p4⟩

/-- One round of the scan in the order of the code, in the shape of the loop body:
break if the child contains the area, else continue with what the round appended. -/
theorem scan_code_order_cons (area : rect T) (c : child_view E T)
    (cs : List (child_view E T)) (out : List E) :
    scan_code_order area (c :: cs) out =
      if c.region.contains area then c.filtered out
      else scan_code_order area cs
        (if area.contains c.region then c.all out
          else if c.region.overlaps area then c.filtered out else out) := by
  rw [scan_code_order]
  split_ifs <;> rfl

theorem scan_code_order_nil (area : rect T) (out : List E) :
    scan_code_order area ([] : List (child_view E T)) out = out := rfl

/-- The scan in the order of the code stops at the first child that contains the
area. -/
theorem scan_code_order_break (area : rect T) (pre : List (child_view E T))
    (c : child_view E T) (post : List (child_view E T))
    (hpre : ∀ d ∈ pre, d.region.contains area = false)
    (hc : c.region.contains area = true) (out : List E) :
    scan_code_order area (pre ++ c :: post) out = c.filtered (scan_code_order area pre out) := by
  induction pre generalizing out with
  | nil => simp [scan_code_order, hc]
  | cons d ds ih =>
    have hd := hpre d (List.mem_cons_self _ _)
    have hds : ∀ x ∈ ds, x.region.contains area = false :=
      fun x hx => hpre x (List.mem_cons_of_mem _ hx)
    simp only [List.cons_append, scan_code_order_cons, hd, Bool.false_eq_true, if_false]
    exact ih hds _

/-- The two priority orders give the same scan when no child region is the area. -/
theorem scan_orders_agree (area : rect T) (cs : List (child_view E T))
    (h : ∀ c ∈ cs, c.region ≠ area) (out : List E) :
    scan_spec_order area cs out = scan_code_order area cs out := by
  induction cs generalizing out with
  | nil => rfl
  | cons c cs ih =>
    have hc := h c (List.mem_cons_self _ _)
    have hcs : ∀ x ∈ cs, x.region ≠ area := fun x hx => h x (List.mem_cons_of_mem _ hx)
    simp only [scan_spec_order, scan_code_order]
    by_cases h1 : area.contains c.region = true
    · by_cases h2 : c.region.contains area = true
      · exact absurd (rect.eq_of_contains_of_contains _ _ h2 h1) hc
      · simp only [h1, h2, if_true, if_false, Bool.false_eq_true]
        exact ih hcs _
    · by_cases h2 : c.region.contains area = true
      · simp only [h1, h2, if_true, if_false, Bool.false_eq_true]
      · simp only [h1, h2, if_false, Bool.false_eq_true]
        split_ifs
        · exact ih hcs _
        · exact ih hcs _

namespace quad_tree

/-- The unrolled loop of query(area, elements) is the scan of the four children in
the priority order of the code. -/
theorem query_area_eq_code_order {D : Nat} (t : quad_tree E T D) :
    ∀ (area : rect T) (out : List E),
      t.query_area area out = t.query_area_code_order area out := by
  induction t with
  | leaf base => intro area out; rfl
  | node base nw ne se sw h1 h2 h3 h4 =>
    intro area out
    have e1 : (fun o => nw.query_area_code_order area o) = nw.query_area area :=
      funext (fun o => (h1 area o).symm)
    have e2 : (fun o => ne.query_area_code_order area o) = ne.query_area area :=
      funext (fun o => (h2 area o).symm)
    have e3 : (fun o => se.query_area_code_order area o) = se.query_area area :=
      funext (fun o => (h3 area o).symm)
    have e4 : (fun o => sw.query_area_code_order area o) = sw.query_area area :=
      funext (fun o => (h4 area o).symm)
    simp only [query_area_code_order, e1, e2, e3, e4, scan_code_order_cons,
      scan_code_order_nil]
    rfl

/-- The reference traversals in the two priority orders agree on a tree in which no
node below the root has the area for its region. -/
theorem query_area_orders_agree {D : Nat} (t : quad_tree E T D) (area : rect T) :
    (∀ (p : List Location) (n : qnode E T), p ≠ [] → t.node_at p = some n →
      n.bounds ≠ area) →
    ∀ out : List E, t.query_area_spec_order area out = t.query_area_code_order area out := by
  induction t with
  | leaf base => intro _ out; rfl
  | node base nw ne se sw h1 h2 h3 h4 =>
    intro h out
    have hsub : ∀ (j : Location) (p : List Location) (n : qnode E T), p ≠ [] →
        ((node base nw ne se sw).child j).node_at p = some n → n.bounds ≠ area :=
      fun j p n _ hn => h (j :: p) n (List.cons_ne_nil _ _) hn
    have hreg : ∀ j : Location, ((node base nw ne se sw).child j).get_bounds ≠ area :=
      fun j => h [j] _ (List.cons_ne_nil _ _) (by simp)
    have e1 : (fun o => nw.query_area_spec_order area o) =
        (fun o => nw.query_area_code_order area o) :=
      funext (fun o => h1 (hsub Location.NorthWest) o)
    have e2 : (fun o => ne.query_area_spec_order area o) =
        (fun o => ne.query_area_code_order area o) :=
      funext (fun o => h2 (hsub Location.NorthEast) o)
    have e3 : (fun o => se.query_area_spec_order area o) =
        (fun o => se.query_area_code_order area o) :=
      funext (fun o => h3 (hsub Location.SouthEast) o)
    have e4 : (fun o => sw.query_area_spec_order area o) =
        (fun o => sw.query_area_code_order area o) :=
      funext (fun o => h4 (hsub Location.SouthWest) o)
    simp only [query_area_spec_order, query_area_code_order, e1, e2, e3, e4]
    apply scan_orders_agree
    intro c hc
    simp only [List.mem_cons, List.mem_singleton, List.not_mem_nil, or_false] at hc
    rcases hc with hc | hc | hc | hc <;> rw [hc]
    · exact hreg Location.NorthWest
    · exact hreg Location.NorthEast
    · exact hreg Location.SouthEast
    · exact hreg Location.SouthWest

end quad_tree
end order_lemmas

/-! ## The corner scenario and the priority order of the area query -/

section scenario_claims

variable {E T : Type} [LinearOrderedCommRing T]

/-- C14 as stated fails: in the tree of depth 1 over (0,0)-(4,4) the north-west
child has the region (0,0)-(2,2) and owns the entry with bounds (0,0)-(0,1). For the
query area (0,0)-(2,2), equal to the region of that child, the implemented query
filters the entries of the child and returns nothing, while the traversal in the
priority order of the specification takes the child unfiltered and returns the
entry. -/
theorem query_area_spec_order_differs_counterexample :
    (example_tree.insert 7 ⟨0, 0, 0, 1⟩).1 = true ∧
    (example_tree.insert 7 ⟨0, 0, 0, 1⟩).2.node_at [Location.NorthWest] =
      some ⟨⟨0, 0, 2, 2⟩, [(7, ⟨0, 0, 0, 1⟩)]⟩ ∧
    (example_tree.insert 7 ⟨0, 0, 0, 1⟩).2.query_area ⟨0, 0, 2, 2⟩ [] = [] ∧
    (example_tree.insert 7 ⟨0, 0, 0, 1⟩).2.query_area_spec_order ⟨0, 0, 2, 2⟩ [] = [7] ∧
    (example_tree.insert 7 ⟨0, 0, 0, 1⟩).2.query_area ⟨0, 0, 2, 2⟩ [] ≠
      (example_tree.insert 7 ⟨0, 0, 0, 1⟩).2.query_area_spec_order ⟨0, 0, 2, 2⟩ [] := by
  refine ⟨rfl, rfl, rfl, rfl, ?_⟩
  decide

/-- C14, amended: the implemented query(area, elements) equals, for every tree and
every area, the reference traversal that tests each child in the priority order of
the code: first the region of the child contains the area (filtered recursion, stop
the sibling scan), then the area contains the region of the child (unfiltered,
continue), then overlap (filtered recursion, continue). It equals the traversal in
the priority order of the specification for every tree in which no node below the
root has the area for its region. When the region of a child is the area and no
earlier sibling contains the area, the scan ends with the filtered query into that
child: the child is not taken unfiltered and the later siblings are not visited. -/
theorem query_area_refines_code_order {D : Nat} (t : quad_tree E T D) (area : rect T) :
    (∀ out : List E, t.query_area area out = t.query_area_code_order area out) ∧
    ((∀ (p : List Location) (n : qnode E T), p ≠ [] → t.node_at p = some n →
        n.bounds ≠ area) →
      ∀ out : List E, t.query_area area out = t.query_area_spec_order area out) ∧
    (∀ (pre : List (child_view E T)) (c : child_view E T) (post : List (child_view E T))
      (out : List E), (∀ d ∈ pre, d.region.contains area = false) → c.region = area →
      scan_code_order area (pre ++ c :: post) out =
        c.filtered (scan_code_order area pre out)) := by
  refine ⟨quad_tree.query_area_eq_code_order t area, ?_, ?_⟩
  · intro h out
    rw [quad_tree.query_area_eq_code_order t area out,
      quad_tree.query_area_orders_agree t area h out]
  · intro pre c post out hpre hc
    apply scan_code_order_break area pre c post hpre
    rw [hc]
    exact rect.contains_refl area

theorem corner_tree_constructed :
    quad_tree.build 2 (⟨10, 10, 20, 20⟩ : rect Rat) = Except.ok corner_tree := by
  norm_num [quad_tree.build, child_bounds, rect.new, Coordinate.half, bind, Except.bind,
    corner_tree, quad_tree.get_bounds]

theorem corner_query_nw :
    (corner_tree.insert_all corner_calls).1.query_area ⟨10, 10, 25 / 2, 25 / 2⟩ [] = [0] := by
  norm_num [corner_tree, corner_calls, quad_tree.insert_all, quad_tree.insert,
    qnode.insert, quad_tree.contains, quad_tree.inside, quad_tree.overlaps,
    qnode.contains, qnode.inside, qnode.overlaps, rect.contains, rect.overlaps,
    quad_tree.query_area, quad_tree.query, qnode.query, qnode.query_area, quad_tree.base]

theorem corner_query_ne :
    (corner_tree.insert_all corner_calls).1.query_area ⟨35 / 2, 10, 20, 25 / 2⟩ [] = [1] := by
  norm_num [corner_tree, corner_calls, quad_tree.insert_all, quad_tree.insert,
    qnode.insert, quad_tree.contains, quad_tree.inside, quad_tree.overlaps,
    qnode.contains, qnode.inside, qnode.overlaps, rect.contains, rect.overlaps,
    quad_tree.query_area, quad_tree.query, qnode.query, qnode.query_area, quad_tree.base]

theorem corner_query_se :
    (corner_tree.insert_all corner_calls).1.query_area ⟨35 / 2, 35 / 2, 20, 20⟩ [] = [2] := by
  norm_num [corner_tree, corner_calls, quad_tree.insert_all, quad_tree.insert,
    qnode.insert, quad_tree.contains, quad_tree.inside, quad_tree.overlaps,
    qnode.contains, qnode.inside, qnode.overlaps, rect.contains, rect.overlaps,
    quad_tree.query_area, quad_tree.query, qnode.query, qnode.query_area, quad_tree.base]

theorem corner_query_sw :
    (corner_tree.insert_all corner_calls).1.query_area ⟨10, 35 / 2, 25 / 2, 20⟩ [] = [3] := by
  norm_num [corner_tree, corner_calls, quad_tree.insert_all, quad_tree.insert,
    qnode.insert, quad_tree.contains, quad_tree.inside, quad_tree.overlaps,
    qnode.contains, qnode.inside, qnode.overlaps, rect.contains, rect.overlaps,
    quad_tree.query_area, quad_tree.query, qnode.query, qnode.query_area, quad_tree.base]

theorem corner_query_root :
    (corner_tree.insert_all corner_calls).1.query_area ⟨10, 10, 20, 20⟩ [] =
      [0, 1, 2, 3] := by
  norm_num [corner_tree, corner_calls, quad_tree.insert_all, quad_tree.insert,
    qnode.insert, quad_tree.contains, quad_tree.inside, quad_tree.overlaps,
    qnode.contains, qnode.inside, qnode.overlaps, rect.contains, rect.overlaps,
    quad_tree.query_area, quad_tree.query, qnode.query, qnode.query_area, quad_tree.base]

/-- C15: the corner scenario over exact coordinates. Bisecting the root
(10,10)-(20,20) twice toward NW, NE, SE, SW gives the four corner regions; in the
tree of depth 2 over the root the inserts of 0, 1, 2, 3 with these bounds all
succeed and size() is 4; the query with each corner region for area returns
exactly the element inserted there, and the query with the root region for area
returns the four elements. -/
theorem corner_scenario_queries :
    ((child_bounds Location.NorthWest (⟨10, 10, 20, 20⟩ : rect Rat) >>=
        child_bounds Location.NorthWest) = Except.ok ⟨10, 10, 25 / 2, 25 / 2⟩ ∧
      (child_bounds Location.NorthEast (⟨10, 10, 20, 20⟩ : rect Rat) >>=
        child_bounds Location.NorthEast) = Except.ok ⟨35 / 2, 10, 20, 25 / 2⟩ ∧
      (child_bounds Location.SouthEast (⟨10, 10, 20, 20⟩ : rect Rat) >>=
        child_bounds Location.SouthEast) = Except.ok ⟨35 / 2, 35 / 2, 20, 20⟩ ∧
      (child_bounds Location.SouthWest (⟨10, 10, 20, 20⟩ : rect Rat) >>=
        child_bounds Location.SouthWest) = Except.ok ⟨10, 35 / 2, 25 / 2, 20⟩) ∧
    quad_tree.build 2 (⟨10, 10, 20, 20⟩ : rect Rat) = Except.ok corner_tree ∧
    (corner_tree.insert_all corner_calls).2 = corner_calls ∧
    (corner_tree.insert_all corner_calls).1.size = 4 ∧
    (corner_tree.insert_all corner_calls).1.query_area ⟨10, 10, 25 / 2, 25 / 2⟩ [] = [0] ∧
    (corner_tree.insert_all corner_calls).1.query_area ⟨35 / 2, 10, 20, 25 / 2⟩ [] = [1] ∧
    (corner_tree.insert_all corner_calls).1.query_area ⟨35 / 2, 35 / 2, 20, 20⟩ [] = [2] ∧
    (corner_tree.insert_all corner_calls).1.query_area ⟨10, 35 / 2, 25 / 2, 20⟩ [] = [3] ∧
    (corner_tree.insert_all corner_calls).1.query_area ⟨10, 10, 20, 20⟩ [] = [0, 1, 2, 3] := by
  have hc : ∀ c ∈ corner_calls, corner_tree.contains c.2 = true := by
    norm_num [corner_tree, corner_calls, quad_tree.contains, qnode.contains, rect.contains,
      quad_tree.base]
  have h1 := quad_tree.insert_all_of_contains corner_calls corner_tree hc
  have h2 := congrArg Multiset.card (quad_tree.insert_all_entries corner_calls corner_tree)
  rw [h1, (quad_tree.build_spec 2 _ corner_tree corner_tree_constructed).2.2.1] at h2
  refine ⟨⟨?_, ?_, ?_, ?_⟩, corner_tree_constructed, h1, ?_, corner_query_nw,
    corner_query_ne, corner_query_se, corner_query_sw, corner_query_root⟩
  · norm_num [child_bounds, rect.new, Coordinate.half, bind, Except.bind]
  · norm_num [child_bounds, rect.new, Coordinate.half, bind, Except.bind]
  · norm_num [child_bounds, rect.new, Coordinate.half, bind, Except.bind]
  · norm_num [child_bounds, rect.new, Coordinate.half, bind, Except.bind]
  · rw [quad_tree.size_eq_length]
    simpa [corner_calls] using h2

end scenario_claims

/-! ## The order of query(elements), and truncating bisection -/

section order_and_truncation

variable {E T : Type} [LinearOrderedCommRing T]

namespace quad_tree

/-- The entries that a node owns stay in the order of the insert calls: a run of
insert calls appends to the list of a node a part of the calls, in their order. -/
theorem insert_all_node_at {D : Nat} (calls : List (E × rect T)) :
    ∀ (t : quad_tree E T D) (p : List Location) (n : qnode E T), t.node_at p = some n →
      ∃ l : List (E × rect T), l.Sublist calls ∧
        (t.insert_all calls).1.node_at p = some ⟨n.bounds, n.elements ++ l⟩ := by
  induction calls with
  | nil =>
    intro t p n hn
    exact ⟨[], List.Sublist.refl _, by simpa [insert_all] using hn⟩
  | cons c cs ih =>
    intro t p n hn
    simp only [insert_all]
    cases hc : t.contains c.2
    · rw [insert_snd_of_not_contains t c.1 c.2 hc]
      obtain ⟨l, hl, h⟩ := ih t p n hn
      exact ⟨l, hl.cons c, h⟩
    · obtain ⟨n0, g1, _, g3, g4⟩ := insert_node_at t c.1 c.2 hc
      by_cases hp : p = t.insert_path c.2
      · rw [hp, g1, Option.some.injEq] at hn
        subst hn
        rw [← hp] at g3
        obtain ⟨l, hl, h⟩ := ih _ p _ g3
        refine ⟨c :: l, hl.cons₂ c, ?_⟩
        rw [h]
        simp
      · obtain ⟨l, hl, h⟩ := ih _ p n (by rw [g4 p hp]; exact hn)
        exact ⟨l, hl.cons c, h⟩

end quad_tree

/-- C21: query(elements) appends and never clears. For every tree and every initial
collection out, the collection afterwards is out followed by what the query takes
from the tree; for a node with children that is the results of the children in the
order NW, NE, SE, SW, each as a whole, followed by the elements of the entries that
the node owns, in the order of its list; and that list is in insertion order: a run
of insert calls appends to it a part of the calls, in their order. -/
theorem query_all_children_then_own {D : Nat} (t : quad_tree E T D) (out : List E) :
    t.query out = out ++ t.query [] ∧
    (∀ (b : qnode E T) (o : List E),
      (quad_tree.leaf b).query o = o ++ b.elements.map Prod.fst) ∧
    (∀ (D1 : Nat) (b : qnode E T) (nw ne se sw : quad_tree E T D1) (o : List E),
      (quad_tree.node b nw ne se sw).query o =
        o ++ nw.query [] ++ ne.query [] ++ se.query [] ++ sw.query [] ++
          b.elements.map Prod.fst) ∧
    (∀ (calls : List (E × rect T)) (p : List Location) (n : qnode E T),
      t.node_at p = some n →
      ∃ l : List (E × rect T), l.Sublist calls ∧
        (t.insert_all calls).1.node_at p = some ⟨n.bounds, n.elements ++ l⟩) := by
  refine ⟨?_, ?_, ?_, ?_⟩
  · rw [quad_tree.query_eq t out, quad_tree.query_eq t [], List.nil_append]
  · intro b o
    simp only [quad_tree.query, qnode.query_appends]
  · intro D1 b nw ne se sw o
    simp only [quad_tree.query, qnode.query_appends, quad_tree.query_eq, List.nil_append,
      List.append_assoc]
  · intro calls p n hn
    exact quad_tree.insert_all_node_at calls t p n hn

theorem int_half (x : Int) (hx : 0 ≤ x) : Coordinate.half x = x / 2 :=
  Int.tdiv_eq_ediv hx (by decide)

/-- Over the integers without bounds, with truncating division and every valid
parent, the eastern quadrants are as wide as the western ones or wider by one, the
southern quadrants are as high as the northern ones or higher by one, and the widths
and the heights of neighbouring quadrants add up to the width and the height of the
parent. -/
theorem int_quadrant_sizes_exact (p : rect Int) (hp : p.valid) :
    ∃ nw ne se sw : rect Int,
      (child_bounds Location.NorthWest p = Except.ok nw ∧
        child_bounds Location.NorthEast p = Except.ok ne ∧
        child_bounds Location.SouthEast p = Except.ok se ∧
        child_bounds Location.SouthWest p = Except.ok sw) ∧
      (ne.width - nw.width = 0 ∨ ne.width - nw.width = 1) ∧
      (se.width - sw.width = 0 ∨ se.width - sw.width = 1) ∧
      (sw.height - nw.height = 0 ∨ sw.height - nw.height = 1) ∧
      (se.height - ne.height = 0 ∨ se.height - ne.height = 1) ∧
      nw.width + ne.width = p.width ∧ sw.width + se.width = p.width ∧
      nw.height + sw.height = p.height ∧ ne.height + se.height = p.height := by
  obtain ⟨h1, h2, h3, h4⟩ := child_bounds_of_valid p hp
  refine ⟨_, _, _, _, ⟨h1, h2, h3, h4⟩, ?_⟩
  obtain ⟨hx, hy⟩ := hp
  have ex := int_half (p.right - p.left) (sub_nonneg.mpr hx)
  have ey := int_half (p.bottom - p.top) (sub_nonneg.mpr hy)
  simp only [rect.width, rect.height, ex, ey]
  omega

/-- Every point of a valid parent lies in one of the four regions of child_bounds. -/
theorem point_in_some_child [Coordinate T] [LawfulCoordinate T] (p : rect T) (hp : p.valid)
    (x y : T) (h : p.contains (rect.point x y) = true) :
    ∃ (loc : Location) (c : rect T), child_bounds loc p = Except.ok c ∧
      c.contains (rect.point x y) = true := by
  obtain ⟨h1, h2, h3, h4⟩ := child_bounds_of_valid p hp
  simp only [rect.contains_iff, rect.point] at h
  obtain ⟨q1, q2, q3, q4⟩ := h
  rcases le_total x (p.left + Coordinate.half (p.right - p.left)) with hx | hx <;>
    rcases le_total y (p.top + Coordinate.half (p.bottom - p.top)) with hy | hy
  · exact ⟨Location.NorthWest, _, h1, (rect.contains_iff _ _).mpr ⟨q1, hx, q3, hy⟩⟩
  · exact ⟨Location.SouthWest, _, h4, (rect.contains_iff _ _).mpr ⟨q1, hx, hy, q4⟩⟩
  · exact ⟨Location.NorthEast, _, h2, (rect.contains_iff _ _).mpr ⟨hx, q2, q3, hy⟩⟩
  · exact ⟨Location.SouthEast, _, h3, (rect.contains_iff _ _).mpr ⟨hx, q2, hy, q4⟩⟩

/-- C23 as stated fails: over the integers there is no valid parent region with a
point inside it that none of the four child regions contains. -/
theorem no_unreachable_point_counterexample :
    ¬ ∃ (p : rect Int) (x y : Int), p.valid ∧ p.contains (rect.point x y) = true ∧
      ∀ (loc : Location) (c : rect Int), child_bounds loc p = Except.ok c →
        c.contains (rect.point x y) = false := by
  rintro ⟨p, x, y, hp, hin, hno⟩
  obtain ⟨loc, c, hc, hcon⟩ := point_in_some_child p hp x y hin
  rw [hno loc c hc] at hcon
  exact Bool.false_ne_true hcon

/-- C23, amended: for integer coordinates with truncating bisection, every point
that lies inside a valid parent region (as a rectangle of no size that the parent
contains) is contained by at least one of the four child regions: truncation
leaves no point unreachable. -/
theorem int_point_reachable (p : rect Int) (hp : p.valid) (x y : Int)
    (h : p.contains (rect.point x y) = true) :
    ∃ (loc : Location) (c : rect Int), child_bounds loc p = Except.ok c ∧
      c.contains (rect.point x y) = true := by
  obtain ⟨h1, h2, h3, h4⟩ := child_bounds_of_valid p hp
  simp only [rect.contains_iff, rect.point] at h
  obtain ⟨q1, q2, q3, q4⟩ := h
  by_cases hx : x ≤ p.left + Coordinate.half (p.right - p.left) <;>
    by_cases hy : y ≤ p.top + Coordinate.half (p.bottom - p.top)
  · exact ⟨Location.NorthWest, _, h1, (rect.contains_iff _ _).mpr ⟨q1, hx, q3, hy⟩⟩
  · exact ⟨Location.SouthWest, _, h4,
      (rect.contains_iff _ _).mpr ⟨q1, hx, le_of_lt (not_le.mp hy), q4⟩⟩
  · exact ⟨Location.NorthEast, _, h2,
      (rect.contains_iff _ _).mpr ⟨le_of_lt (not_le.mp hx), q2, q3, hy⟩⟩
  · exact ⟨Location.SouthEast, _, h3,
      (rect.contains_iff _ _).mpr ⟨le_of_lt (not_le.mp hx), q2, le_of_lt (not_le.mp hy), q4⟩⟩

theorem int_point_reachable_witness :
    ∃ (loc : Location) (c : rect Int),
      child_bounds loc (⟨0, 0, 5, 3⟩ : rect Int) = Except.ok c ∧
      c.contains (rect.point 2 1) = true :=
  int_point_reachable (⟨0, 0, 5, 3⟩ : rect Int) (by decide) 2 1 (by decide)

end order_and_truncation

/-! ## Completeness and exactness of the area query -/

section area_query_lemmas

variable {E T : Type} [LinearOrderedCommRing T]

namespace quad_tree

omit [LinearOrderedCommRing T] in
/-- Every stored entry is owned by the node at some path. -/
theorem mem_entries_node_at {D : Nat} (t : quad_tree E T D) :
    ∀ x ∈ t.entries, ∃ (q : List Location) (n : qnode E T),
      t.node_at q = some n ∧ x ∈ n.elements := by
  induction t with
  | leaf base =>
    intro x hx
    exact ⟨[], base, rfl, hx⟩
  | node base nw ne se sw h1 h2 h3 h4 =>
    intro x hx
    simp only [entries, List.mem_append] at hx
    rcases hx with (((hx | hx) | hx) | hx) | hx
    · obtain ⟨q, n, hn, hm⟩ := h1 x hx
      exact ⟨Location.NorthWest :: q, n, hn, hm⟩
    · obtain ⟨q, n, hn, hm⟩ := h2 x hx
      exact ⟨Location.NorthEast :: q, n, hn, hm⟩
    · obtain ⟨q, n, hn, hm⟩ := h3 x hx
      exact ⟨Location.SouthEast :: q, n, hn, hm⟩
    · obtain ⟨q, n, hn, hm⟩ := h4 x hx
      exact ⟨Location.SouthWest :: q, n, hn, hm⟩
    · exact ⟨[], base, rfl, hx⟩

omit [LinearOrderedCommRing T] in
theorem visit_source {α : Type} (P : α → Prop) (i o : Bool) (all ea eu : List α)
    (h : ∀ x ∈ ea, P x ∨ x ∈ eu) :
    ∀ x ∈ visit i o all ea, P x ∨ x ∈ visit i o all eu := by
  intro x hx
  unfold visit at hx ⊢
  split_ifs at hx ⊢
  · exact Or.inr hx
  · exact h x hx
  · simp at hx

/-- An entry that the area query takes is overlapped by the area or was taken
through the unfiltered case. -/
theorem entries_area_source {D : Nat} (t : quad_tree E T D) (area : rect T) :
    ∀ x ∈ t.entries_area area,
      area.overlaps x.2 = true ∨ x ∈ t.entries_unfiltered area := by
  induction t with
  | leaf base =>
    intro x hx
    simp only [entries_area, List.mem_filter] at hx
    exact Or.inl hx.2
  | node base nw ne se sw h1 h2 h3 h4 =>
    have v1 := visit_source (fun x : E × rect T => area.overlaps x.2 = true)
      (nw.inside area) (nw.overlaps area) nw.entries _ _ h1
    have v2 := visit_source (fun x : E × rect T => area.overlaps x.2 = true)
      (ne.inside area) (ne.overlaps area) ne.entries _ _ h2
    have v3 := visit_source (fun x : E × rect T => area.overlaps x.2 = true)
      (se.inside area) (se.overlaps area) se.entries _ _ h3
    have v4 := visit_source (fun x : E × rect T => area.overlaps x.2 = true)
      (sw.inside area) (sw.overlaps area) sw.entries _ _ h4
    intro x hx
    simp only [entries_area, List.mem_append, List.mem_filter] at hx
    rcases hx with hx | hx
    · exact Or.inl hx.2
    · simp only [entries_unfiltered]
      split_ifs at hx ⊢ with c1 c2 c3 c4
      · exact h1 x hx
      · simp only [List.mem_append] at hx ⊢
        rcases hx with hx | hx
        · exact (v1 x hx).imp id Or.inl
        · exact (h2 x hx).imp id Or.inr
      · simp only [List.mem_append] at hx ⊢
        rcases hx with hx | hx | hx
        · exact (v1 x hx).imp id Or.inl
        · exact (v2 x hx).imp id (fun h => Or.inr (Or.inl h))
        · exact (h3 x hx).imp id (fun h => Or.inr (Or.inr h))
      · simp only [List.mem_append] at hx ⊢
        rcases hx with hx | hx | hx | hx
        · exact (v1 x hx).imp id Or.inl
        · exact (v2 x hx).imp id (fun h => Or.inr (Or.inl h))
        · exact (v3 x hx).imp id (fun h => Or.inr (Or.inr (Or.inl h)))
        · exact (h4 x hx).imp id (fun h => Or.inr (Or.inr (Or.inr h)))
      · simp only [List.mem_append] at hx ⊢
        rcases hx with hx | hx | hx | hx
        · exact (v1 x hx).imp id Or.inl
        · exact (v2 x hx).imp id (fun h => Or.inr (Or.inl h))
        · exact (v3 x hx).imp id (fun h => Or.inr (Or.inr (Or.inl h)))
        · exact (v4 x hx).imp id (fun h => Or.inr (Or.inr (Or.inr h)))

/-- What the unfiltered case takes from below a child is stored below a node, not
the root of the child's parent, whose region lies inside the area. -/
theorem unfiltered_of_child {D : Nat} (b : qnode E T) (nw ne se sw : quad_tree E T D)
    (area : rect T) (loc : Location) (x : E × rect T)
    (ih : ∀ x ∈ ((node b nw ne se sw).child loc).entries_unfiltered area,
      ∃ (p : List Location) (c : qnode E T) (q : List Location) (n : qnode E T),
        p ≠ [] ∧ ((node b nw ne se sw).child loc).node_at p = some c ∧
        area.contains c.bounds = true ∧
        ((node b nw ne se sw).child loc).node_at (p ++ q) = some n ∧ x ∈ n.elements)
    (hx : x ∈ ((node b nw ne se sw).child loc).entries_unfiltered area ∨
      x ∈ visit (((node b nw ne se sw).child loc).inside area)
        (((node b nw ne se sw).child loc).overlaps area)
        ((node b nw ne se sw).child loc).entries
        (((node b nw ne se sw).child loc).entries_unfiltered area)) :
    ∃ (p : List Location) (c : qnode E T) (q : List Location) (n : qnode E T),
      p ≠ [] ∧ (node b nw ne se sw).node_at p = some c ∧ area.contains c.bounds = true ∧
      (node b nw ne se sw).node_at (p ++ q) = some n ∧ x ∈ n.elements := by
  have lift : x ∈ ((node b nw ne se sw).child loc).entries_unfiltered area →
      ∃ (p : List Location) (c : qnode E T) (q : List Location) (n : qnode E T),
        p ≠ [] ∧ (node b nw ne se sw).node_at p = some c ∧ area.contains c.bounds = true ∧
        (node b nw ne se sw).node_at (p ++ q) = some n ∧ x ∈ n.elements := by
    intro h
    obtain ⟨p, c, q, n, _, hc, hin, hn, hm⟩ := ih x h
    exact ⟨loc :: p, c, q, n, List.cons_ne_nil _ _, hc, hin, hn, hm⟩
  rcases hx with hx | hx
  · exact lift hx
  · unfold visit at hx
    split_ifs at hx with hi ho
    · obtain ⟨q, n, hn, hm⟩ := mem_entries_node_at _ x hx
      exact ⟨[loc], _, q, n, List.cons_ne_nil _ _, by simp, hi, hn, hm⟩
    · exact lift hx
    · simp at hx

theorem entries_unfiltered_below_inside {D : Nat} (t : quad_tree E T D) (area : rect T) :
    ∀ x ∈ t.entries_unfiltered area,
      ∃ (p : List Location) (c : qnode E T) (q : List Location) (n : qnode E T),
        p ≠ [] ∧ t.node_at p = some c ∧ area.contains c.bounds = true ∧
        t.node_at (p ++ q) = some n ∧ x ∈ n.elements := by
  induction t with
  | leaf base =>
    intro x hx
    simp [entries_unfiltered] at hx
  | node base nw ne se sw h1 h2 h3 h4 =>
    intro x hx
    have u1 := unfiltered_of_child base nw ne se sw area Location.NorthWest x h1
    have u2 := unfiltered_of_child base nw ne se sw area Location.NorthEast x h2
    have u3 := unfiltered_of_child base nw ne se sw area Location.SouthEast x h3
    have u4 := unfiltered_of_child base nw ne se sw area Location.SouthWest x h4
    simp only [child] at u1 u2 u3 u4
    simp only [entries_unfiltered] at hx
    split_ifs at hx with c1 c2 c3 c4
    · exact u1 (Or.inl hx)
    · simp only [List.mem_append] at hx
      rcases hx with hx | hx
      · exact u1 (Or.inr hx)
      · exact u2 (Or.inl hx)
    · simp only [List.mem_append] at hx
      rcases hx with hx | hx | hx
      · exact u1 (Or.inr hx)
      · exact u2 (Or.inr hx)
      · exact u3 (Or.inl hx)
    · simp only [List.mem_append] at hx
      rcases hx with hx | hx | hx | hx
      · exact u1 (Or.inr hx)
      · exact u2 (Or.inr hx)
      · exact u3 (Or.inr hx)
      · exact u4 (Or.inl hx)
    · simp only [List.mem_append] at hx
      rcases hx with hx | hx | hx | hx
      · exact u1 (Or.inr hx)
      · exact u2 (Or.inr hx)
      · exact u3 (Or.inr hx)
      · exact u4 (Or.inr hx)

end quad_tree
end area_query_lemmas

section area_query_claims

variable {E T : Type} [LinearOrderedCommRing T]

/-- C24: completeness of query(area, elements). In every reachable tree, for every
area and every initial collection, the query appends the elements of a list of
entries (taken) that consists of the stored entries that the area overlaps, each
exactly as often as it is stored, and of entries (extra) taken from among the
stored entries that the area does not overlap, each at most as often as it is
stored: so no overlapped entry is missing and none is returned more often than it
is stored. The stored entries are the entries that the nodes own. And pruning
loses nothing: below a node whose region does not overlap the area no entry is
overlapped by the area. Nothing is assumed about the area. -/
theorem query_area_complete [Coordinate T] {D : Nat} (R : rect T) (t : quad_tree E T D)
    (h : quad_tree.Reachable R t) (area : rect T) (out : List E) :
    (∃ taken extra : List (E × rect T),
      t.query_area area out = out ++ taken.map Prod.fst ∧
      List.Perm taken (overlapping area t.entries ++ extra) ∧
      List.Subperm extra (t.entries.filter (fun x => !area.overlaps x.2)) ∧
      (∀ x ∈ extra, area.overlaps x.2 = false) ∧
      List.Perm (overlapping area taken) (overlapping area t.entries) ∧
      List.Subperm taken t.entries) ∧
    (∀ x : E × rect T, x ∈ t.entries ↔
      ∃ (p : List Location) (n : qnode E T), t.node_at p = some n ∧ x ∈ n.elements) ∧
    (∀ (p : List Location) (c : qnode E T), t.node_at p = some c →
      c.bounds.overlaps area = false →
      ∀ (q : List Location) (n : qnode E T), t.node_at (p ++ q) = some n →
        ∀ x ∈ n.elements, area.overlaps x.2 = false) := by
  obtain ⟨hwf, hinv, _⟩ := h.wf_inv
  have hle : List.Subperm (t.entries_area area) t.entries :=
    Multiset.coe_le.mp (quad_tree.entries_area_le t area)
  have hov : List.Perm (overlapping area (t.entries_area area)) (overlapping area t.entries) :=
    Multiset.coe_eq_coe.mp (quad_tree.overlapping_entries_area t hwf hinv area)
  refine ⟨⟨t.entries_area area,
    (t.entries_area area).filter (fun c => !area.overlaps c.2),
    quad_tree.query_area_eq t area out, ?_, hle.filter _, ?_, hov, hle⟩, ?_, ?_⟩
  · refine (List.filter_append_perm (fun c => area.overlaps c.2) _).symm.trans ?_
    apply List.Perm.append_right
    exact hov
  · intro x hx
    rw [List.mem_filter] at hx
    simpa using hx.2
  · intro x
    constructor
    · exact quad_tree.mem_entries_node_at t x
    · rintro ⟨p, n, hn, hx⟩
      exact quad_tree.node_at_elements_mem t p n hn x hx
  · intro p c hc hno q n hn x hx
    have hcx := quad_tree.inv_node_at t hinv p q c n hc hn x hx
    by_contra ho
    rw [Bool.not_eq_false] at ho
    have := rect.overlaps_of_contains_of_overlaps c.bounds area x.2 hcx ho
    rw [hno] at this
    exact Bool.false_ne_true this

theorem query_area_complete_witness :
    ∃ taken extra : List (Nat × rect Int),
      (example_tree.insert_all [(1, ⟨0, 0, 1, 1⟩), (7, ⟨0, 0, 0, 1⟩)]).1.query_area
          ⟨0, 0, 4, 4⟩ [5] = [5] ++ taken.map Prod.fst ∧
      List.Perm taken
        (overlapping ⟨0, 0, 4, 4⟩
          (example_tree.insert_all [(1, ⟨0, 0, 1, 1⟩), (7, ⟨0, 0, 0, 1⟩)]).1.entries ++
            extra) ∧
      List.Subperm extra
        ((example_tree.insert_all [(1, ⟨0, 0, 1, 1⟩), (7, ⟨0, 0, 0, 1⟩)]).1.entries.filter
          (fun x => !rect.overlaps (⟨0, 0, 4, 4⟩ : rect Int) x.2)) ∧
      (∀ x ∈ extra, rect.overlaps (⟨0, 0, 4, 4⟩ : rect Int) x.2 = false) ∧
      List.Perm (overlapping ⟨0, 0, 4, 4⟩ taken)
        (overlapping ⟨0, 0, 4, 4⟩
          (example_tree.insert_all [(1, ⟨0, 0, 1, 1⟩), (7, ⟨0, 0, 0, 1⟩)]).1.entries) ∧
      List.Subperm taken
        (example_tree.insert_all [(1, ⟨0, 0, 1, 1⟩), (7, ⟨0, 0, 0, 1⟩)]).1.entries :=
  (query_area_complete (⟨0, 0, 4, 4⟩ : rect Int) _
    (quad_tree.Reachable.insert_all [(1, ⟨0, 0, 1, 1⟩), (7, ⟨0, 0, 0, 1⟩)] example_tree
      (quad_tree.Reachable.constructed example_tree example_tree_constructed))
    ⟨0, 0, 4, 4⟩ [5]).1

/-- C25: exactness of query(area, elements) for entries of positive size. In every
reachable tree and for every area: when every stored entry has positive width and
positive height, the result of the area query is a permutation of the elements of
the stored entries that the area overlaps, which is the result of query(elements)
filtered by area.overlaps(bounds). In general, an entry that the area query takes
although the area does not overlap it has, if its bounds are valid, zero width or
zero height, and it was taken through the unfiltered case: it is stored at or below
a node, not the root, whose region lies inside the area. -/
theorem query_area_exact_for_positive_entries [Coordinate T] {D : Nat} (R : rect T)
    (t : quad_tree E T D) (h : quad_tree.Reachable R t) (area : rect T) :
    ((∀ x ∈ t.entries, 0 < x.2.width ∧ 0 < x.2.height) →
      List.Perm (t.query_area area []) ((overlapping area t.entries).map Prod.fst)) ∧
    t.query [] = t.entries.map Prod.fst ∧
    (∀ out : List E, t.query_area area out = out ++ (t.entries_area area).map Prod.fst) ∧
    (∀ x ∈ t.entries_area area, area.overlaps x.2 = false →
      (x.2.valid → x.2.width = 0 ∨ x.2.height = 0) ∧
      x ∈ t.entries_unfiltered area ∧
      ∃ (p : List Location) (c : qnode E T) (q : List Location) (n : qnode E T),
        p ≠ [] ∧ t.node_at p = some c ∧ area.contains c.bounds = true ∧
        t.node_at (p ++ q) = some n ∧ x ∈ n.elements) := by
  obtain ⟨hwf, hinv, _⟩ := h.wf_inv
  have hsub : ∀ x ∈ t.entries_area area, x ∈ t.entries :=
    fun x hx => (Multiset.coe_le.mp (quad_tree.entries_area_le t area)).subset hx
  refine ⟨?_, ?_, quad_tree.query_area_eq t area, ?_⟩
  · intro hpos
    have hnil : (t.entries_area area).filter (fun c => !area.overlaps c.2) = [] := by
      rw [List.eq_nil_iff_forall_not_mem]
      intro x hx
      rw [List.mem_filter] at hx
      obtain ⟨hw, hh⟩ := hpos x (hsub x hx.1)
      exact quad_tree.entries_area_not_positive t hinv area x hx.1 (by simpa using hx.2)
        ⟨sub_pos.mp hw, sub_pos.mp hh⟩
    have hsplit := (List.filter_append_perm (fun c => area.overlaps c.2)
      (t.entries_area area)).symm
    rw [hnil, List.append_nil] at hsplit
    rw [quad_tree.query_area_eq, List.nil_append]
    exact (hsplit.trans
      (Multiset.coe_eq_coe.mp (quad_tree.overlapping_entries_area t hwf hinv area))).map _
  · rw [quad_tree.query_eq, List.nil_append]
  · intro x hx ho
    have hnp := quad_tree.entries_area_not_positive t hinv area x hx ho
    have hun : x ∈ t.entries_unfiltered area := by
      rcases quad_tree.entries_area_source t area x hx with h1 | h1
      · rw [ho] at h1
        exact absurd h1 Bool.false_ne_true
      · exact h1
    refine ⟨?_, hun, quad_tree.entries_unfiltered_below_inside t area x hun⟩
    intro hv
    obtain ⟨v1, v2⟩ := hv
    simp only [rect.width, rect.height]
    by_cases hw : x.2.left < x.2.right
    · right
      have hb : ¬ x.2.top < x.2.bottom := fun hb => hnp ⟨hw, hb⟩
      exact sub_eq_zero.mpr (le_antisymm (not_lt.mp hb) v2)
    · left
      exact sub_eq_zero.mpr (le_antisymm (not_lt.mp hw) v1)

theorem query_area_exact_for_positive_entries_witness :
    List.Perm
      ((example_tree.insert_all [(1, ⟨0, 0, 1, 1⟩), (2, ⟨3, 3, 4, 4⟩)]).1.query_area
        ⟨0, 0, 2, 4⟩ [])
      ((overlapping ⟨0, 0, 2, 4⟩
        (example_tree.insert_all [(1, ⟨0, 0, 1, 1⟩), (2, ⟨3, 3, 4, 4⟩)]).1.entries).map
          Prod.fst) :=
  (query_area_exact_for_positive_entries (⟨0, 0, 4, 4⟩ : rect Int) _
    (quad_tree.Reachable.insert_all [(1, ⟨0, 0, 1, 1⟩), (2, ⟨3, 3, 4, 4⟩)] example_tree
      (quad_tree.Reachable.constructed example_tree example_tree_constructed))
    ⟨0, 0, 2, 4⟩).1 (by decide)

end area_query_claims

/-! ## Lemmas on fixed-width signed integer coordinates -/

section signed_lemmas

variable {E : Type}

theorem pow_bits (bits : Nat) (hb : 0 < bits) : (2 : Int) ^ bits = 2 * 2 ^ (bits - 1) := by
  obtain ⟨k, rfl⟩ : ∃ k, bits = k + 1 := ⟨bits - 1, by omega⟩
  simp only [Nat.add_sub_cancel, pow_succ]
  ring

/-- Wrap-around is the identity on the values of the type. -/
theorem wrap_of_in_range (bits : Nat) (x : Int) (hb : 0 < bits) (h : in_range bits x) :
    wrap bits x = x := by
  unfold wrap
  obtain ⟨h1, h2⟩ := h
  rw [pow_bits bits hb, Int.emod_eq_of_lt (by linarith) (by linarith)]
  ring

/-- From three bits on, 2 is a value of the type. -/
theorem in_range_two (bits : Nat) (hb : 3 ≤ bits) : in_range bits 2 := by
  have h : (2 : Int) ^ 2 ≤ 2 ^ (bits - 1) := pow_le_pow_right₀ (by norm_num) (by omega)
  norm_num at h
  constructor <;> linarith

/-- Without overflow the midpoint computed in the signed integer type is the
midpoint computed in the integers, and it lies between the two ends. -/
theorem mid_signed_eq (bits : Nat) (lo hi : Int) (hb : 3 ≤ bits) (hlo : in_range bits lo)
    (hhi : in_range bits hi) (h : lo ≤ hi) (hd : in_range bits (hi - lo)) :
    add_signed bits lo (div_signed bits (sub_signed bits hi lo) (wrap bits 2)) =
      lo + Coordinate.half (hi - lo) := by
  have hb0 : 0 < bits := by omega
  have hq : Int.tdiv (hi - lo) 2 = (hi - lo) / 2 := Int.tdiv_eq_ediv (by omega) (by decide)
  unfold add_signed div_signed sub_signed
  rw [wrap_of_in_range bits (hi - lo) hb0 hd, wrap_of_in_range bits 2 hb0 (in_range_two bits hb)]
  show wrap bits (lo + wrap bits (Int.tdiv (hi - lo) 2)) = lo + Int.tdiv (hi - lo) 2
  rw [hq]
  unfold in_range at hlo hhi hd
  rw [wrap_of_in_range bits ((hi - lo) / 2) hb0 (by unfold in_range; constructor <;> omega)]
  exact wrap_of_in_range bits _ hb0 (by unfold in_range; constructor <;> omega)

/-- Without overflow child_bounds over the signed integer type computes what
child_bounds computes over the integers. -/
theorem child_bounds_signed_eq (bits : Nat) (loc : Location) (p : rect Int) (hb : 3 ≤ bits)
    (hp : p.valid) (ho : p.no_overflow bits) :
    child_bounds_signed bits loc p = child_bounds loc p := by
  obtain ⟨⟨h1, h2, h3, h4⟩, h5, h6⟩ := ho
  have hx := mid_signed_eq bits p.left p.right hb h1 h3 hp.1 h5
  have hy := mid_signed_eq bits p.top p.bottom hb h2 h4 hp.2 h6
  cases loc <;> simp only [child_bounds_signed, child_bounds, hx, hy]

/-- The bisection of a child of a parent without overflow does not overflow. -/
theorem child_bounds_no_overflow (bits : Nat) (loc : Location) (p c : rect Int)
    (hp : p.valid) (ho : p.no_overflow bits) (hc : child_bounds loc p = Except.ok c) :
    c.no_overflow bits := by
  obtain ⟨h1, h2, h3, h4⟩ := child_bounds_of_valid p hp
  obtain ⟨hx1, hx2⟩ := mid_bounds p.left p.right hp.1
  obtain ⟨hy1, hy2⟩ := mid_bounds p.top p.bottom hp.2
  obtain ⟨hl, ht⟩ := hp
  unfold rect.no_overflow rect.representable in_range at ho ⊢
  obtain ⟨⟨⟨a1, a2⟩, ⟨a3, a4⟩, ⟨a5, a6⟩, ⟨a7, a8⟩⟩, ⟨a9, a10⟩, ⟨a11, a12⟩⟩ := ho
  generalize p.left + Coordinate.half (p.right - p.left) = mx at h1 h2 h3 h4 hx1 hx2
  generalize p.top + Coordinate.half (p.bottom - p.top) = my at h1 h2 h3 h4 hy1 hy2
  cases loc
  · rw [h1] at hc
    simp only [Except.ok.injEq] at hc
    subst hc
    dsimp only
    refine ⟨⟨⟨?_, ?_⟩, ⟨?_, ?_⟩, ⟨?_, ?_⟩, ⟨?_, ?_⟩⟩, ⟨?_, ?_⟩, ⟨?_, ?_⟩⟩ <;> omega
  · rw [h2] at hc
    simp only [Except.ok.injEq] at hc
    subst hc
    dsimp only
    refine ⟨⟨⟨?_, ?_⟩, ⟨?_, ?_⟩, ⟨?_, ?_⟩, ⟨?_, ?_⟩⟩, ⟨?_, ?_⟩, ⟨?_, ?_⟩⟩ <;> omega
  · rw [h3] at hc
    simp only [Except.ok.injEq] at hc
    subst hc
    dsimp only
    refine ⟨⟨⟨?_, ?_⟩, ⟨?_, ?_⟩, ⟨?_, ?_⟩, ⟨?_, ?_⟩⟩, ⟨?_, ?_⟩, ⟨?_, ?_⟩⟩ <;> omega
  · rw [h4] at hc
    simp only [Except.ok.injEq] at hc
    subst hc
    dsimp only
    refine ⟨⟨⟨?_, ?_⟩, ⟨?_, ?_⟩, ⟨?_, ?_⟩, ⟨?_, ?_⟩⟩, ⟨?_, ?_⟩, ⟨?_, ?_⟩⟩ <;> omega

theorem except_ok_bind {ε α β : Type} (a : α) (f : α → Except ε β) :
    (Except.ok a >>= f) = f a := rfl

/-- Without overflow the constructor over the signed integer type builds the tree
that the constructor builds over the integers. -/
theorem quad_tree.build_signed_eq (bits : Nat) (hb : 3 ≤ bits) :
    ∀ (D : Nat) (p : rect Int), p.valid → p.no_overflow bits →
      (quad_tree.build_signed bits D p : Except Error (quad_tree E Int D)) =
        quad_tree.build D p := by
  intro D
  induction D with
  | zero =>
    intro p _ _
    rfl
  | succ D ih =>
    intro p hp ho
    obtain ⟨h1, h2, h3, h4⟩ := child_bounds_of_valid p hp
    simp only [quad_tree.build_signed, quad_tree.build,
      child_bounds_signed_eq bits _ p hb hp ho]
    have g1 := ih _ (child_bounds_valid p _ _ h1) (child_bounds_no_overflow bits _ p _ hp ho h1)
    have g2 := ih _ (child_bounds_valid p _ _ h2) (child_bounds_no_overflow bits _ p _ hp ho h2)
    have g3 := ih _ (child_bounds_valid p _ _ h3) (child_bounds_no_overflow bits _ p _ hp ho h3)
    have g4 := ih _ (child_bounds_valid p _ _ h4) (child_bounds_no_overflow bits _ p _ hp ho h4)
    rw [h1, h2, h3, h4]
    simp only [except_ok_bind, g1, g2, g3, g4]

end signed_lemmas

/-! ## Claims on child_bounds and construction -/

section bisection_claims

/-- Without overflow width and height over the signed integer type are the width and
the height over the integers. -/
theorem rect.size_signed_eq (bits : Nat) (r : rect Int) (hb : 3 ≤ bits)
    (ho : r.no_overflow bits) :
    r.width_signed bits = r.width ∧ r.height_signed bits = r.height :=
  ⟨wrap_of_in_range bits _ (by omega) ho.2.1, wrap_of_in_range bits _ (by omega) ho.2.2⟩

/-- C7: for every valid parent rectangle, with exact rational coordinates, or with
truncating integer coordinates of a signed type of at least three bits in which
right - left and bottom - top do not overflow, the four regions of child_bounds are
constructed without failure, are valid, lie in the parent, do not overlap one
another, cover every point of the parent, and their areas (as exact numbers) add up
to the area of the parent. In the integer case the bisection of the four regions
does not overflow either. -/
theorem child_bounds_partition :
    (∀ p : rect Rat, p.valid →
      ∃ nw ne se sw : rect Rat,
        (child_bounds Location.NorthWest p = Except.ok nw ∧
          child_bounds Location.NorthEast p = Except.ok ne ∧
          child_bounds Location.SouthEast p = Except.ok se ∧
          child_bounds Location.SouthWest p = Except.ok sw) ∧
        (nw.valid ∧ ne.valid ∧ se.valid ∧ sw.valid) ∧
        (p.contains nw = true ∧ p.contains ne = true ∧ p.contains se = true ∧
          p.contains sw = true) ∧
        List.Pairwise (fun a b => a.overlaps b = false ∧ b.overlaps a = false)
          [nw, ne, se, sw] ∧
        (∀ x y : Rat, p.contains (rect.point x y) = true →
          nw.contains (rect.point x y) = true ∨ ne.contains (rect.point x y) = true ∨
          se.contains (rect.point x y) = true ∨ sw.contains (rect.point x y) = true) ∧
        nw.area + ne.area + se.area + sw.area = p.area) ∧
    (∀ (bits : Nat) (p : rect Int), 3 ≤ bits → p.valid → p.no_overflow bits →
      ∃ nw ne se sw : rect Int,
        (child_bounds_signed bits Location.NorthWest p = Except.ok nw ∧
          child_bounds_signed bits Location.NorthEast p = Except.ok ne ∧
          child_bounds_signed bits Location.SouthEast p = Except.ok se ∧
          child_bounds_signed bits Location.SouthWest p = Except.ok sw) ∧
        (nw.valid ∧ ne.valid ∧ se.valid ∧ sw.valid) ∧
        (p.contains nw = true ∧ p.contains ne = true ∧ p.contains se = true ∧
          p.contains sw = true) ∧
        List.Pairwise (fun a b => a.overlaps b = false ∧ b.overlaps a = false)
          [nw, ne, se, sw] ∧
        (∀ x y : Int, p.contains (rect.point x y) = true →
          nw.contains (rect.point x y) = true ∨ ne.contains (rect.point x y) = true ∨
          se.contains (rect.point x y) = true ∨ sw.contains (rect.point x y) = true) ∧
        nw.area + ne.area + se.area + sw.area = p.area ∧
        (nw.no_overflow bits ∧ ne.no_overflow bits ∧ se.no_overflow bits ∧
          sw.no_overflow bits)) := by
  refine ⟨fun p hp => child_bounds_partition_lawful p hp, ?_⟩
  intro bits p hb hp ho
  obtain ⟨nw, ne, se, sw, ⟨h1, h2, h3, h4⟩, hv, hc, hd, hx, ha⟩ :=
    child_bounds_partition_lawful p hp
  refine ⟨nw, ne, se, sw, ?_, hv, hc, hd, hx, ha,
    child_bounds_no_overflow bits _ p _ hp ho h1, child_bounds_no_overflow bits _ p _ hp ho h2,
    child_bounds_no_overflow bits _ p _ hp ho h3, child_bounds_no_overflow bits _ p _ hp ho h4⟩
  simp only [child_bounds_signed_eq bits _ p hb hp ho]
  exact ⟨h1, h2, h3, h4⟩

theorem child_bounds_partition_witness :
    (rect.valid (⟨0, 0, 5, 3⟩ : rect Rat) ∧
      ∃ nw ne se sw : rect Rat,
        (child_bounds Location.NorthWest (⟨0, 0, 5, 3⟩ : rect Rat) = Except.ok nw ∧
          child_bounds Location.NorthEast (⟨0, 0, 5, 3⟩ : rect Rat) = Except.ok ne ∧
          child_bounds Location.SouthEast (⟨0, 0, 5, 3⟩ : rect Rat) = Except.ok se ∧
          child_bounds Location.SouthWest (⟨0, 0, 5, 3⟩ : rect Rat) = Except.ok sw) ∧
        List.Pairwise (fun a b => a.overlaps b = false ∧ b.overlaps a = false)
          [nw, ne, se, sw] ∧
        nw.area + ne.area + se.area + sw.area = rect.area (⟨0, 0, 5, 3⟩ : rect Rat)) ∧
    (3 ≤ 32 ∧ rect.valid (⟨0, 0, 5, 3⟩ : rect Int) ∧
      rect.no_overflow 32 ⟨0, 0, 5, 3⟩ ∧
      ∃ nw ne se sw : rect Int,
        (child_bounds_signed 32 Location.NorthWest ⟨0, 0, 5, 3⟩ = Except.ok nw ∧
          child_bounds_signed 32 Location.NorthEast ⟨0, 0, 5, 3⟩ = Except.ok ne ∧
          child_bounds_signed 32 Location.SouthEast ⟨0, 0, 5, 3⟩ = Except.ok se ∧
          child_bounds_signed 32 Location.SouthWest ⟨0, 0, 5, 3⟩ = Except.ok sw) ∧
        List.Pairwise (fun a b => a.overlaps b = false ∧ b.overlaps a = false)
          [nw, ne, se, sw] ∧
        nw.area + ne.area + se.area + sw.area = rect.area (⟨0, 0, 5, 3⟩ : rect Int)) := by
  have hq : rect.valid (⟨0, 0, 5, 3⟩ : rect Rat) := by norm_num [rect.valid]
  obtain ⟨nw, ne, se, sw, h1, _, _, h4, _, h6⟩ :=
    child_bounds_partition.1 ⟨0, 0, 5, 3⟩ hq
  obtain ⟨nw2, ne2, se2, sw2, g1, _, _, g4, _, g6, _⟩ :=
    child_bounds_partition.2 32 ⟨0, 0, 5, 3⟩ (by decide) (by decide) (by decide)
  exact ⟨⟨hq, nw, ne, se, sw, h1, h4, h6⟩,
    ⟨by decide, by decide, by decide, nw2, ne2, se2, sw2, g1, g4, g6⟩⟩

/-- C7, counterexample: the rectangle (-2000000000, -2000000000, 2000000000,
2000000000) is valid and its coordinates are values of a signed type of 32 bits, but
right - left overflows: the midpoint comes out left of the left edge, and the
construction of the NorthWest region fails. -/
theorem child_bounds_overflow_counterexample :
    rect.valid (⟨-2000000000, -2000000000, 2000000000, 2000000000⟩ : rect Int) ∧
    rect.representable 32 ⟨-2000000000, -2000000000, 2000000000, 2000000000⟩ ∧
    add_signed 32 (-2000000000)
      (div_signed 32 (sub_signed 32 2000000000 (-2000000000)) (wrap 32 2)) = -2147483648 ∧
    child_bounds_signed 32 Location.NorthWest
      ⟨-2000000000, -2000000000, 2000000000, 2000000000⟩ =
        Except.error Error.invalid_argument :=
  ⟨by decide, by decide, by decide, rfl⟩

/-- C8: for every valid parent (l, t, r, b), with mx = l + (r - l)/2 and
my = t + (b - t)/2 in the arithmetic of the coordinate type, which is exact rational
arithmetic or that of a signed integer type of at least three bits in which r - l
and b - t do not overflow, child_bounds returns NW = (l, t, mx, my),
NE = (mx, t, r, my), SE = (mx, my, r, b), SW = (l, my, mx, b), and a tree of depth
greater than zero is constructed with exactly these regions for its children, in
the order NW, NE, SE, SW. In the integer case mx and my are the truncated midpoints
of the integers. -/
theorem child_bounds_quadrants (E : Type) :
    (∀ (p : rect Rat) (mx my : Rat), p.valid →
      mx = p.left + (p.right - p.left) / 2 → my = p.top + (p.bottom - p.top) / 2 →
      child_bounds Location.NorthWest p = Except.ok ⟨p.left, p.top, mx, my⟩ ∧
      child_bounds Location.NorthEast p = Except.ok ⟨mx, p.top, p.right, my⟩ ∧
      child_bounds Location.SouthEast p = Except.ok ⟨mx, my, p.right, p.bottom⟩ ∧
      child_bounds Location.SouthWest p = Except.ok ⟨p.left, my, mx, p.bottom⟩ ∧
      ∀ D : Nat, ∃ nw ne se sw : quad_tree E Rat D,
        quad_tree.build (D + 1) p = Except.ok (quad_tree.node ⟨p, []⟩ nw ne se sw) ∧
        nw.get_bounds = ⟨p.left, p.top, mx, my⟩ ∧
        ne.get_bounds = ⟨mx, p.top, p.right, my⟩ ∧
        se.get_bounds = ⟨mx, my, p.right, p.bottom⟩ ∧
        sw.get_bounds = ⟨p.left, my, mx, p.bottom⟩) ∧
    (∀ (bits : Nat) (p : rect Int) (mx my : Int), 3 ≤ bits → p.valid →
      p.no_overflow bits →
      mx = add_signed bits p.left
        (div_signed bits (sub_signed bits p.right p.left) (wrap bits 2)) →
      my = add_signed bits p.top
        (div_signed bits (sub_signed bits p.bottom p.top) (wrap bits 2)) →
      (mx = p.left + Int.tdiv (p.right - p.left) 2 ∧
        my = p.top + Int.tdiv (p.bottom - p.top) 2) ∧
      child_bounds_signed bits Location.NorthWest p = Except.ok ⟨p.left, p.top, mx, my⟩ ∧
      child_bounds_signed bits Location.NorthEast p = Except.ok ⟨mx, p.top, p.right, my⟩ ∧
      child_bounds_signed bits Location.SouthEast p =
        Except.ok ⟨mx, my, p.right, p.bottom⟩ ∧
      child_bounds_signed bits Location.SouthWest p = Except.ok ⟨p.left, my, mx, p.bottom⟩ ∧
      ∀ D : Nat, ∃ nw ne se sw : quad_tree E Int D,
        quad_tree.build_signed bits (D + 1) p =
          Except.ok (quad_tree.node ⟨p, []⟩ nw ne se sw) ∧
        nw.get_bounds = ⟨p.left, p.top, mx, my⟩ ∧
        ne.get_bounds = ⟨mx, p.top, p.right, my⟩ ∧
        se.get_bounds = ⟨mx, my, p.right, p.bottom⟩ ∧
        sw.get_bounds = ⟨p.left, my, mx, p.bottom⟩) := by
  refine ⟨fun p mx my hp hmx hmy => child_bounds_quadrants_lawful E p hp mx my hmx hmy, ?_⟩
  intro bits p mx my hb hp ho hmx hmy
  obtain ⟨⟨a1, a2, a3, a4⟩, a5, a6⟩ := ho
  have ex := mid_signed_eq bits p.left p.right hb a1 a3 hp.1 a5
  have ey := mid_signed_eq bits p.top p.bottom hb a2 a4 hp.2 a6
  rw [ex] at hmx
  rw [ey] at hmy
  obtain ⟨h1, h2, h3, h4, h5⟩ := child_bounds_quadrants_lawful E p hp mx my hmx hmy
  have ho : p.no_overflow bits := ⟨⟨a1, a2, a3, a4⟩, a5, a6⟩
  simp only [child_bounds_signed_eq bits _ p hb hp ho, quad_tree.build_signed_eq bits hb _ p hp ho]
  exact ⟨⟨hmx, hmy⟩, h1, h2, h3, h4, h5⟩

theorem child_bounds_quadrants_witness :
    (rect.valid (⟨0, 0, 10, 10⟩ : rect Rat) ∧
      child_bounds Location.NorthWest (⟨0, 0, 10, 10⟩ : rect Rat) = Except.ok ⟨0, 0, 5, 5⟩ ∧
      child_bounds Location.NorthEast (⟨0, 0, 10, 10⟩ : rect Rat) = Except.ok ⟨5, 0, 10, 5⟩ ∧
      child_bounds Location.SouthEast (⟨0, 0, 10, 10⟩ : rect Rat) = Except.ok ⟨5, 5, 10, 10⟩ ∧
      child_bounds Location.SouthWest (⟨0, 0, 10, 10⟩ : rect Rat) = Except.ok ⟨0, 5, 5, 10⟩) ∧
    (3 ≤ 32 ∧ rect.valid (⟨0, 0, 10, 10⟩ : rect Int) ∧ rect.no_overflow 32 ⟨0, 0, 10, 10⟩ ∧
      child_bounds_signed 32 Location.NorthWest ⟨0, 0, 10, 10⟩ = Except.ok ⟨0, 0, 5, 5⟩ ∧
      child_bounds_signed 32 Location.NorthEast ⟨0, 0, 10, 10⟩ = Except.ok ⟨5, 0, 10, 5⟩ ∧
      child_bounds_signed 32 Location.SouthEast ⟨0, 0, 10, 10⟩ = Except.ok ⟨5, 5, 10, 10⟩ ∧
      child_bounds_signed 32 Location.SouthWest ⟨0, 0, 10, 10⟩ = Except.ok ⟨0, 5, 5, 10⟩ ∧
      ∃ nw ne se sw : quad_tree Nat Int 0,
        quad_tree.build_signed 32 1 ⟨0, 0, 10, 10⟩ =
          Except.ok (quad_tree.node ⟨⟨0, 0, 10, 10⟩, []⟩ nw ne se sw) ∧
        nw.get_bounds = ⟨0, 0, 5, 5⟩ ∧ ne.get_bounds = ⟨5, 0, 10, 5⟩ ∧
        se.get_bounds = ⟨5, 5, 10, 10⟩ ∧ sw.get_bounds = ⟨0, 5, 5, 10⟩) :=
  have hv : rect.valid (⟨0, 0, 10, 10⟩ : rect Rat) := by norm_num [rect.valid]
  have hq := (child_bounds_quadrants Nat).1 ⟨0, 0, 10, 10⟩ 5 5 hv (by norm_num)
    (by norm_num)
  have hi := (child_bounds_quadrants Nat).2 32 ⟨0, 0, 10, 10⟩ 5 5 (by decide) (by decide)
    (by decide) (by decide) (by decide)
  ⟨⟨hv, hq.1, hq.2.1, hq.2.2.1, hq.2.2.2.1⟩,
    ⟨by decide, by decide, by decide, hi.2.1, hi.2.2.1, hi.2.2.2.1, hi.2.2.2.2.1,
      hi.2.2.2.2.2 0⟩⟩

/-- C8, counterexample: over a signed type of 32 bits the constructor of a tree of
depth 1 fails on the valid root (-2000000000, -2000000000, 2000000000, 2000000000),
whose coordinates are values of the type: r - l overflows and no tree is
constructed. -/
theorem build_overflow_counterexample :
    rect.valid (⟨-2000000000, -2000000000, 2000000000, 2000000000⟩ : rect Int) ∧
    rect.representable 32 ⟨-2000000000, -2000000000, 2000000000, 2000000000⟩ ∧
    (quad_tree.build_signed 32 1 ⟨-2000000000, -2000000000, 2000000000, 2000000000⟩ :
      Except Error (quad_tree Nat Int 1)) = Except.error Error.invalid_argument :=
  ⟨by decide, by decide, rfl⟩

/-- C22: for truncating integer coordinates of a signed type of at least three bits
and every valid parent in which right - left and bottom - top do not overflow, the
eastern quadrants are as wide as the western ones or wider by one, the southern
quadrants are as high as the northern ones or higher by one, and the widths and
the heights of neighbouring quadrants add up to the width and the height of the
parent. -/
theorem int_quadrant_sizes (bits : Nat) (p : rect Int) (hb : 3 ≤ bits) (hp : p.valid)
    (ho : p.no_overflow bits) :
    ∃ nw ne se sw : rect Int,
      (child_bounds_signed bits Location.NorthWest p = Except.ok nw ∧
        child_bounds_signed bits Location.NorthEast p = Except.ok ne ∧
        child_bounds_signed bits Location.SouthEast p = Except.ok se ∧
        child_bounds_signed bits Location.SouthWest p = Except.ok sw) ∧
      (ne.width_signed bits - nw.width_signed bits = 0 ∨
        ne.width_signed bits - nw.width_signed bits = 1) ∧
      (se.width_signed bits - sw.width_signed bits = 0 ∨
        se.width_signed bits - sw.width_signed bits = 1) ∧
      (sw.height_signed bits - nw.height_signed bits = 0 ∨
        sw.height_signed bits - nw.height_signed bits = 1) ∧
      (se.height_signed bits - ne.height_signed bits = 0 ∨
        se.height_signed bits - ne.height_signed bits = 1) ∧
      nw.width_signed bits + ne.width_signed bits = p.width_signed bits ∧
      sw.width_signed bits + se.width_signed bits = p.width_signed bits ∧
      nw.height_signed bits + sw.height_signed bits = p.height_signed bits ∧
      ne.height_signed bits + se.height_signed bits = p.height_signed bits := by
  obtain ⟨nw, ne, se, sw, ⟨h1, h2, h3, h4⟩, h⟩ := int_quadrant_sizes_exact p hp
  refine ⟨nw, ne, se, sw, ?_, ?_⟩
  · simp only [child_bounds_signed_eq bits _ p hb hp ho]
    exact ⟨h1, h2, h3, h4⟩
  · obtain ⟨e1, e2⟩ := rect.size_signed_eq bits p hb ho
    obtain ⟨e3, e4⟩ := rect.size_signed_eq bits nw hb
      (child_bounds_no_overflow bits _ p _ hp ho h1)
    obtain ⟨e5, e6⟩ := rect.size_signed_eq bits ne hb
      (child_bounds_no_overflow bits _ p _ hp ho h2)
    obtain ⟨e7, e8⟩ := rect.size_signed_eq bits se hb
      (child_bounds_no_overflow bits _ p _ hp ho h3)
    obtain ⟨e9, e10⟩ := rect.size_signed_eq bits sw hb
      (child_bounds_no_overflow bits _ p _ hp ho h4)
    rw [e1, e2, e3, e4, e5, e6, e7, e8, e9, e10]
    exact h

theorem int_quadrant_sizes_witness :
    3 ≤ 32 ∧ rect.valid (⟨0, 0, 5, 3⟩ : rect Int) ∧ rect.no_overflow 32 ⟨0, 0, 5, 3⟩ ∧
    ∃ nw ne se sw : rect Int,
      (child_bounds_signed 32 Location.NorthWest ⟨0, 0, 5, 3⟩ = Except.ok nw ∧
        child_bounds_signed 32 Location.NorthEast ⟨0, 0, 5, 3⟩ = Except.ok ne ∧
        child_bounds_signed 32 Location.SouthEast ⟨0, 0, 5, 3⟩ = Except.ok se ∧
        child_bounds_signed 32 Location.SouthWest ⟨0, 0, 5, 3⟩ = Except.ok sw) ∧
      (ne.width_signed 32 - nw.width_signed 32 = 0 ∨
        ne.width_signed 32 - nw.width_signed 32 = 1) ∧
      nw.width_signed 32 + ne.width_signed 32 = rect.width_signed 32 ⟨0, 0, 5, 3⟩ := by
  obtain ⟨nw, ne, se, sw, h, h1, _, _, _, h5, _⟩ :=
    int_quadrant_sizes 32 ⟨0, 0, 5, 3⟩ (by decide) (by decide) (by decide)
  exact ⟨by decide, by decide, by decide, nw, ne, se, sw, h, h1, h5⟩

/-- C22, counterexample: over a signed type of 32 bits the valid parent
(-2147483648, 0, 2147483647, 0) has its coordinates in the type, but right - left
overflows: the NorthWest region is (-2147483648, 0, -2147483648, 0) of width 0, the
NorthEast region is the parent itself, whose width comes out as -1, so that
width(NE) - width(NW) is -1, neither 0 nor 1, and the eastern quadrant is the
smaller one. -/
theorem quadrant_sizes_overflow_counterexample :
    rect.valid (⟨-2147483648, 0, 2147483647, 0⟩ : rect Int) ∧
    rect.representable 32 ⟨-2147483648, 0, 2147483647, 0⟩ ∧
    child_bounds_signed 32 Location.NorthWest ⟨-2147483648, 0, 2147483647, 0⟩ =
      Except.ok ⟨-2147483648, 0, -2147483648, 0⟩ ∧
    child_bounds_signed 32 Location.NorthEast ⟨-2147483648, 0, 2147483647, 0⟩ =
      Except.ok ⟨-2147483648, 0, 2147483647, 0⟩ ∧
    rect.width_signed 32 ⟨-2147483648, 0, -2147483648, 0⟩ = 0 ∧
    rect.width_signed 32 ⟨-2147483648, 0, 2147483647, 0⟩ = -1 ∧
    rect.width_signed 32 ⟨-2147483648, 0, 2147483647, 0⟩ -
      rect.width_signed 32 ⟨-2147483648, 0, -2147483648, 0⟩ = -1 :=
  ⟨by decide, by decide, rfl, rfl, by decide, by decide, by decide⟩

end bisection_claims

end qtree
